import Mathlib

/-!
# Ukkonen suffix-tree construction (`st.hpp` / `st.cc`)

A shallow embedding of `ukkonen::suffix_tree_t` and of the functions of
`namespace detail` (`has_transition`, `link`, `make_transitions`, the two `g_`
overloads, `canonize`, `test_and_split`, `update`) and of `make_suffix_tree`.

Modelling conventions.

* `std::vector` is `List`; `size_t` is `Nat`; `int_type` (`int`) is `Int`.
  Characters are the `int` values the code compares them as (`char` promoted to
  `int`), so a byte `>= 0x80` of a signed `char` is a negative `Int`.
* Every `assert` of the source and every unchecked `operator[]` outside its
  range is a contract check: the embedding returns `Except.error` there, with a
  constructor of `Err` naming the check.
* `std::string::operator[]` at `pos == size()` yields the null character; the
  embedding does the same (`text_at`).
* The two `while` loops take a fuel argument; running out of fuel is
  `Err.fuel`.  The `for` loop of `make_suffix_tree` is bounded by the length of
  the text and needs none.
* `int` arithmetic is done in `Int`.  Overflow of `int` is undefined behaviour
  and is not modelled; positions stay within the length of the text, so it
  needs a text of about `2 ^ 31` characters.
-/

namespace ukkonen

/-- The contract checks of the source, one constructor per kind. -/
inductive Err where
  /-- node index outside `t.nodes` (`assert (s < t.nodes.size ())`, `t.nodes [s]`) -/
  | node
  /-- transition-set index zero or outside `t.transitions` -/
  | tset
  /-- no transition on the character (`assert (iter != ts.end ())`) -/
  | missing
  /-- edge index outside `t.edges` (`assert (e < t.edges.size ())`) -/
  | edge
  /-- text index outside `[0, size]` -/
  | text
  /-- negative position (`assert (k >= 0)`, `assert (k_ >= 0)`) -/
  | negative
  /-- a `while` loop ran longer than the fuel given -/
  | fuel
  deriving DecidableEq, Repr

instance {ε α : Type} [DecidableEq ε] [DecidableEq α] : DecidableEq (Except ε α) := fun a b =>
  match a, b with
  | .ok x, .ok y =>
    if h : x = y then isTrue (by rw [h]) else isFalse (fun h1 => h (by cases h1; rfl))
  | .error x, .error y =>
    if h : x = y then isTrue (by rw [h]) else isFalse (fun h1 => h (by cases h1; rfl))
  | .ok _, .error _ => isFalse (fun h => by cases h)
  | .error _, .ok _ => isFalse (fun h => by cases h)

/-- Type `node_type = tuple< size_type, size_type >`; 0: link, 1: transition set index. -/
structure node_type where
  link : Nat
  tset : Nat
  deriving DecidableEq, Repr

/-- Type `transition_type = tuple< int_type, size_type >`; 0: transition character, 1: edge index. -/
structure transition_type where
  c : Int
  e : Nat
  deriving DecidableEq, Repr

/-- Type `edge_type = tuple< size_t, int_type, int_type, size_type >`; 0: s, 1: k, 2: p, 3: s'. -/
structure edge_type where
  s : Nat
  k : Int
  p : Int
  s_ : Nat
  deriving DecidableEq, Repr

/-- The tree, `struct suffix_tree_t`. -/
structure suffix_tree_t where
  text : List Int
  nodes : List node_type
  transitions : List (List transition_type)
  edges : List edge_type
  deriving DecidableEq, Repr

/-- The auxiliary state, `suffix_tree_t::aux`. -/
abbrev aux : Nat := 0

/-- The root, `suffix_tree_t::root`. -/
abbrev root : Nat := 1

/-- The value of `numeric_limits< int_type >::max ()` for a 32-bit `int`. -/
abbrev int_max : Int := 2147483647

/-- The terminator `T ('~')`. -/
abbrev tilde : Int := 126

/-- The read `t.text [k]`: the character at `k`, the null character at `k == size ()`. -/
def text_at (t : suffix_tree_t) (k : Int) : Except Err Int :=
  if k < 0 then .error .text
  else
    match t.text[k.toNat]? with
    | some c => .ok c
    | none => if k.toNat = t.text.length then .ok 0 else .error .text

/-- The access `node_at (t, s)`, also used for the unchecked `t.nodes [s]`. -/
def node_at (t : suffix_tree_t) (s : Nat) : Except Err node_type :=
  match t.nodes[s]? with
  | some n => .ok n
  | none => .error .node

/-- The iterator overload `has_transition (first, last, c)`: some key equals `c` or is negative. -/
def has_transition_in (ts : List transition_type) (c : Int) : Bool :=
  ts.any (fun arg => decide (arg.c = c ∨ arg.c < 0))

/-- The tree overload `has_transition (t, s, c)`. -/
def has_transition (t : suffix_tree_t) (s : Nat) (c : Int) : Except Err Bool :=
  if aux = s then .ok true
  else
    match node_at t s with
    | .error e => .error e
    | .ok n =>
      if n.tset ≠ 0 then
        match t.transitions[n.tset]? with
        | some ts => .ok (has_transition_in ts c)
        | none => .ok false
      else .ok false

/-- A read of `link (t, s)`. -/
def link (t : suffix_tree_t) (s : Nat) : Except Err Nat :=
  match node_at t s with
  | .error e => .error e
  | .ok n => .ok n.link

/-- The write `link (t, s) = v`. -/
def set_link (t : suffix_tree_t) (s : Nat) (v : Nat) : Except Err suffix_tree_t :=
  match node_at t s with
  | .error e => .error e
  | .ok n => .ok { t with nodes := t.nodes.set s { n with link := v } }

/-- The function `make_transitions (t, s)`. -/
def make_transitions (t : suffix_tree_t) (s : Nat) : Except Err (suffix_tree_t × Nat) :=
  let n := t.transitions.length
  match node_at t s with
  | .error e => .error e
  | .ok node =>
    .ok ({ t with transitions := t.transitions ++ [[]],
                  nodes := t.nodes.set s { node with tset := n } }, n)

/-- The read-only `g_ (t, s, c)`: the edge of the `c`-transition of `s`. -/
def g_ (t : suffix_tree_t) (s : Nat) (c : Int) : Except Err edge_type :=
  if aux ≠ s then
    match node_at t s with
    | .error e => .error e
    | .ok n =>
      if n.tset = 0 then .error .tset
      else
        match t.transitions[n.tset]? with
        | none => .error .tset
        | some ts =>
          match ts.find? (fun arg => decide (c = arg.c)) with
          | none => .error .missing
          | some tr =>
            match t.edges[tr.e]? with
            | none => .error .edge
            | some e => .ok e
  else .ok { s := s, k := 0, p := 0, s_ := root }

/-- Write through the reference returned by the find-or-create `g_`: the target
slot of edge `e`. -/
def set_target (t : suffix_tree_t) (e : Nat) (v : Nat) : suffix_tree_t :=
  match t.edges[e]? with
  | some ed => { t with edges := t.edges.set e { ed with s_ := v } }
  | none => t

/-- The find-or-create `g_ (t, s, { k, p })`.  The source returns a reference to
the target slot of the edge found or created; the embedding returns the index
of that edge, and `set_target` writes through it. -/
def g_mut (t : suffix_tree_t) (s : Nat) (k p : Int) : Except Err (suffix_tree_t × Nat) :=
  match node_at t s with
  | .error e => .error e
  | .ok n =>
    match (if n.tset = 0 then make_transitions t s else .ok (t, n.tset)) with
    | .error e => .error e
    | .ok (t1, i) =>
      match t1.transitions[i]? with
      | none => .error .tset
      | some ts =>
        match text_at t1 k with
        | .error e => .error e
        | .ok tk =>
          match ts.find? (fun arg => decide (tk = arg.c)) with
          | none =>
            let e := t1.edges.length
            .ok ({ t1 with edges := t1.edges ++ [{ s := s, k := k, p := p, s_ := 0 }],
                           transitions := t1.transitions.set i (ts ++ [{ c := tk, e := e }]) }, e)
          | some tr =>
            match t1.edges[tr.e]? with
            | none => .error .edge
            | some ed =>
              .ok ({ t1 with edges := t1.edges.set tr.e { ed with k := k, p := p } }, tr.e)

/-- The `while` loop of `canonize`; `k_`, `p_`, `s_` hold the last transition
looked up.  The loop condition is tested before any fuel is needed. -/
def canonize_loop (t : suffix_tree_t) (p : Int) :
    Nat → Nat → Int → Int → Int → Nat → Except Err (Nat × Int)
  | 0, s, k, k_, p_, _ =>
    if p_ - k_ ≤ p - k then .error .fuel else .ok (s, k)
  | fuel + 1, s, k, k_, p_, s_ =>
    if p_ - k_ ≤ p - k then
      let k1 := k + p_ - k_ + 1
      if k1 ≤ p then
        match text_at t k1 with
        | .error e => .error e
        | .ok tk =>
          match g_ t s_ tk with
          | .error e => .error e
          | .ok e =>
            if e.k < 0 then .error .negative
            else canonize_loop t p fuel s_ k1 e.k e.p e.s_
      else canonize_loop t p fuel s_ k1 k_ p_ s_
    else .ok (s, k)

/-- The function `canonize (t, s, { k, p })`. -/
def canonize (fuel : Nat) (t : suffix_tree_t) (s : Nat) (k p : Int) : Except Err (Nat × Int) :=
  if k < 0 then .error .negative
  else if k ≤ p then
    match text_at t k with
    | .error e => .error e
    | .ok tk =>
      match g_ t s tk with
      | .error e => .error e
      | .ok e =>
        if e.k < 0 then .error .negative
        else canonize_loop t p fuel s k e.k e.p e.s_
  else .ok (s, k)

/-- The function `test_and_split (t, s, { k, p }, c)`: the tree after the call, `r` and the flag. -/
def test_and_split (t : suffix_tree_t) (s : Nat) (k p : Int) (c : Int) :
    Except Err (suffix_tree_t × Nat × Bool) :=
  if k < 0 then .error .negative
  else if k ≤ p then
    match text_at t k with
    | .error e => .error e
    | .ok tk =>
      match g_ t s tk with
      | .error e => .error e
      | .ok e =>
        if e.k < 0 then .error .negative
        else
          match text_at t (e.k + p - k + 1) with
          | .error x => .error x
          | .ok x =>
            if c = x then .ok (t, s, true)
            else
              let r := t.nodes.length
              let t1 := { t with nodes := t.nodes ++ [{ link := 0, tset := 0 }] }
              match g_mut t1 s e.k (e.k + p - k) with
              | .error x => .error x
              | .ok (t2, e1) =>
                let t3 := set_target t2 e1 r
                match g_mut t3 r (e.k + p - k + 1) e.p with
                | .error x => .error x
                | .ok (t4, e2) => .ok (set_target t4 e2 e.s_, r, false)
  else
    match has_transition t s c with
    | .error e => .error e
    | .ok b => .ok (t, s, b)

/-- The end of `update`, after the loop: `if (oldr != root) link (t, oldr) = s`
and `return { s, k }`. -/
def update_exit (t : suffix_tree_t) (s : Nat) (k : Int) (oldr : Nat) :
    Except Err (suffix_tree_t × Nat × Int) :=
  if oldr ≠ root then
    match set_link t oldr s with
    | .error e => .error e
    | .ok t1 => .ok (t1, s, k)
  else .ok (t, s, k)

/-- The `while (!b)` loop of `update` and the code after it; `cf` is the fuel
handed to `canonize`.  The loop condition is tested before any fuel is needed. -/
def update_loop (cf : Nat) (i : Int) :
    Nat → suffix_tree_t → Nat → Int → Nat → Nat → Bool → Except Err (suffix_tree_t × Nat × Int)
  | 0, t, s, k, oldr, _, b =>
    if b then update_exit t s k oldr else .error .fuel
  | fuel + 1, t, s, k, oldr, r, b =>
    if b then update_exit t s k oldr
    else
      match g_mut t r i int_max with
      | .error e => .error e
      | .ok (t1, _) =>
        match (if oldr ≠ root then set_link t1 oldr r else .ok t1) with
        | .error e => .error e
        | .ok t2 =>
          match link t2 s with
          | .error e => .error e
          | .ok ls =>
            match canonize cf t2 ls k (i - 1) with
            | .error e => .error e
            | .ok (s1, k1) =>
              match text_at t2 i with
              | .error e => .error e
              | .ok ti =>
                match test_and_split t2 s1 k1 (i - 1) ti with
                | .error e => .error e
                | .ok (t3, r1, b1) => update_loop cf i fuel t3 s1 k1 r r1 b1

/-- The function `update (t, s, { k, i })`. -/
def update (fuel : Nat) (t : suffix_tree_t) (s : Nat) (k i : Int) :
    Except Err (suffix_tree_t × Nat × Int) :=
  if k < 0 then .error .negative
  else
    match text_at t i with
    | .error e => .error e
    | .ok ti =>
      match test_and_split t s k (i - 1) ti with
      | .error e => .error e
      | .ok (t1, r, b) => update_loop fuel i fuel t1 s k root r b

/-- The tree `make_suffix_tree` starts from. -/
def init_tree (text : List Int) : suffix_tree_t :=
  { text := text ++ [tilde],
    nodes := [{ link := root, tset := 1 }, { link := aux, tset := 0 }],
    transitions := [[], [{ c := -1, e := 0 }]],
    edges := [{ s := aux, k := 0, p := 0, s_ := root }] }

/-- The `for` loop of `make_suffix_tree`: `n` iterations starting at position `i`. -/
def driver (fuel : Nat) :
    Nat → suffix_tree_t → Nat → Int → Int → Except Err (suffix_tree_t × Nat × Int)
  | 0, t, s, k, _ => .ok (t, s, k)
  | n + 1, t, s, k, i =>
    match update fuel t s k i with
    | .error e => .error e
    | .ok (t1, s1, k1) =>
      match canonize fuel t1 s1 k1 i with
      | .error e => .error e
      | .ok (s2, k2) => driver fuel n t1 s2 k2 (i + 1)

/-- The function `make_suffix_tree (text)`. -/
def make_suffix_tree (fuel : Nat) (text : List Int) : Except Err suffix_tree_t :=
  let t := init_tree text
  match driver fuel t.text.length t root 0 0 with
  | .error e => .error e
  | .ok (t1, _, _) => .ok t1

/-- The open leaf edges: source not the auxiliary state, target 0. -/
def leaves (t : suffix_tree_t) : List edge_type :=
  t.edges.filter (fun e => decide (e.s ≠ aux ∧ e.s_ = 0))

/-! ## Definitions used to state the properties -/

/-- The transition `(k_, p_, s_)` is the one `canonize` gets from the lookup at
the reference `(s, k)`: `g_ (t, s, t.text [k])`, with the `assert (k_ >= 0)`
passed. -/
def fresh (t : suffix_tree_t) (s : Nat) (k k_ p_ : Int) (s_ : Nat) : Prop :=
  ∃ tk e, text_at t k = .ok tk ∧ g_ t s tk = .ok e ∧ ¬ e.k < 0 ∧ e.k = k_ ∧ e.p = p_ ∧ e.s_ = s_

/-- One write of the construction to the tree store. -/
inductive mutation : suffix_tree_t → suffix_tree_t → Prop
  /-- the push `t.nodes.emplace_back (node_type { })` -/
  | push_node (t : suffix_tree_t) :
      mutation t ⟨t.text, t.nodes ++ [node_type.mk 0 0], t.transitions, t.edges⟩
  /-- a write to a field of `t.nodes [s]` (`link (t, s) = v`, `get<1> (node) = n`) -/
  | set_node (t : suffix_tree_t) (s : Nat) (n : node_type) :
      mutation t ⟨t.text, t.nodes.set s n, t.transitions, t.edges⟩
  /-- the push `t.transitions.emplace_back ()` -/
  | push_tset (t : suffix_tree_t) :
      mutation t ⟨t.text, t.nodes, t.transitions ++ [[]], t.edges⟩
  /-- the push `ts.emplace_back (t.text [k], e)`, which the find-or-create `g_` does only
  after `find_if` found no entry with that key in `ts` -/
  | push_transition (t : suffix_tree_t) (i : Nat) (ts : List transition_type) (c : Int) (e : Nat)
      (hts : t.transitions[i]? = some ts)
      (hnew : ts.find? (fun arg => decide (c = arg.c)) = none) :
      mutation t ⟨t.text, t.nodes, t.transitions.set i (ts ++ [transition_type.mk c e]), t.edges⟩
  /-- the push `t.edges.emplace_back (...)` -/
  | push_edge (t : suffix_tree_t) (ed : edge_type) :
      mutation t ⟨t.text, t.nodes, t.transitions, t.edges ++ [ed]⟩
  /-- a write to a field of `t.edges [e]` -/
  | set_edge (t : suffix_tree_t) (e : Nat) (ed : edge_type) :
      mutation t ⟨t.text, t.nodes, t.transitions, t.edges.set e ed⟩

/-- The tree states the construction over `text` can pass through: the initial
tree and everything obtained from it by writes of the six kinds above, whether
the run completes or stops at a contract check. -/
def reached (text : List Int) (t : suffix_tree_t) : Prop :=
  Relation.ReflTransGen mutation (init_tree text) t

/-- Every transition table has pairwise distinct keys. -/
def keys_distinct (t : suffix_tree_t) : Prop :=
  ∀ ts ∈ t.transitions, (ts.map (fun arg => arg.c)).Nodup

/-- No node has two transitions with the same character key. -/
def branching (t : suffix_tree_t) : Prop :=
  ∀ (s : Nat) (n : node_type) (ts : List transition_type),
    t.nodes[s]? = some n → t.transitions[n.tset]? = some ts →
    (ts.map (fun arg => arg.c)).Nodup

/-- The tree after the first iteration of the loop of `make_suffix_tree`: the
root has one open leaf edge, for the first character of `text + '~'`. -/
def first_tree (text : List Int) : suffix_tree_t :=
  { text := text ++ [tilde],
    nodes := [⟨root, 1⟩, ⟨aux, 2⟩],
    transitions := [[], [⟨-1, 0⟩], [⟨text.headD tilde, 1⟩]],
    edges := [⟨aux, 0, 0, root⟩, ⟨root, 0, int_max, 0⟩] }

/-! ## Sample trees -/

/-- The tree of `"AAA"`. -/
def aaa_tree : suffix_tree_t :=
  { text := [65, 65, 65, 126],
    nodes := [⟨1, 1⟩, ⟨0, 2⟩, ⟨3, 3⟩, ⟨1, 4⟩],
    transitions := [[], [⟨-1, 0⟩], [⟨65, 1⟩, ⟨126, 6⟩], [⟨65, 2⟩, ⟨126, 3⟩], [⟨65, 4⟩, ⟨126, 5⟩]],
    edges := [⟨0, 0, 0, 1⟩, ⟨1, 0, 0, 3⟩, ⟨2, 2, int_max, 0⟩, ⟨2, 3, int_max, 0⟩,
              ⟨3, 1, 1, 2⟩, ⟨3, 3, int_max, 0⟩, ⟨1, 3, int_max, 0⟩] }

/-- The tree `make_suffix_tree` returns for the text `"~"`. -/
def tilde_tree : suffix_tree_t :=
  { text := [126, 126],
    nodes := [⟨1, 1⟩, ⟨0, 2⟩],
    transitions := [[], [⟨-1, 0⟩], [⟨126, 1⟩]],
    edges := [⟨0, 0, 0, 1⟩, ⟨1, 0, int_max, 0⟩] }

/-- The tree over `"AB~"` after the first iteration: the root has the open leaf
edge `(1, 0, max, 0)` on `A`. -/
def ab_tree : suffix_tree_t :=
  { text := [65, 66, 126],
    nodes := [⟨1, 1⟩, ⟨0, 2⟩],
    transitions := [[], [⟨-1, 0⟩], [⟨65, 1⟩]],
    edges := [⟨0, 0, 0, 1⟩, ⟨1, 0, int_max, 0⟩] }

/-- A tree value whose root has, under the key `A`, an edge whose label starts
at position 1 of `"ABC"`, that is with `B`. -/
def wrong_key_tree : suffix_tree_t :=
  { text := [65, 66, 67],
    nodes := [⟨1, 1⟩, ⟨0, 2⟩],
    transitions := [[], [⟨-1, 0⟩], [⟨65, 1⟩]],
    edges := [⟨0, 0, 0, 1⟩, ⟨1, 1, int_max, 0⟩] }

/-- What `test_and_split (wrong_key_tree, 1, (0, 0), 'X')` leaves. -/
def wrong_key_tree_split : suffix_tree_t :=
  { text := [65, 66, 67],
    nodes := [⟨1, 1⟩, ⟨0, 2⟩, ⟨0, 3⟩],
    transitions := [[], [⟨-1, 0⟩], [⟨65, 1⟩, ⟨66, 2⟩], [⟨67, 3⟩]],
    edges := [⟨0, 0, 0, 1⟩, ⟨1, 1, int_max, 0⟩, ⟨1, 1, 1, 2⟩, ⟨2, 2, int_max, 0⟩] }

/-! ## Labels, well-formed trees and the states of `update` -/

/-- The label of an edge: `t.text [k .. p]`, the end of an open leaf edge
being the last position of the text. -/
def edge_label (t : suffix_tree_t) (e : edge_type) : List Int :=
  let last : Int := if e.p = int_max then (t.text.length : Int) - 1 else e.p
  (t.text.drop e.k.toNat).take (last - e.k + 1).toNat

/-- The edges leaving node `s`: the edges its transition table refers to. -/
def out_edges (t : suffix_tree_t) (s : Nat) : List edge_type :=
  match t.nodes[s]? with
  | none => []
  | some n =>
    if n.tset = 0 then []
    else
      match t.transitions[n.tset]? with
      | none => []
      | some ts => ts.filterMap (fun tr => t.edges[tr.e]?)

/-- The path labels of the nodes: the root has the empty label, and the target
of an edge leaving a node has the label of that node followed by the label of
the edge. -/
inductive path_label (t : suffix_tree_t) : Nat → List Int → Prop
  | at_root : path_label t root []
  | step (s : Nat) (l : List Int) (e : edge_type) (hs : path_label t s l)
      (he : e ∈ out_edges t s) (ht : e.s_ ≠ 0) : path_label t e.s_ (l ++ edge_label t e)

/-- The suffix links of the nodes, in the order of the nodes. -/
def links (t : suffix_tree_t) : List Nat :=
  t.nodes.map (fun n => n.link)

/-- The tree of `"A"`. -/
def a_tree : suffix_tree_t :=
  { text := [65, 126],
    nodes := [⟨1, 1⟩, ⟨0, 2⟩],
    transitions := [[], [⟨-1, 0⟩], [⟨65, 1⟩, ⟨126, 2⟩]],
    edges := [⟨0, 0, 0, 1⟩, ⟨1, 0, int_max, 0⟩, ⟨1, 1, int_max, 0⟩] }

/-- The tree of `"ABCABC"`. -/
def abcabc_tree : suffix_tree_t :=
  { text := [65, 66, 67, 65, 66, 67, 126],
    nodes := [⟨1, 1⟩, ⟨0, 2⟩, ⟨3, 3⟩, ⟨4, 4⟩, ⟨1, 5⟩],
    transitions := [[], [⟨-1, 0⟩], [⟨65, 1⟩, ⟨66, 2⟩, ⟨67, 3⟩, ⟨126, 10⟩],
      [⟨65, 4⟩, ⟨126, 5⟩], [⟨65, 6⟩, ⟨126, 7⟩], [⟨65, 8⟩, ⟨126, 9⟩]],
    edges := [⟨0, 0, 0, 1⟩, ⟨1, 0, 2, 2⟩, ⟨1, 1, 2, 3⟩, ⟨1, 2, 2, 4⟩,
      ⟨2, 3, int_max, 0⟩, ⟨2, 6, int_max, 0⟩, ⟨3, 3, int_max, 0⟩, ⟨3, 6, int_max, 0⟩,
      ⟨4, 3, int_max, 0⟩, ⟨4, 6, int_max, 0⟩, ⟨1, 6, int_max, 0⟩] }

/-- The tree over `"ABCABC~"` after six iterations of the driver: three open
leaf edges at the root and no other node. -/
def abcabc_six : suffix_tree_t :=
  { text := [65, 66, 67, 65, 66, 67, 126],
    nodes := [⟨1, 1⟩, ⟨0, 2⟩],
    transitions := [[], [⟨-1, 0⟩], [⟨65, 1⟩, ⟨66, 2⟩, ⟨67, 3⟩]],
    edges := [⟨0, 0, 0, 1⟩, ⟨1, 0, int_max, 0⟩, ⟨1, 1, int_max, 0⟩, ⟨1, 2, int_max, 0⟩] }

/-- The tree `abcabc_six` after the split of the edge `ABCABC...` of the root
behind `ABC`: the new node 2 has the rest of that edge. -/
def abcabc_split : suffix_tree_t :=
  { text := [65, 66, 67, 65, 66, 67, 126],
    nodes := [⟨1, 1⟩, ⟨0, 2⟩, ⟨0, 3⟩],
    transitions := [[], [⟨-1, 0⟩], [⟨65, 1⟩, ⟨66, 2⟩, ⟨67, 3⟩], [⟨65, 4⟩]],
    edges := [⟨0, 0, 0, 1⟩, ⟨1, 0, 2, 2⟩, ⟨1, 1, int_max, 0⟩, ⟨1, 2, int_max, 0⟩,
      ⟨2, 3, int_max, 0⟩] }

/-- The tree `make_suffix_tree` returns for the text `"~\x80"` of a signed
`char`. -/
def tilde_neg_tree : suffix_tree_t :=
  { text := [126, -128, 126],
    nodes := [⟨1, 1⟩, ⟨0, 2⟩],
    transitions := [[], [⟨-1, 0⟩], [⟨126, 1⟩, ⟨-128, 2⟩]],
    edges := [⟨0, 0, 0, 1⟩, ⟨1, 0, int_max, 0⟩, ⟨1, 1, int_max, 0⟩] }

/-- The structural invariants of the tree store: the auxiliary state and the
root exist; every node refers to an existing transition table, and no two
nodes to the same one (0 stands for no table); every table entry refers to an
existing edge, and no two entries to the same one; the edge of an entry in the
table of node `s` has source `s`. -/
structure well_formed (t : suffix_tree_t) : Prop where
  nodes_ge : 2 ≤ t.nodes.length
  tset_lt : ∀ (s : Nat) (n : node_type), t.nodes[s]? = some n → n.tset < t.transitions.length
  tset_inj : ∀ (s1 s2 : Nat) (n1 n2 : node_type), t.nodes[s1]? = some n1 →
    t.nodes[s2]? = some n2 → n1.tset = n2.tset → n1.tset ≠ 0 → s1 = s2
  edge_lt : ∀ (i : Nat) (ts : List transition_type) (tr : transition_type),
    t.transitions[i]? = some ts → tr ∈ ts → tr.e < t.edges.length
  edge_inj : ∀ (i1 i2 : Nat) (ts1 ts2 : List transition_type) (j1 j2 : Nat)
    (tr1 tr2 : transition_type), t.transitions[i1]? = some ts1 →
    ts1[j1]? = some tr1 → t.transitions[i2]? = some ts2 → ts2[j2]? = some tr2 →
    tr1.e = tr2.e → i1 = i2 ∧ j1 = j2
  source : ∀ (s : Nat) (n : node_type) (ts : List transition_type) (tr : transition_type)
    (ed : edge_type), t.nodes[s]? = some n → n.tset ≠ 0 →
    t.transitions[n.tset]? = some ts → tr ∈ ts → t.edges[tr.e]? = some ed → ed.s = s

/-- The variables of `update` at the test of `while (!b)`: the tree, the
active point `(s, k)`, and `oldr`, `r`, `b`. -/
structure loop_state where
  t : suffix_tree_t
  s : Nat
  k : Int
  oldr : Nat
  r : Nat
  b : Bool

/-- The body of the `while (!b)` loop of `update`, run once from the state `c`
at position `i`; `cf` is the fuel handed to `canonize`. -/
def update_body (cf : Nat) (i : Int) (c : loop_state) : Except Err loop_state :=
  match g_mut c.t c.r i int_max with
  | .error e => .error e
  | .ok (t1, _) =>
    match (if c.oldr ≠ root then set_link t1 c.oldr c.r else .ok t1) with
    | .error e => .error e
    | .ok t2 =>
      match link t2 c.s with
      | .error e => .error e
      | .ok ls =>
        match canonize cf t2 ls c.k (i - 1) with
        | .error e => .error e
        | .ok (s1, k1) =>
          match text_at t2 i with
          | .error e => .error e
          | .ok ti =>
            match test_and_split t2 s1 k1 (i - 1) ti with
            | .error e => .error e
            | .ok (t3, r1, b1) => .ok ⟨t3, s1, k1, c.r, r1, b1⟩

/-- The nodes `r` for which the loop of `update` runs its body, in order: the
results of the calls of `test_and_split` that report `false`. -/
def update_loop_nodes (cf : Nat) (i : Int) : Nat → loop_state → Except Err (List Nat)
  | 0, c => if c.b then .ok [] else .error .fuel
  | fuel + 1, c =>
    if c.b then .ok []
    else
      match update_body cf i c with
      | .error e => .error e
      | .ok c1 =>
        match update_loop_nodes cf i fuel c1 with
        | .error e => .error e
        | .ok rs => .ok (c.r :: rs)

/-- The nodes `r_1, ..., r_m` of the call `update (t, s, { k, i })`. -/
def update_nodes (fuel : Nat) (t : suffix_tree_t) (s : Nat) (k i : Int) :
    Except Err (List Nat) :=
  if k < 0 then .error .negative
  else
    match text_at t i with
    | .error e => .error e
    | .ok ti =>
      match test_and_split t s k (i - 1) ti with
      | .error e => .error e
      | .ok (t1, r, b) => update_loop_nodes fuel i fuel ⟨t1, s, k, root, r, b⟩

/-- The states of `update` at the test of `while (!b)` in the construction over
`text`: the first one follows the first call of `test_and_split` in an
`update` that the driver makes at position `n`, after `n` iterations; the next
one follows one run of the loop body. -/
inductive loop_head (fuel : Nat) (text : List Int) : Int → loop_state → Prop
  | enter (n : Nat) (t : suffix_tree_t) (s : Nat) (k ti : Int) (t1 : suffix_tree_t) (r : Nat)
      (b : Bool) (hd : driver fuel n (init_tree text) root 0 0 = .ok (t, s, k))
      (hn : n < (init_tree text).text.length) (hk : 0 ≤ k) (hti : text_at t n = .ok ti)
      (hts : test_and_split t s k (n - 1) ti = .ok (t1, r, b)) :
      loop_head fuel text n ⟨t1, s, k, root, r, b⟩
  | next (i : Int) (c c1 : loop_state) (hc : loop_head fuel text i c) (hb : c.b = false)
      (hbody : update_body fuel i c = .ok c1) : loop_head fuel text i c1

/-- The open-leaf representation: an edge that does not leave the auxiliary
state has target 0 exactly when its end is the sentinel; otherwise its target
is a node other than the auxiliary state and the root and its end is a
position of the text. -/
def open_leaf (t : suffix_tree_t) : Prop :=
  ∀ e ∈ t.edges, e.s ≠ aux →
    (e.s_ = 0 ↔ e.p = int_max) ∧
    (e.s_ ≠ 0 → 2 ≤ e.s_ ∧ e.s_ < t.nodes.length ∧ e.p < t.text.length)

/-- Node `v` has a transition whose key is exactly `c`. -/
def has_key (t : suffix_tree_t) (v : Nat) (c : Int) : Prop :=
  ∃ n ts tr, t.nodes[v]? = some n ∧ n.tset ≠ 0 ∧ t.transitions[n.tset]? = some ts ∧
    tr ∈ ts ∧ tr.c = c

/-- What holds of the variables of `update` at the test of `while (!b)` at
position `i`: the tree is well formed, and while `b` is false `r` is a node
other than the auxiliary state that has no transition on `text [i]`. -/
def loop_inv (i : Int) (c : loop_state) : Prop :=
  well_formed c.t ∧
  (c.b = false → c.r ≠ aux ∧ c.r < c.t.nodes.length ∧
    ∀ ti, text_at c.t i = .ok ti → ¬ has_key c.t c.r ti)

/-- What holds at the test of `while (!b)` in a call of `update` on the tree
`t0` at position `i`, where `done` lists the nodes `r` of the runs of the loop
body so far: they are distinct, `oldr` is the last of them, each has got its
transition on `text [i]`, each one other than the root links to the next, the
links of the other nodes of `t0` are those of `t0`, and a node made in this
call is in `done` or is the current `r`. -/
def chain_inv (i : Int) (t0 : suffix_tree_t) (done : List Nat) (c : loop_state) : Prop :=
  done.Nodup ∧
  (done.getLast? = some c.oldr ∨ (done = [] ∧ c.oldr = root)) ∧
  (∀ v ∈ done, v ≠ aux ∧ ∀ ti, text_at c.t i = .ok ti → has_key c.t v ti) ∧
  (∀ (j a b : Nat), done[j]? = some a → done[j + 1]? = some b → a ≠ root →
    (links c.t)[a]? = some b) ∧
  (∀ v, v < t0.nodes.length → (v ∉ done ∨ v = root) → (links c.t)[v]? = (links t0)[v]?) ∧
  t0.nodes.length ≤ c.t.nodes.length ∧
  (∀ v, t0.nodes.length ≤ v → v < c.t.nodes.length → v ∈ done ∨ (c.b = false ∧ v = c.r))

/-- The transition table of node `s`, empty while the node has none. -/
def table_of (t : suffix_tree_t) (s : Nat) : List transition_type :=
  match t.nodes[s]? with
  | none => []
  | some n => if n.tset = 0 then [] else (t.transitions[n.tset]?).getD []

/-- A tree value in which the edge of the `A`-transition of the root records
node 7 as its source. -/
def wrong_source_tree : suffix_tree_t :=
  { text := [65, 126],
    nodes := [⟨1, 1⟩, ⟨0, 2⟩],
    transitions := [[], [⟨-1, 0⟩], [⟨65, 1⟩]],
    edges := [⟨0, 0, 0, 1⟩, ⟨7, 0, int_max, 0⟩] }

/-- A tree value in which node 2 uses the transition table of the root. -/
def shared_table_tree : suffix_tree_t :=
  { text := [65, 66, 126],
    nodes := [⟨1, 1⟩, ⟨0, 2⟩, ⟨0, 2⟩],
    transitions := [[], [⟨-1, 0⟩], [⟨65, 1⟩]],
    edges := [⟨0, 0, 0, 1⟩, ⟨1, 0, int_max, 0⟩] }

/-- The tree over `"AA~"` after two iterations of the driver. -/
def aa_two : suffix_tree_t :=
  { text := [65, 65, 126],
    nodes := [⟨1, 1⟩, ⟨0, 2⟩],
    transitions := [[], [⟨-1, 0⟩], [⟨65, 1⟩]],
    edges := [⟨0, 0, 0, 1⟩, ⟨1, 0, int_max, 0⟩] }

/-- The tree `aa_two` after the split of the third iteration: the new node 2
has the rest of the edge of the root. -/
def aa_split : suffix_tree_t :=
  { text := [65, 65, 126],
    nodes := [⟨1, 1⟩, ⟨0, 2⟩, ⟨0, 3⟩],
    transitions := [[], [⟨-1, 0⟩], [⟨65, 1⟩], [⟨65, 2⟩]],
    edges := [⟨0, 0, 0, 1⟩, ⟨1, 0, 0, 2⟩, ⟨2, 1, int_max, 0⟩] }

/-- The tree that `update` returns in the third iteration over `"AA~"`. -/
def aa_three : suffix_tree_t :=
  { text := [65, 65, 126],
    nodes := [⟨1, 1⟩, ⟨0, 2⟩, ⟨1, 3⟩],
    transitions := [[], [⟨-1, 0⟩], [⟨65, 1⟩, ⟨126, 4⟩], [⟨65, 2⟩, ⟨126, 3⟩]],
    edges := [⟨0, 0, 0, 1⟩, ⟨1, 0, 0, 2⟩, ⟨2, 1, int_max, 0⟩, ⟨2, 2, int_max, 0⟩,
      ⟨1, 2, int_max, 0⟩] }

/-! ## The runs of the loop of `canonize` -/

/-- The tree over `"AAB~"` after three iterations of the driver: node 2, made
in the third iteration, links to the root. -/
def aab_three : suffix_tree_t :=
  { text := [65, 65, 66, 126],
    nodes := [⟨1, 1⟩, ⟨0, 2⟩, ⟨1, 3⟩],
    transitions := [[], [⟨-1, 0⟩], [⟨65, 1⟩, ⟨66, 4⟩], [⟨65, 2⟩, ⟨66, 3⟩]],
    edges := [⟨0, 0, 0, 1⟩, ⟨1, 0, 0, 2⟩, ⟨2, 1, int_max, 0⟩, ⟨2, 2, int_max, 0⟩,
      ⟨1, 2, int_max, 0⟩] }

/-- The tree of `"AAB"`. -/
def aab_tree : suffix_tree_t :=
  { text := [65, 65, 66, 126],
    nodes := [⟨1, 1⟩, ⟨0, 2⟩, ⟨1, 3⟩],
    transitions := [[], [⟨-1, 0⟩], [⟨65, 1⟩, ⟨66, 4⟩, ⟨126, 5⟩], [⟨65, 2⟩, ⟨66, 3⟩]],
    edges := [⟨0, 0, 0, 1⟩, ⟨1, 0, 0, 2⟩, ⟨2, 1, int_max, 0⟩, ⟨2, 2, int_max, 0⟩,
      ⟨1, 2, int_max, 0⟩, ⟨1, 3, int_max, 0⟩] }

/-! ## Depths of the nodes -/

/-- What the construction keeps of a tree `t`, with `d v` standing for the depth
of node `v` and `phi` for the number of suffixes that have got their leaf: the
tree is well formed and has the open-leaf representation, the first edge is
the edge of the auxiliary state, every transition is keyed by the first
character of its edge, an edge leaving `v` starts at most `d v` positions
before `phi`, the target of an edge that is not an open leaf is deeper than its
source by the length of the edge, and a suffix link leads to a node that is
less deep. -/
structure depth_inv (t : suffix_tree_t) (d : Nat → Int) (phi : Int) : Prop where
  wf : well_formed t
  ol : open_leaf t
  len : (t.text.length : Int) ≤ int_max
  aux_edge : ∃ e : edge_type, t.edges[0]? = some e ∧ e.s = aux
  d_aux : d aux = -1
  d_root : d root = 0
  d_nonneg : ∀ v : Nat, v ≠ aux → 0 ≤ d v
  entry : ∀ (v : Nat) (tr : transition_type) (e : edge_type), v ≠ aux → tr ∈ table_of t v →
    t.edges[tr.e]? = some e →
    text_at t e.k = .ok tr.c ∧ e.k - d v ≤ phi ∧
    (e.s_ ≠ 0 → e.k ≤ e.p ∧ d e.s_ = d v + (e.p - e.k + 1))
  link_le : ∀ (v l : Nat), v ≠ aux → (links t)[v]? = some l →
    l < t.nodes.length ∧ d l ≤ d v - 1

/-- The number of edges of `t` minus the number of its nodes, plus one: the
number of open leaf edges made so far. -/
def leaf_count (t : suffix_tree_t) : Int :=
  (t.edges.length : Int) - t.nodes.length + 1

/-- What holds at the test of `while (!b)` in `update` at position `i`, with the
depths `d`: the tree keeps its depths with `phi = k - d s`, the start of the
active suffix; while `b` is false `r` has the depth of the active point and no
transition on `text [i]`; `oldr`, when it is not the root, is deeper than the
active point; there are at most `k - d s` open leaf edges; every node made by a
split has got its leaf, except `r` when it has just been made; and every node
other than the auxiliary state and the root has two transitions, except such
an `r`, which has one. -/
structure compact_data (i : Int) (c : loop_state) (d : Nat → Int) : Prop where
  dep : depth_inv c.t d (c.k - d c.s)
  k_nonneg : 0 ≤ c.k
  k_le : c.k ≤ i
  s_lt : c.s < c.t.nodes.length
  oldr_ne : c.oldr ≠ aux
  r_ok : c.b = false → c.s ≠ aux ∧ c.r ≠ aux ∧ c.r < c.t.nodes.length ∧
    d c.r = d c.s + (i - c.k) ∧ ∀ ti, text_at c.t i = .ok ti → ¬ has_key c.t c.r ti
  oldr_deep : c.oldr ≠ root → d c.s + (i - c.k) + 1 ≤ d c.oldr
  leaves_le : leaf_count c.t ≤ c.k - d c.s
  nodes_fresh : c.b = false → c.r ≠ c.s → (c.t.nodes.length : Int) ≤ leaf_count c.t + 2
  nodes_le : ¬ (c.b = false ∧ c.r ≠ c.s) →
    (c.t.nodes.length : Int) ≤ max (leaf_count c.t + 1) 2
  tables : ∀ v : Nat, 2 ≤ v → v < c.t.nodes.length → 2 ≤ (table_of c.t v).length ∨
    (c.b = false ∧ c.r ≠ c.s ∧ v = c.r ∧ (table_of c.t v).length = 1)

/-- What holds of the tree and the active point `(s, k)` before the iteration
of the driver at position `i`, with the depths `d`. -/
structure compact_at (t : suffix_tree_t) (s : Nat) (k i : Int) (d : Nat → Int) : Prop where
  dep : depth_inv t d (k - d s)
  k_nonneg : 0 ≤ k
  k_le : k ≤ i
  s_ne : s ≠ aux
  s_lt : s < t.nodes.length
  canonical : k ≤ i - 1 → ∃ k_ p_ s_, fresh t s k k_ p_ s_ ∧ (i - 1) - k < p_ - k_
  leaves_le : leaf_count t ≤ k - d s
  nodes_le : (t.nodes.length : Int) ≤ max (leaf_count t + 1) 2
  tables : ∀ v : Nat, 2 ≤ v → v < t.nodes.length → 2 ≤ (table_of t v).length

/-! ## Basic facts -/

theorem text_at_nonneg {t : suffix_tree_t} {k c : Int} (h : text_at t k = .ok c) : 0 ≤ k := by
  unfold text_at at h
  split at h
  · cases h
  · omega

theorem canonize_loop_exit (t : suffix_tree_t) (p : Int) (hp : 0 ≤ p) :
    ∀ (fuel : Nat) (s : Nat) (k k_ p_ : Int) (s_ s1 : Nat) (k1 : Int),
      (k ≤ p → fresh t s k k_ p_ s_) → 0 ≤ k →
      canonize_loop t p fuel s k k_ p_ s_ = .ok (s1, k1) →
      0 ≤ k1 ∧ (k1 ≤ p → ∃ k_ p_ s_, fresh t s1 k1 k_ p_ s_ ∧ p - k1 < p_ - k_) := by
  intro fuel
  induction fuel with
  | zero =>
    intro s k k_ p_ s_ s1 k1 hf hk h
    unfold canonize_loop at h
    split at h
    · cases h
    · cases h
      refine ⟨hk, fun hkp => ⟨k_, p_, s_, hf hkp, by omega⟩⟩
  | succ fuel ih =>
    intro s k k_ p_ s_ s1 k1 hf hk h
    unfold canonize_loop at h
    split at h
    · simp only at h
      split at h
      · split at h
        · cases h
        · rename_i tk htk
          split at h
          · cases h
          · rename_i e he
            split at h
            · cases h
            · rename_i hneg
              exact ih _ _ _ _ _ _ _ (fun _ => ⟨tk, e, htk, he, hneg, rfl, rfl, rfl⟩)
                (text_at_nonneg htk) h
      · rename_i hgt
        exact ih _ _ _ _ _ _ _ (fun hle => absurd hle hgt) (by omega) h
    · cases h
      refine ⟨hk, fun hkp => ⟨k_, p_, s_, hf hkp, by omega⟩⟩

theorem text_at_mk (t : suffix_tree_t) (ns : List node_type) (ts : List (List transition_type))
    (es : List edge_type) (k : Int) : text_at ⟨t.text, ns, ts, es⟩ k = text_at t k := rfl

theorem g_inv {t : suffix_tree_t} {s : Nat} {c : Int} {e : edge_type} (hs : s ≠ aux)
    (h : g_ t s c = .ok e) :
    ∃ n ts tr, t.nodes[s]? = some n ∧ n.tset ≠ 0 ∧ t.transitions[n.tset]? = some ts ∧
      ts.find? (fun arg => decide (c = arg.c)) = some tr ∧ t.edges[tr.e]? = some e := by
  unfold g_ node_at at h
  rw [if_pos (fun h1 => hs h1.symm)] at h
  split at h
  · cases h
  · rename_i n hn
    split at hn
    · rename_i n1 hn1
      cases hn
      split at h
      · cases h
      · rename_i h0
        split at h
        · cases h
        · rename_i ts hts
          split at h
          · cases h
          · rename_i tr htr
            split at h
            · cases h
            · rename_i e1 he1
              cases h
              exact ⟨n, ts, tr, hn1, h0, hts, htr, he1⟩
    · cases hn

theorem g_of {t : suffix_tree_t} {s : Nat} {c : Int} {e : edge_type} {n : node_type}
    {ts : List transition_type} {tr : transition_type} (hs : s ≠ aux)
    (hn : t.nodes[s]? = some n) (h0 : n.tset ≠ 0) (hts : t.transitions[n.tset]? = some ts)
    (htr : ts.find? (fun arg => decide (c = arg.c)) = some tr) (he : t.edges[tr.e]? = some e) :
    g_ t s c = .ok e := by
  unfold g_ node_at
  rw [if_pos (fun h1 => hs h1.symm)]
  simp [hn, h0, hts, htr, he]

/-! ## Loops that stop at once -/

theorem update_loop_done (cf : Nat) (i : Int) (fuel : Nat) (t : suffix_tree_t) (s : Nat) (k : Int)
    (oldr r : Nat) : update_loop cf i fuel t s k oldr r true = update_exit t s k oldr := by
  cases fuel <;> simp [update_loop]

theorem canonize_loop_done (t : suffix_tree_t) (p : Int) (fuel : Nat) (s : Nat) (k k_ p_ : Int)
    (s_ : Nat) (h : ¬ p_ - k_ ≤ p - k) :
    canonize_loop t p fuel s k k_ p_ s_ = .ok (s, k) := by
  cases fuel <;> simp [canonize_loop, h]

/-! ## What `canonize` returns -/

theorem canonize_exit {t : suffix_tree_t} {fuel s s1 : Nat} {k p k1 : Int}
    (h : canonize fuel t s k p = .ok (s1, k1)) :
    0 ≤ k1 ∧ (k1 ≤ p → ∃ k_ p_ s_, fresh t s1 k1 k_ p_ s_ ∧ p - k1 < p_ - k_) := by
  unfold canonize at h
  split at h
  · cases h
  · rename_i hk
    split at h
    · rename_i hkp
      split at h
      · cases h
      · rename_i tk htk
        split at h
        · cases h
        · rename_i e he
          split at h
          · cases h
          · rename_i hneg
            exact canonize_loop_exit t p (by omega) fuel s k e.k e.p e.s_ s1 k1
              (fun _ => ⟨tk, e, htk, he, hneg, rfl, rfl, rfl⟩) (by omega) h
    · rename_i hkp
      cases h
      exact ⟨by omega, fun hle => absurd hle hkp⟩

theorem canonize_of_canonical {t : suffix_tree_t} {s : Nat} {k p : Int} (k_ p_ : Int) (s_ : Nat)
    (hk : 0 ≤ k) (hc : k ≤ p → fresh t s k k_ p_ s_ ∧ p - k < p_ - k_) (fuel : Nat) :
    canonize fuel t s k p = .ok (s, k) := by
  unfold canonize
  rw [if_neg (by omega)]
  by_cases hkp : k ≤ p
  · obtain ⟨⟨tk, e, htk, he, hneg, h1, h2, h3⟩, hlt⟩ := hc hkp
    rw [if_pos hkp, htk]
    simp only [he, if_neg hneg]
    exact canonize_loop_done t p fuel s k e.k e.p e.s_ (by omega)
  · rw [if_neg hkp]

/-! ## `canonize` ends within `p - k + 1` iterations -/

theorem canonize_loop_mono (t : suffix_tree_t) (p : Int) :
    ∀ (fuel fuel1 : Nat) (s : Nat) (k k_ p_ : Int) (s_ : Nat), fuel ≤ fuel1 →
      canonize_loop t p fuel s k k_ p_ s_ ≠ .error .fuel →
      canonize_loop t p fuel1 s k k_ p_ s_ = canonize_loop t p fuel s k k_ p_ s_ := by
  intro fuel
  induction fuel with
  | zero =>
    intro fuel1 s k k_ p_ s_ _ h
    simp only [canonize_loop] at h
    by_cases hc : p_ - k_ ≤ p - k
    · simp [hc] at h
    · cases fuel1 <;> simp [canonize_loop, hc]
  | succ fuel ih =>
    intro fuel1 s k k_ p_ s_ hle h
    obtain ⟨f, rfl⟩ : ∃ f, fuel1 = f + 1 := ⟨fuel1 - 1, by omega⟩
    simp only [canonize_loop] at h ⊢
    split
    · rename_i hc
      simp only [if_pos hc] at h
      split
      · rename_i hk1
        simp only [if_pos hk1] at h
        split
        · rfl
        · rename_i tk htk
          simp only [htk] at h
          split
          · rfl
          · rename_i e he
            simp only [he] at h
            split
            · rfl
            · rename_i hneg
              simp only [if_neg hneg] at h
              exact ih _ _ _ _ _ _ (by omega) h
      · rename_i hk1
        simp only [if_neg hk1] at h
        exact ih _ _ _ _ _ _ (by omega) h
    · rfl

theorem canonize_mono (t : suffix_tree_t) (fuel fuel1 : Nat) (s : Nat) (k p : Int)
    (hle : fuel ≤ fuel1) (h : canonize fuel t s k p ≠ .error .fuel) :
    canonize fuel1 t s k p = canonize fuel t s k p := by
  unfold canonize at h ⊢
  split
  · rfl
  · split
    · rename_i hk hkp
      simp only [if_neg hk, if_pos hkp] at h
      split
      · rfl
      · rename_i tk htk
        simp only [htk] at h
        split
        · rfl
        · rename_i e he
          simp only [he] at h
          split
          · rfl
          · rename_i hneg
            simp only [if_neg hneg] at h
            exact canonize_loop_mono t p _ _ _ _ _ _ _ hle h
    · rfl

end ukkonen
namespace ukkonen

theorem update_loop_mono (cf cf1 : Nat) (i : Int) (hcf : cf ≤ cf1) :
    ∀ (fuel fuel1 : Nat) (t : suffix_tree_t) (s : Nat) (k : Int) (oldr r : Nat) (b : Bool),
      fuel ≤ fuel1 →
      update_loop cf i fuel t s k oldr r b ≠ .error .fuel →
      update_loop cf1 i fuel1 t s k oldr r b = update_loop cf i fuel t s k oldr r b := by
  intro fuel
  induction fuel with
  | zero =>
    intro fuel1 t s k oldr r b _ h
    cases b
    · simp [update_loop] at h
    · cases fuel1 <;> simp [update_loop]
  | succ fuel ih =>
    intro fuel1 t s k oldr r b hle h
    obtain ⟨f, rfl⟩ : ∃ f, fuel1 = f + 1 := ⟨fuel1 - 1, by omega⟩
    cases b
    · simp only [update_loop, Bool.false_eq_true, if_false] at h ⊢
      split
      · rfl
      · rename_i t1 e1 hg
        simp only [hg] at h
        split
        · rfl
        · rename_i t2 hl
          simp only [hl] at h
          split
          · rfl
          · rename_i ls hls
            simp only [hls] at h
            have hcan : canonize cf t2 ls k (i - 1) ≠ .error .fuel := by
              intro hc
              simp [hc] at h
            rw [canonize_mono t2 cf cf1 ls k (i - 1) hcf hcan]
            split
            · rfl
            · rename_i s1 k1 hc
              simp only [hc] at h
              split
              · rfl
              · rename_i ti hti
                simp only [hti] at h
                split
                · rfl
                · rename_i t3 r1 b1 hts
                  simp only [hts] at h
                  exact ih _ _ _ _ _ _ _ (by omega) h
    · simp [update_loop]

theorem update_mono (fuel fuel1 : Nat) (t : suffix_tree_t) (s : Nat) (k i : Int)
    (hle : fuel ≤ fuel1) (h : update fuel t s k i ≠ .error .fuel) :
    update fuel1 t s k i = update fuel t s k i := by
  unfold update at h ⊢
  split
  · rfl
  · rename_i hk
    simp only [if_neg hk] at h
    split
    · rfl
    · rename_i ti hti
      simp only [hti] at h
      split
      · rfl
      · rename_i t1 r b hts
        simp only [hts] at h
        exact update_loop_mono _ _ _ hle _ _ _ _ _ _ _ _ hle h

theorem driver_mono (fuel fuel1 : Nat) (hle : fuel ≤ fuel1) :
    ∀ (n : Nat) (t : suffix_tree_t) (s : Nat) (k i : Int),
      driver fuel n t s k i ≠ .error .fuel →
      driver fuel1 n t s k i = driver fuel n t s k i := by
  intro n
  induction n with
  | zero => intro t s k i _; rfl
  | succ n ih =>
    intro t s k i h
    simp only [driver] at h ⊢
    have hu : update fuel t s k i ≠ .error .fuel := by
      intro hc
      simp [hc] at h
    rw [update_mono fuel fuel1 t s k i hle hu]
    split
    · rfl
    · rename_i t1 s1 k1 hup
      simp only [hup] at h
      have hcan : canonize fuel t1 s1 k1 i ≠ .error .fuel := by
        intro hc
        simp [hc] at h
      rw [canonize_mono t1 fuel fuel1 s1 k1 i hle hcan]
      split
      · rfl
      · rename_i s2 k2 hc
        simp only [hc] at h
        exact ih _ _ _ _ h

theorem make_suffix_tree_mono (fuel fuel1 : Nat) (text : List Int) (hle : fuel ≤ fuel1)
    (h : make_suffix_tree fuel text ≠ .error .fuel) :
    make_suffix_tree fuel1 text = make_suffix_tree fuel text := by
  unfold make_suffix_tree at h ⊢
  simp only at h ⊢
  have hd : driver fuel (init_tree text).text.length (init_tree text) root 0 0 ≠ .error .fuel := by
    intro hc
    simp [hc] at h
  rw [driver_mono fuel fuel1 hle _ _ _ _ _ hd]

theorem make_suffix_tree_stable {text : List Int} {fuel0 : Nat} {r : Except Err suffix_tree_t}
    (h0 : make_suffix_tree fuel0 text = r) (hr : r ≠ .error .fuel) (fuel : Nat) :
    make_suffix_tree fuel text = r ∨ make_suffix_tree fuel text = .error .fuel := by
  by_cases hf : make_suffix_tree fuel text = .error .fuel
  · exact Or.inr hf
  · left
    rcases Nat.le_total fuel fuel0 with hle | hle
    · rw [← h0, make_suffix_tree_mono fuel fuel0 text hle hf]
    · rw [make_suffix_tree_mono fuel0 fuel text hle (h0 ▸ hr), h0]

/-! ## The writes of the construction -/

theorem keys_distinct_branching {t : suffix_tree_t} (h : keys_distinct t) : branching t := by
  intro s n ts _ hts
  exact h ts (List.getElem?_mem hts)

theorem keys_distinct_init (text : List Int) : keys_distinct (init_tree text) := by
  intro ts hts
  simp [init_tree] at hts
  rcases hts with rfl | rfl <;> simp

theorem mutation_keys_distinct {t t1 : suffix_tree_t} (hm : mutation t t1)
    (h : keys_distinct t) : keys_distinct t1 := by
  cases hm with
  | push_node => exact h
  | set_node s n => exact h
  | push_tset =>
    intro ts hts
    simp only [List.mem_append, List.mem_singleton] at hts
    rcases hts with hts | rfl
    · exact h ts hts
    · simp
  | push_transition i ts c e hts hnew =>
    intro ts1 hts1
    rcases List.mem_or_eq_of_mem_set hts1 with hmem | rfl
    · exact h ts1 hmem
    · rw [List.map_append, List.nodup_append]
      refine ⟨h ts (List.getElem?_mem hts), by simp, ?_⟩
      intro a ha hb
      simp only [List.map_cons, List.map_nil, List.mem_singleton] at hb
      subst hb
      obtain ⟨x, hx, hxc⟩ := List.mem_map.mp ha
      have := List.find?_eq_none.mp hnew x hx
      simp at this
      exact this hxc.symm
  | push_edge ed => exact h
  | set_edge e ed => exact h

theorem reached_keys_distinct {text : List Int} {t : suffix_tree_t} (h : reached text t) :
    keys_distinct t := by
  induction h with
  | refl => exact keys_distinct_init text
  | tail _ hm ih => exact mutation_keys_distinct hm ih

end ukkonen
namespace ukkonen

theorem set_target_steps (t : suffix_tree_t) (e v : Nat) :
    Relation.ReflTransGen mutation t (set_target t e v) := by
  unfold set_target
  split
  · exact Relation.ReflTransGen.single (mutation.set_edge t e _)
  · exact Relation.ReflTransGen.refl

theorem set_link_steps {t t1 : suffix_tree_t} {s v : Nat} (h : set_link t s v = .ok t1) :
    Relation.ReflTransGen mutation t t1 := by
  unfold set_link at h
  split at h
  · cases h
  · cases h
    exact Relation.ReflTransGen.single (mutation.set_node t s _)

theorem make_transitions_steps {t t1 : suffix_tree_t} {s i : Nat}
    (h : make_transitions t s = .ok (t1, i)) : Relation.ReflTransGen mutation t t1 := by
  unfold make_transitions at h
  simp only at h
  split at h
  · cases h
  · cases h
    exact Relation.ReflTransGen.tail (Relation.ReflTransGen.single (mutation.push_tset t))
      (mutation.set_node _ s _)

theorem g_mut_steps {t t1 : suffix_tree_t} {s e : Nat} {k p : Int}
    (h : g_mut t s k p = .ok (t1, e)) : Relation.ReflTransGen mutation t t1 := by
  unfold g_mut at h
  split at h
  · cases h
  · rename_i n hn
    split at h
    · cases h
    · rename_i t2 i hmk
      have h2 : Relation.ReflTransGen mutation t t2 := by
        split at hmk
        · exact make_transitions_steps hmk
        · cases hmk
          exact Relation.ReflTransGen.refl
      split at h
      · cases h
      · rename_i ts hts
        split at h
        · cases h
        · rename_i tk htk
          split at h
          · rename_i hnew
            cases h
            refine Relation.ReflTransGen.trans h2 ?_
            exact Relation.ReflTransGen.tail
              (Relation.ReflTransGen.single (mutation.push_edge t2 _))
              (mutation.push_transition _ i ts tk _ hts hnew)
          · rename_i tr htr
            split at h
            · cases h
            · cases h
              exact Relation.ReflTransGen.tail h2 (mutation.set_edge t2 _ _)

theorem test_and_split_steps {t t1 : suffix_tree_t} {s r : Nat} {k p c : Int} {b : Bool}
    (h : test_and_split t s k p c = .ok (t1, r, b)) : Relation.ReflTransGen mutation t t1 := by
  unfold test_and_split at h
  split at h
  · cases h
  · split at h
    · split at h
      · cases h
      · split at h
        · cases h
        · split at h
          · cases h
          · split at h
            · cases h
            · split at h
              · cases h
                exact Relation.ReflTransGen.refl
              · simp only at h
                split at h
                · cases h
                · rename_i t2 e1 hg1
                  split at h
                  · cases h
                  · rename_i t4 e2 hg2
                    cases h
                    refine Relation.ReflTransGen.trans ?_ (set_target_steps _ _ _)
                    refine Relation.ReflTransGen.trans ?_ (g_mut_steps hg2)
                    refine Relation.ReflTransGen.trans ?_ (set_target_steps _ _ _)
                    refine Relation.ReflTransGen.trans ?_ (g_mut_steps hg1)
                    exact Relation.ReflTransGen.single (mutation.push_node t)
    · split at h
      · cases h
      · cases h
        exact Relation.ReflTransGen.refl

theorem update_exit_steps {t t1 : suffix_tree_t} {s s1 oldr : Nat} {k k1 : Int}
    (h : update_exit t s k oldr = .ok (t1, s1, k1)) : Relation.ReflTransGen mutation t t1 := by
  unfold update_exit at h
  split at h
  · split at h
    · cases h
    · rename_i t2 hl
      cases h
      exact set_link_steps hl
  · cases h
    exact Relation.ReflTransGen.refl

theorem update_loop_steps (cf : Nat) (i : Int) :
    ∀ (fuel : Nat) (t : suffix_tree_t) (s : Nat) (k : Int) (oldr r : Nat) (b : Bool)
      (t1 : suffix_tree_t) (s1 : Nat) (k1 : Int),
      update_loop cf i fuel t s k oldr r b = .ok (t1, s1, k1) →
      Relation.ReflTransGen mutation t t1 := by
  intro fuel
  induction fuel with
  | zero =>
    intro t s k oldr r b t1 s1 k1 h
    simp only [update_loop] at h
    split at h
    · exact update_exit_steps h
    · cases h
  | succ fuel ih =>
    intro t s k oldr r b t1 s1 k1 h
    simp only [update_loop] at h
    split at h
    · exact update_exit_steps h
    · split at h
      · cases h
      · rename_i t2 e hg
        split at h
        · cases h
        · rename_i t3 hl
          have h3 : Relation.ReflTransGen mutation t2 t3 := by
            split at hl
            · exact set_link_steps hl
            · cases hl
              exact Relation.ReflTransGen.refl
          split at h
          · cases h
          · split at h
            · cases h
            · split at h
              · cases h
              · split at h
                · cases h
                · rename_i t4 r1 b1 hts
                  exact ((g_mut_steps hg).trans h3).trans
                    ((test_and_split_steps hts).trans (ih _ _ _ _ _ _ _ _ _ h))

theorem update_steps {fuel : Nat} {t t1 : suffix_tree_t} {s s1 : Nat} {k i k1 : Int}
    (h : update fuel t s k i = .ok (t1, s1, k1)) : Relation.ReflTransGen mutation t t1 := by
  unfold update at h
  split at h
  · cases h
  · split at h
    · cases h
    · split at h
      · cases h
      · rename_i t2 r b hts
        exact (test_and_split_steps hts).trans (update_loop_steps _ _ _ _ _ _ _ _ _ _ _ _ h)

theorem driver_steps (fuel : Nat) :
    ∀ (n : Nat) (t : suffix_tree_t) (s : Nat) (k i : Int) (t1 : suffix_tree_t) (s1 : Nat)
      (k1 : Int), driver fuel n t s k i = .ok (t1, s1, k1) →
      Relation.ReflTransGen mutation t t1 := by
  intro n
  induction n with
  | zero =>
    intro t s k i t1 s1 k1 h
    simp only [driver] at h
    cases h
    exact Relation.ReflTransGen.refl
  | succ n ih =>
    intro t s k i t1 s1 k1 h
    simp only [driver] at h
    split at h
    · cases h
    · rename_i t2 s2 k2 hu
      split at h
      · cases h
      · exact (update_steps hu).trans (ih _ _ _ _ _ _ _ h)

theorem make_suffix_tree_reached {fuel : Nat} {text : List Int} {t : suffix_tree_t}
    (h : make_suffix_tree fuel text = .ok t) : reached text t := by
  unfold make_suffix_tree at h
  simp only at h
  split at h
  · cases h
  · rename_i t1 s1 k1 hd
    cases h
    exact driver_steps _ _ _ _ _ _ _ _ _ hd

/-! ## The split of `test_and_split` -/

theorem split_result (t : suffix_tree_t) (s : Nat) (k p c tk k1 p1 x : Int) (s1 : Nat)
    (n : node_type) (ts : List transition_type) (tr : transition_type)
    (hk : 0 ≤ k) (hkp : k ≤ p)
    (htk : text_at t k = .ok tk)
    (hn : t.nodes[s]? = some n) (h0 : n.tset ≠ 0) (hts : t.transitions[n.tset]? = some ts)
    (htr : ts.find? (fun arg => decide (tk = arg.c)) = some tr)
    (he : t.edges[tr.e]? = some ⟨s, k1, p1, s1⟩)
    (hs : s ≠ aux)
    (hlabel : text_at t k1 = .ok tk)
    (hx : text_at t (k1 + p - k + 1) = .ok x) (hc : ¬ c = x) :
    test_and_split t s k p c =
      .ok ({ text := t.text,
             nodes := (t.nodes ++ [node_type.mk 0 0]).set t.nodes.length ⟨0, t.transitions.length⟩,
             transitions := (t.transitions ++ [[]]).set t.transitions.length
               [⟨x, t.edges.length⟩],
             edges := t.edges.set tr.e ⟨s, k1, k1 + p - k, t.nodes.length⟩ ++
               [⟨t.nodes.length, k1 + p - k + 1, p1, s1⟩] }, t.nodes.length, false) := by
  have hk1 : 0 ≤ k1 := text_at_nonneg hlabel
  have hslt : s < t.nodes.length := (List.getElem?_eq_some.mp hn).1
  have helt : tr.e < t.edges.length := (List.getElem?_eq_some.mp he).1
  have hg : g_ t s tk = .ok ⟨s, k1, p1, s1⟩ := g_of hs hn h0 hts htr he
  unfold test_and_split
  rw [if_neg (by omega), if_pos hkp, htk]
  simp only [hg, if_neg (not_lt.mpr hk1), hx, if_neg hc]
  -- first find-or-create: the existing edge is rewritten
  have hn1 : (t.nodes ++ [({ link := 0, tset := 0 } : node_type)])[s]? = some n := by
    rw [List.getElem?_append_left hslt]; exact hn
  have hg1 : g_mut ⟨t.text, t.nodes ++ [node_type.mk 0 0], t.transitions, t.edges⟩ s k1 (k1 + p - k) =
      .ok (⟨t.text, t.nodes ++ [node_type.mk 0 0], t.transitions,
            t.edges.set tr.e ⟨s, k1, k1 + p - k, s1⟩⟩, tr.e) := by
    unfold g_mut node_at
    simp only [hn1, if_neg h0, hts]
    rw [text_at_mk, hlabel]
    simp only [htr, he]
  rw [hg1]
  simp only
  have hst : set_target ⟨t.text, t.nodes ++ [node_type.mk 0 0], t.transitions,
            t.edges.set tr.e ⟨s, k1, k1 + p - k, s1⟩⟩ tr.e t.nodes.length =
      ⟨t.text, t.nodes ++ [node_type.mk 0 0], t.transitions,
            t.edges.set tr.e ⟨s, k1, k1 + p - k, t.nodes.length⟩⟩ := by
    unfold set_target
    simp [List.getElem?_set, helt]
  rw [hst]
  -- second find-or-create: a new table and a new edge for the new node
  have hg2 : g_mut ⟨t.text, t.nodes ++ [node_type.mk 0 0], t.transitions,
            t.edges.set tr.e ⟨s, k1, k1 + p - k, t.nodes.length⟩⟩
             t.nodes.length (k1 + p - k + 1) p1 =
      .ok (⟨t.text,
             (t.nodes ++ [node_type.mk 0 0]).set t.nodes.length ⟨0, t.transitions.length⟩,
             (t.transitions ++ [[]]).set t.transitions.length [⟨x, t.edges.length⟩],
             t.edges.set tr.e ⟨s, k1, k1 + p - k, t.nodes.length⟩ ++
               [⟨t.nodes.length, k1 + p - k + 1, p1, 0⟩]⟩, t.edges.length) := by
    unfold g_mut make_transitions node_at
    simp only [List.getElem?_concat_length, if_true]
    rw [text_at_mk, hx]
    simp
  rw [hg2]
  simp only [set_target]
  simp

theorem test_and_split_found (t : suffix_tree_t) (s : Nat) (k p c tk x : Int) (e : edge_type)
    (hk : 0 ≤ k) (hkp : k ≤ p) (htk : text_at t k = .ok tk) (he : g_ t s tk = .ok e)
    (hk1 : 0 ≤ e.k) (hx : text_at t (e.k + p - k + 1) = .ok x) (hc : c = x) :
    test_and_split t s k p c = .ok (t, s, true) := by
  unfold test_and_split
  rw [if_neg (by omega), if_pos hkp, htk]
  simp only [he, if_neg (not_lt.mpr hk1), hx, if_pos hc]

theorem has_transition_total (t : suffix_tree_t) (s : Nat) (c : Int)
    (hs : s = aux ∨ s < t.nodes.length) : ∃ b, has_transition t s c = .ok b := by
  unfold has_transition node_at
  split
  · exact ⟨_, rfl⟩
  · rename_i hne
    have hlt : s < t.nodes.length := by
      rcases hs with h | h
      · exact absurd h.symm hne
      · exact h
    rw [List.getElem?_eq_getElem hlt]
    simp only
    split
    · split <;> exact ⟨_, rfl⟩
    · exact ⟨_, rfl⟩

theorem make_suffix_tree_aaa : make_suffix_tree 4 [65, 65, 65] = .ok aaa_tree := by decide!

/-! ## The first iteration of the driver -/

theorem first_iteration (text : List Int) (fuel : Nat) :
    driver (fuel + 1) 1 (init_tree text) root 0 0 = .ok (first_tree text, root, 1) := by
  cases text with
  | nil =>
    simp [init_tree, first_tree, driver, update, text_at, test_and_split, has_transition, node_at,
      update_loop, update_exit, g_mut, make_transitions, link, canonize, g_, canonize_loop,
      has_transition_in, update_loop_done, canonize_loop_done]
  | cons c rest =>
    simp [init_tree, first_tree, driver, update, text_at, test_and_split, has_transition, node_at,
      update_loop, update_exit, g_mut, make_transitions, link, canonize, g_, canonize_loop,
      has_transition_in, update_loop_done, canonize_loop_done]

theorem driver_succ (fuel n : Nat) (t : suffix_tree_t) (s : Nat) (k i : Int) :
    driver fuel (n + 1) t s k i =
      match driver fuel 1 t s k i with
      | .error e => .error e
      | .ok (t1, s1, k1) => driver fuel n t1 s1 k1 (i + 1) := by
  simp only [driver]
  cases update fuel t s k i with
  | error e => rfl
  | ok r =>
    obtain ⟨t1, s1, k1⟩ := r
    simp only
    cases canonize fuel t1 s1 k1 i with
    | error e => rfl
    | ok r2 => rfl

/-! ## Lookups -/

theorem has_transition_eq (t : suffix_tree_t) (s : Nat) (c : Int) (n : node_type)
    (hs : s ≠ aux) (hn : t.nodes[s]? = some n) :
    has_transition t s c =
      .ok (decide (n.tset ≠ 0) && has_transition_in ((t.transitions[n.tset]?).getD []) c) := by
  unfold has_transition node_at
  rw [if_neg (fun h => hs h.symm), hn]
  simp only
  by_cases h0 : n.tset = 0
  · simp [h0]
  · rw [if_pos h0]
    cases h : t.transitions[n.tset]? with
    | none => simp [has_transition_in]
    | some ts => simp [h0]

theorem make_suffix_tree_all_fuel (fuel0 : Nat) {text : List Int} {r : Except Err suffix_tree_t}
    (h0 : make_suffix_tree fuel0 text = r) (hr : r ≠ .error .fuel) (fuel : Nat)
    (hle : fuel0 ≤ fuel) : make_suffix_tree fuel text = r := by
  rw [make_suffix_tree_mono fuel0 fuel text hle (h0 ▸ hr), h0]

theorem g_missing {t : suffix_tree_t} {s : Nat} {c : Int} {n : node_type}
    {ts : List transition_type} (hs : s ≠ aux) (hn : t.nodes[s]? = some n) (h0 : n.tset ≠ 0)
    (hts : t.transitions[n.tset]? = some ts) (hno : ∀ tr ∈ ts, tr.c ≠ c) :
    g_ t s c = .error .missing := by
  unfold g_ node_at
  rw [if_pos (fun h1 => hs h1.symm)]
  have hf : ts.find? (fun arg => decide (c = arg.c)) = none := by
    rw [List.find?_eq_none]
    intro x hx
    simpa using fun h => hno x hx h.symm
  simp [hn, h0, hts, hf]

/-! ## Suffix links and the writes -/

theorem links_set_tset (ns : List node_type) (s : Nat) (node : node_type) (n : Nat)
    (h : ns[s]? = some node) :
    (ns.set s { node with tset := n }).map (fun x => x.link) = ns.map (fun x => x.link) := by
  apply List.ext_getElem?
  intro i
  rw [List.getElem?_map, List.getElem?_map, List.getElem?_set]
  by_cases hi : s = i
  · subst hi
    rw [if_pos rfl, h]
    have hlt : s < ns.length := (List.getElem?_eq_some.mp h).1
    simp [hlt]
  · rw [if_neg hi]

theorem set_target_nodes (t : suffix_tree_t) (e v : Nat) :
    (set_target t e v).nodes = t.nodes ∧ (set_target t e v).text = t.text ∧
    (set_target t e v).transitions = t.transitions := by
  unfold set_target
  split <;> exact ⟨rfl, rfl, rfl⟩

theorem make_transitions_links {t t1 : suffix_tree_t} {s i : Nat}
    (h : make_transitions t s = .ok (t1, i)) : links t1 = links t ∧ t1.text = t.text := by
  unfold make_transitions node_at at h
  simp only at h
  split at h
  · cases h
  · rename_i node hn
    split at hn
    · rename_i n1 hn1
      cases hn
      cases h
      exact ⟨links_set_tset _ _ _ _ hn1, rfl⟩
    · cases hn

theorem g_mut_links {t t1 : suffix_tree_t} {s e : Nat} {k p : Int}
    (h : g_mut t s k p = .ok (t1, e)) : links t1 = links t ∧ t1.text = t.text := by
  unfold g_mut at h
  split at h
  · cases h
  · split at h
    · cases h
    · rename_i t2 i hmk
      have h2 : links t2 = links t ∧ t2.text = t.text := by
        split at hmk
        · exact make_transitions_links hmk
        · cases hmk
          exact ⟨rfl, rfl⟩
      split at h
      · cases h
      · split at h
        · cases h
        · split at h
          · cases h
            exact h2
          · split at h
            · cases h
            · cases h
              exact h2

theorem test_and_split_links {t t1 : suffix_tree_t} {s r : Nat} {k p c : Int} {b : Bool}
    (h : test_and_split t s k p c = .ok (t1, r, b)) :
    (t1 = t ∧ r = s ∧ (k ≤ p → b = true)) ∨
    (k ≤ p ∧ b = false ∧ r = t.nodes.length ∧ links t1 = links t ++ [aux] ∧ t1.text = t.text) := by
  unfold test_and_split at h
  split at h
  · cases h
  · split at h
    · rename_i hkp
      split at h
      · cases h
      · split at h
        · cases h
        · split at h
          · cases h
          · split at h
            · cases h
            · split at h
              · cases h
                exact Or.inl ⟨rfl, rfl, fun _ => rfl⟩
              · simp only at h
                split at h
                · cases h
                · rename_i t2 e1 hg1
                  split at h
                  · cases h
                  · rename_i t4 e2 hg2
                    cases h
                    right
                    refine ⟨hkp, rfl, rfl, ?_, ?_⟩
                    · have h4 := (g_mut_links hg2).1
                      have h2 := (g_mut_links hg1).1
                      unfold links at h4 h2 ⊢
                      rw [(set_target_nodes _ _ _).1, h4, (set_target_nodes _ _ _).1, h2]
                      simp
                    · rw [(set_target_nodes _ _ _).2.1, (g_mut_links hg2).2,
                        (set_target_nodes _ _ _).2.1, (g_mut_links hg1).2]
    · rename_i hkp
      split at h
      · cases h
      · cases h
        exact Or.inl ⟨rfl, rfl, fun h => absurd h hkp⟩

theorem link_eq_links (t : suffix_tree_t) (s v : Nat) :
    link t s = .ok v ↔ (links t)[s]? = some v := by
  unfold link node_at links
  rw [List.getElem?_map]
  cases t.nodes[s]? with
  | none => simp
  | some n => simp

/-! ## The frame of `test_and_split` -/

theorem split_result_src (t : suffix_tree_t) (s : Nat) (k p c tk k1 p1 x : Int) (s1 src : Nat)
    (n : node_type) (ts : List transition_type) (tr : transition_type)
    (hk : 0 ≤ k) (hkp : k ≤ p)
    (htk : text_at t k = .ok tk)
    (hn : t.nodes[s]? = some n) (h0 : n.tset ≠ 0) (hts : t.transitions[n.tset]? = some ts)
    (htr : ts.find? (fun arg => decide (tk = arg.c)) = some tr)
    (he : t.edges[tr.e]? = some ⟨src, k1, p1, s1⟩)
    (hs : s ≠ aux)
    (hlabel : text_at t k1 = .ok tk)
    (hx : text_at t (k1 + p - k + 1) = .ok x) (hc : ¬ c = x) :
    test_and_split t s k p c =
      .ok ({ text := t.text,
             nodes := (t.nodes ++ [node_type.mk 0 0]).set t.nodes.length ⟨0, t.transitions.length⟩,
             transitions := (t.transitions ++ [[]]).set t.transitions.length
               [⟨x, t.edges.length⟩],
             edges := t.edges.set tr.e ⟨src, k1, k1 + p - k, t.nodes.length⟩ ++
               [⟨t.nodes.length, k1 + p - k + 1, p1, s1⟩] }, t.nodes.length, false) := by
  have hk1 : 0 ≤ k1 := text_at_nonneg hlabel
  have hslt : s < t.nodes.length := (List.getElem?_eq_some.mp hn).1
  have helt : tr.e < t.edges.length := (List.getElem?_eq_some.mp he).1
  have hg : g_ t s tk = .ok ⟨src, k1, p1, s1⟩ := g_of hs hn h0 hts htr he
  unfold test_and_split
  rw [if_neg (by omega), if_pos hkp, htk]
  simp only [hg, if_neg (not_lt.mpr hk1), hx, if_neg hc]
  -- first find-or-create: the existing edge is rewritten
  have hn1 : (t.nodes ++ [({ link := 0, tset := 0 } : node_type)])[s]? = some n := by
    rw [List.getElem?_append_left hslt]; exact hn
  have hg1 : g_mut ⟨t.text, t.nodes ++ [node_type.mk 0 0], t.transitions, t.edges⟩ s k1 (k1 + p - k) =
      .ok (⟨t.text, t.nodes ++ [node_type.mk 0 0], t.transitions,
            t.edges.set tr.e ⟨src, k1, k1 + p - k, s1⟩⟩, tr.e) := by
    unfold g_mut node_at
    simp only [hn1, if_neg h0, hts]
    rw [text_at_mk, hlabel]
    simp only [htr, he]
  rw [hg1]
  simp only
  have hst : set_target ⟨t.text, t.nodes ++ [node_type.mk 0 0], t.transitions,
            t.edges.set tr.e ⟨src, k1, k1 + p - k, s1⟩⟩ tr.e t.nodes.length =
      ⟨t.text, t.nodes ++ [node_type.mk 0 0], t.transitions,
            t.edges.set tr.e ⟨src, k1, k1 + p - k, t.nodes.length⟩⟩ := by
    unfold set_target
    simp [List.getElem?_set, helt]
  rw [hst]
  -- second find-or-create: a new table and a new edge for the new node
  have hg2 : g_mut ⟨t.text, t.nodes ++ [node_type.mk 0 0], t.transitions,
            t.edges.set tr.e ⟨src, k1, k1 + p - k, t.nodes.length⟩⟩
             t.nodes.length (k1 + p - k + 1) p1 =
      .ok (⟨t.text,
             (t.nodes ++ [node_type.mk 0 0]).set t.nodes.length ⟨0, t.transitions.length⟩,
             (t.transitions ++ [[]]).set t.transitions.length [⟨x, t.edges.length⟩],
             t.edges.set tr.e ⟨src, k1, k1 + p - k, t.nodes.length⟩ ++
               [⟨t.nodes.length, k1 + p - k + 1, p1, 0⟩]⟩, t.edges.length) := by
    unfold g_mut make_transitions node_at
    simp only [List.getElem?_concat_length, if_true]
    rw [text_at_mk, hx]
    simp
  rw [hg2]
  simp only [set_target]
  simp

theorem test_and_split_inv {t t1 : suffix_tree_t} {s r : Nat} {k p c : Int} {b : Bool}
    (h : test_and_split t s k p c = .ok (t1, r, b)) (hkp : k ≤ p) :
    ∃ tk e x, 0 ≤ k ∧ text_at t k = .ok tk ∧ g_ t s tk = .ok e ∧ 0 ≤ e.k ∧
      text_at t (e.k + p - k + 1) = .ok x ∧ (b = true ↔ c = x) := by
  unfold test_and_split at h
  split at h
  · cases h
  · rename_i hk
    split at h
    · cases h
    · rename_i tk htk
      split at h
      · cases h
      · rename_i e he
        split at h
        · cases h
        · rename_i hek
          split at h
          · cases h
          · rename_i x hx
            refine ⟨tk, e, x, by omega, htk, he, by omega, hx, ?_⟩
            split at h
            · rename_i hc
              cases h
              exact ⟨fun _ => hc, fun _ => rfl⟩
            · rename_i hc
              simp only at h
              split at h
              · cases h
              · split at h
                · cases h
                · cases h
                  exact ⟨fun hb => absurd hb (by decide), fun hcx => absurd hcx hc⟩

theorem test_and_split_true {t t1 : suffix_tree_t} {s r : Nat} {k p c : Int}
    (h : test_and_split t s k p c = .ok (t1, r, true)) : t1 = t ∧ r = s := by
  rcases test_and_split_links h with ⟨h1, h2, _⟩ | ⟨_, hb, _⟩
  · exact ⟨h1, h2⟩
  · cases hb

theorem split_frame (t t1 : suffix_tree_t) (s r : Nat) (k p c tk : Int) (e : edge_type)
    (hs : s ≠ aux) (hkp : k ≤ p)
    (htk : text_at t k = .ok tk) (he : g_ t s tk = .ok e) (hlabel : text_at t e.k = .ok tk)
    (h : test_and_split t s k p c = .ok (t1, r, false)) :
    r = t.nodes.length ∧ t1.text = t.text ∧
    t1.nodes.length = t.nodes.length + 1 ∧ t1.edges.length = t.edges.length + 1 ∧
    (∃ i, t.edges[i]? = some e ∧
      t1.edges[i]? = some { e with p := e.k + p - k, s_ := r } ∧
      ∀ j, j < t.edges.length → j ≠ i → t1.edges[j]? = t.edges[j]?) ∧
    (∀ j, j < t.nodes.length → t1.nodes[j]? = t.nodes[j]?) ∧
    (∀ j, j < t.transitions.length → t1.transitions[j]? = t.transitions[j]?) := by
  obtain ⟨tk1, e1, x, hk, htk1, he1, _, hx, hb⟩ := test_and_split_inv h hkp
  rw [htk] at htk1
  cases htk1
  rw [he] at he1
  cases he1
  have hc : ¬ c = x := fun hcx => absurd (hb.mpr hcx) (by decide)
  obtain ⟨n, ts, tr, hn, h0, hts, htr, hed⟩ := g_inv hs he
  have helt : tr.e < t.edges.length := (List.getElem?_eq_some.mp hed).1
  have hres := split_result_src t s k p c tk e.k e.p x e.s_ e.s n ts tr hk hkp htk hn h0 hts htr hed
    hs hlabel hx hc
  rw [hres] at h
  cases h
  refine ⟨rfl, rfl, by simp, by simp, ⟨tr.e, hed, ?_, ?_⟩, ?_, ?_⟩
  · simp only
    rw [List.getElem?_append_left (by simpa using helt)]
    simp [List.getElem?_set, helt]
  · intro j hj hne
    simp only
    rw [List.getElem?_append_left (by simpa using hj), List.getElem?_set_ne (fun h => hne h.symm)]
  · intro j hj
    simp only
    rw [List.getElem?_set_ne (by omega), List.getElem?_append_left hj]
  · intro j hj
    simp only
    rw [List.getElem?_set_ne (by omega), List.getElem?_append_left hj]

/-! ## The find-or-create `g_` and well-formed trees -/

/-- What the find-or-create `g_` does, case by case. -/
theorem g_mut_spec {t t1 : suffix_tree_t} {s e : Nat} {k p : Int}
    (h : g_mut t s k p = .ok (t1, e)) :
    ∃ n tk ns tbl i ts, t.nodes[s]? = some n ∧ text_at t k = .ok tk ∧
      ((n.tset ≠ 0 ∧ ns = t.nodes ∧ tbl = t.transitions ∧ i = n.tset) ∨
       (n.tset = 0 ∧ ns = t.nodes.set s ⟨n.link, t.transitions.length⟩ ∧
          tbl = t.transitions ++ [[]] ∧ i = t.transitions.length)) ∧
      tbl[i]? = some ts ∧
      ((ts.find? (fun arg => decide (tk = arg.c)) = none ∧ e = t.edges.length ∧
          t1 = ⟨t.text, ns, tbl.set i (ts ++ [⟨tk, t.edges.length⟩]),
                t.edges ++ [⟨s, k, p, 0⟩]⟩) ∨
       (∃ tr ed, ts.find? (fun arg => decide (tk = arg.c)) = some tr ∧ e = tr.e ∧
          t.edges[tr.e]? = some ed ∧
          t1 = ⟨t.text, ns, tbl, t.edges.set tr.e { ed with k := k, p := p }⟩)) := by
  unfold g_mut node_at at h
  split at h
  · cases h
  · rename_i n hn
    split at hn
    · rename_i n1 hn1
      cases hn
      by_cases h0 : n.tset = 0
      · rw [if_pos h0] at h
        unfold make_transitions node_at at h
        simp only [hn1] at h
        split at h
        · cases h
        · rename_i ts hts
          rw [text_at_mk] at h
          split at h
          · cases h
          · rename_i tk htk
            refine ⟨n, tk, _, _, _, ts, hn1, htk, Or.inr ⟨h0, rfl, rfl, rfl⟩, hts, ?_⟩
            split at h
            · rename_i hf
              cases h
              exact Or.inl ⟨hf, rfl, rfl⟩
            · rename_i tr hf
              split at h
              · cases h
              · rename_i ed hed
                cases h
                exact Or.inr ⟨tr, ed, hf, rfl, hed, rfl⟩
      · rw [if_neg h0] at h
        simp only at h
        split at h
        · cases h
        · rename_i ts hts
          split at h
          · cases h
          · rename_i tk htk
            refine ⟨n, tk, _, _, _, ts, hn1, htk, Or.inl ⟨h0, rfl, rfl, rfl⟩, hts, ?_⟩
            split at h
            · rename_i hf
              cases h
              exact Or.inl ⟨hf, rfl, rfl⟩
            · rename_i tr hf
              split at h
              · cases h
              · rename_i ed hed
                cases h
                exact Or.inr ⟨tr, ed, hf, rfl, hed, rfl⟩
    · cases hn

theorem lt_of_getElem? {α : Type} {l : List α} {i : Nat} {a : α} (h : l[i]? = some a) :
    i < l.length := (List.getElem?_eq_some.mp h).1

theorem concat_cases {α : Type} {l : List α} {a b : α} {i : Nat}
    (h : (l ++ [a])[i]? = some b) : l[i]? = some b ∨ (i = l.length ∧ b = a) := by
  rw [List.getElem?_append] at h
  split at h
  · exact Or.inl h
  · rename_i hlt
    have hi : i - l.length < 1 := by simpa using lt_of_getElem? h
    have hil : i = l.length := by omega
    subst hil
    simp at h
    exact Or.inr ⟨rfl, h.symm⟩

theorem set_cases {α : Type} {l : List α} {a b : α} {i j : Nat}
    (h : (l.set i a)[j]? = some b) : (j ≠ i ∧ l[j]? = some b) ∨ (j = i ∧ b = a ∧ i < l.length) := by
  rw [List.getElem?_set] at h
  split at h
  · rename_i hij
    split at h
    · rename_i hlt
      cases h
      exact Or.inr ⟨hij.symm, rfl, hlt⟩
    · cases h
  · rename_i hij
    exact Or.inl ⟨fun h1 => hij h1.symm, h⟩

theorem well_formed_init (text : List Int) : well_formed (init_tree text) where
  nodes_ge := by simp [init_tree]
  tset_lt := by
    intro s n hn
    simp only [init_tree] at hn ⊢
    match s, hn with
    | 0, hn => cases hn; decide
    | 1, hn => cases hn; decide
    | s + 2, hn => simp at hn
  tset_inj := by
    intro s1 s2 n1 n2 h1 h2 heq h0
    simp only [init_tree] at h1 h2
    match s1, s2, h1, h2 with
    | 0, 0, _, _ => rfl
    | 0, 1, h1, h2 => cases h1; cases h2; simp at heq
    | 1, _, h1, _ => cases h1; simp at h0
    | 0, s + 2, _, h2 => simp at h2
    | s + 2, _, h1, _ => simp at h1
  edge_lt := by
    intro i ts tr hts htr
    simp only [init_tree] at hts ⊢
    match i, hts with
    | 0, hts => cases hts; simp at htr
    | 1, hts => cases hts; simp at htr; subst htr; decide
    | i + 2, hts => simp at hts
  edge_inj := by
    intro i1 i2 ts1 ts2 j1 j2 tr1 tr2 h1 hj1 h2 hj2 _
    simp only [init_tree] at h1 h2
    have key : ∀ (i : Nat) (ts : List transition_type) (j : Nat) (tr : transition_type),
        ([[], [transition_type.mk (-1) 0]] : List (List transition_type))[i]? = some ts →
        ts[j]? = some tr → i = 1 ∧ j = 0 := by
      intro i ts j tr hi hj
      match i, hi with
      | 0, hi => cases hi; simp at hj
      | 1, hi =>
        cases hi
        match j, hj with
        | 0, _ => exact ⟨rfl, rfl⟩
        | j + 1, hj => simp at hj
      | i + 2, hi => simp at hi
    obtain ⟨a1, b1⟩ := key i1 ts1 j1 tr1 h1 hj1
    obtain ⟨a2, b2⟩ := key i2 ts2 j2 tr2 h2 hj2
    exact ⟨a1.trans a2.symm, b1.trans b2.symm⟩
  source := by
    intro s n ts tr ed hn h0 hts htr hed
    simp only [init_tree] at hn hts hed
    match s, hn with
    | 0, hn =>
      cases hn
      simp at hts
      subst hts
      simp at htr
      subst htr
      simp at hed
      subst hed
      rfl
    | 1, hn => cases hn; simp at h0
    | s + 2, hn => simp at hn

theorem transitions_ne_nil {t : suffix_tree_t} (h : well_formed t) : 1 ≤ t.transitions.length := by
  have h2 := h.nodes_ge
  have hlt : 0 < t.nodes.length := by omega
  have := h.tset_lt 0 t.nodes[0] (List.getElem?_eq_getElem hlt)
  omega

theorem well_formed_push_node {t : suffix_tree_t} (h : well_formed t) :
    well_formed ⟨t.text, t.nodes ++ [node_type.mk 0 0], t.transitions, t.edges⟩ where
  nodes_ge := by have := h.nodes_ge; simp; omega
  tset_lt := by
    intro s n hn
    rcases concat_cases hn with hn | ⟨_, rfl⟩
    · exact h.tset_lt s n hn
    · have := transitions_ne_nil h
      exact this
  tset_inj := by
    intro s1 s2 n1 n2 h1 h2 heq h0
    rcases concat_cases h1 with h1 | ⟨_, rfl⟩
    · rcases concat_cases h2 with h2 | ⟨_, rfl⟩
      · exact h.tset_inj s1 s2 n1 n2 h1 h2 heq h0
      · exact absurd heq h0
    · exact absurd rfl h0
  edge_lt := h.edge_lt
  edge_inj := h.edge_inj
  source := by
    intro s n ts tr ed hn h0 hts htr hed
    rcases concat_cases hn with hn | ⟨_, rfl⟩
    · exact h.source s n ts tr ed hn h0 hts htr hed
    · exact absurd rfl h0

theorem well_formed_set_link {t : suffix_tree_t} (h : well_formed t) (s v : Nat) (n : node_type)
    (hs : t.nodes[s]? = some n) :
    well_formed ⟨t.text, t.nodes.set s { n with link := v }, t.transitions, t.edges⟩ := by
  have key : ∀ (j : Nat) (m : node_type), (t.nodes.set s { n with link := v })[j]? = some m →
      ∃ m0, t.nodes[j]? = some m0 ∧ m0.tset = m.tset := by
    intro j m hm
    rcases set_cases hm with ⟨_, hm⟩ | ⟨rfl, rfl, _⟩
    · exact ⟨m, hm, rfl⟩
    · exact ⟨n, hs, rfl⟩
  exact {
    nodes_ge := by have := h.nodes_ge; simpa using this
    tset_lt := by
      intro j m hm
      obtain ⟨m0, hm0, he⟩ := key j m hm
      have := h.tset_lt j m0 hm0
      simp only at this ⊢
      omega
    tset_inj := by
      intro s1 s2 n1 n2 h1 h2 heq h0
      obtain ⟨m1, hm1, he1⟩ := key s1 n1 h1
      obtain ⟨m2, hm2, he2⟩ := key s2 n2 h2
      exact h.tset_inj s1 s2 m1 m2 hm1 hm2 (by omega) (by omega)
    edge_lt := h.edge_lt
    edge_inj := h.edge_inj
    source := by
      intro j m ts tr ed hm h0 hts htr hed
      obtain ⟨m0, hm0, he⟩ := key j m hm
      exact h.source j m0 ts tr ed hm0 (by omega) (by rw [he]; exact hts) htr hed }

theorem well_formed_make_table {t : suffix_tree_t} (h : well_formed t) (s : Nat) (n : node_type)
    (hs : t.nodes[s]? = some n) :
    well_formed ⟨t.text, t.nodes.set s ⟨n.link, t.transitions.length⟩, t.transitions ++ [[]],
      t.edges⟩ where
  nodes_ge := by have := h.nodes_ge; simpa using this
  tset_lt := by
    intro j m hm
    rcases set_cases hm with ⟨_, hm⟩ | ⟨rfl, rfl, _⟩
    · have := h.tset_lt j m hm
      simp only [List.length_append, List.length_singleton]
      omega
    · simp
  tset_inj := by
    intro s1 s2 n1 n2 h1 h2 heq h0
    rcases set_cases h1 with ⟨_, g1⟩ | ⟨rfl, rfl, _⟩
    · rcases set_cases h2 with ⟨_, g2⟩ | ⟨rfl, rfl, _⟩
      · exact h.tset_inj s1 s2 n1 n2 g1 g2 heq h0
      · have := h.tset_lt s1 n1 g1
        simp only at heq
        omega
    · rcases set_cases h2 with ⟨_, g2⟩ | ⟨rfl, rfl, _⟩
      · have := h.tset_lt s2 n2 g2
        simp only at heq
        omega
      · rfl
  edge_lt := by
    intro i ts tr hts htr
    rcases concat_cases hts with hts | ⟨_, rfl⟩
    · exact h.edge_lt i ts tr hts htr
    · simp at htr
  edge_inj := by
    intro i1 i2 ts1 ts2 j1 j2 tr1 tr2 h1 hj1 h2 hj2 heq
    rcases concat_cases h1 with h1 | ⟨_, rfl⟩
    · rcases concat_cases h2 with h2 | ⟨_, rfl⟩
      · exact h.edge_inj i1 i2 ts1 ts2 j1 j2 tr1 tr2 h1 hj1 h2 hj2 heq
      · simp at hj2
    · simp at hj1
  source := by
    intro j m ts tr ed hm h0 hts htr hed
    rcases set_cases hm with ⟨_, hm⟩ | ⟨rfl, rfl, _⟩
    · rcases concat_cases hts with hts | ⟨hl, _⟩
      · exact h.source j m ts tr ed hm h0 hts htr hed
      · have := h.tset_lt j m hm
        omega
    · simp only at hts
      rw [List.getElem?_concat_length] at hts
      cases hts
      simp at htr

theorem well_formed_set_edge {t : suffix_tree_t} (h : well_formed t) (e : Nat)
    (ed ed1 : edge_type) (he : t.edges[e]? = some ed) (hsrc : ed1.s = ed.s) :
    well_formed ⟨t.text, t.nodes, t.transitions, t.edges.set e ed1⟩ where
  nodes_ge := h.nodes_ge
  tset_lt := h.tset_lt
  tset_inj := h.tset_inj
  edge_lt := by
    intro i ts tr hts htr
    have := h.edge_lt i ts tr hts htr
    simpa using this
  edge_inj := h.edge_inj
  source := by
    intro j m ts tr ed2 hm h0 hts htr hed
    rcases set_cases hed with ⟨_, hed⟩ | ⟨hje, rfl, _⟩
    · exact h.source j m ts tr ed2 hm h0 hts htr hed
    · rw [hsrc]
      exact h.source j m ts tr ed hm h0 hts htr (by rw [hje]; exact he)

theorem entry_cases {t : suffix_tree_t} {i : Nat} {ts : List transition_type}
    {new : transition_type} (hts : t.transitions[i]? = some ts)
    {i1 : Nat} {ts1 : List transition_type} {j1 : Nat} {tr1 : transition_type}
    (h1 : (t.transitions.set i (ts ++ [new]))[i1]? = some ts1) (hj1 : ts1[j1]? = some tr1) :
    (∃ ts0, t.transitions[i1]? = some ts0 ∧ ts0[j1]? = some tr1) ∨
    (i1 = i ∧ j1 = ts.length ∧ tr1 = new) := by
  rcases set_cases h1 with ⟨_, g1⟩ | ⟨rfl, rfl, _⟩
  · exact Or.inl ⟨ts1, g1, hj1⟩
  · rcases concat_cases hj1 with g | ⟨g1, g2⟩
    · exact Or.inl ⟨ts, hts, g⟩
    · exact Or.inr ⟨rfl, g1, g2⟩

theorem well_formed_push_edge {t : suffix_tree_t} (h : well_formed t) (s : Nat) (n : node_type)
    (ts : List transition_type) (c k p : Int) (x : Nat)
    (hs : t.nodes[s]? = some n) (hts : t.transitions[n.tset]? = some ts) :
    well_formed ⟨t.text, t.nodes,
      t.transitions.set n.tset (ts ++ [transition_type.mk c t.edges.length]),
      t.edges ++ [edge_type.mk s k p x]⟩ where
  nodes_ge := h.nodes_ge
  tset_lt := by
    intro j m hm
    have := h.tset_lt j m hm
    simpa using this
  tset_inj := h.tset_inj
  edge_lt := by
    intro i ts1 tr hts1 htr
    obtain ⟨j, hj⟩ := List.mem_iff_getElem?.mp htr
    simp only [List.length_append, List.length_singleton]
    rcases entry_cases hts hts1 hj with ⟨ts0, g1, g2⟩ | ⟨_, _, rfl⟩
    · have := h.edge_lt i ts0 tr g1 (List.getElem?_mem g2)
      omega
    · simp
  edge_inj := by
    intro i1 i2 ts1 ts2 j1 j2 tr1 tr2 h1 hj1 h2 hj2 heq
    rcases entry_cases hts h1 hj1 with ⟨ta, ga1, ga2⟩ | ⟨a1, a2, rfl⟩
    · have hlt1 := h.edge_lt i1 ta tr1 ga1 (List.getElem?_mem ga2)
      rcases entry_cases hts h2 hj2 with ⟨tb, gb1, gb2⟩ | ⟨b1, b2, rfl⟩
      · exact h.edge_inj i1 i2 ta tb j1 j2 tr1 tr2 ga1 ga2 gb1 gb2 heq
      · simp only at heq
        omega
    · rcases entry_cases hts h2 hj2 with ⟨tb, gb1, gb2⟩ | ⟨b1, b2, rfl⟩
      · have hlt2 := h.edge_lt i2 tb tr2 gb1 (List.getElem?_mem gb2)
        simp only at heq
        omega
      · exact ⟨a1.trans b1.symm, a2.trans b2.symm⟩
  source := by
    intro j m ts1 tr ed hm hm0 hts1 htr hed
    obtain ⟨jj, hj⟩ := List.mem_iff_getElem?.mp htr
    rcases entry_cases hts hts1 hj with ⟨ts0, g1, g2⟩ | ⟨a1, _, rfl⟩
    · have hlt := h.edge_lt m.tset ts0 tr g1 (List.getElem?_mem g2)
      simp only at hed
      rw [List.getElem?_append_left hlt] at hed
      exact h.source j m ts0 tr ed hm hm0 g1 (List.getElem?_mem g2) hed
    · simp only at hed
      rw [List.getElem?_concat_length] at hed
      cases hed
      simp only
      exact (h.tset_inj j s m n hm hs a1 hm0).symm

theorem well_formed_g_mut {t t1 : suffix_tree_t} {s e : Nat} {k p : Int} (h : well_formed t)
    (hg : g_mut t s k p = .ok (t1, e)) : well_formed t1 := by
  obtain ⟨n, tk, ns, tbl, i, ts, hn, _, hcase, hts, hres⟩ := g_mut_spec hg
  rcases hcase with ⟨h0, rfl, rfl, rfl⟩ | ⟨h0, rfl, rfl, rfl⟩
  · rcases hres with ⟨_, _, rfl⟩ | ⟨tr, ed, _, _, hed, rfl⟩
    · exact well_formed_push_edge h s n ts tk k p 0 hn hts
    · exact well_formed_set_edge h tr.e ed _ hed rfl
  · have h1 := well_formed_make_table h s n hn
    have hlt : s < t.nodes.length := lt_of_getElem? hn
    rw [List.getElem?_concat_length] at hts
    cases hts
    rcases hres with ⟨_, _, rfl⟩ | ⟨tr, ed, hf, _, hed, rfl⟩
    · have h2 := well_formed_push_edge h1 s ⟨n.link, t.transitions.length⟩ [] tk k p 0
        (by simp [hlt]) (by simp)
      simpa using h2
    · simp at hf

theorem well_formed_set_target {t : suffix_tree_t} (h : well_formed t) (e v : Nat) :
    well_formed (set_target t e v) := by
  unfold set_target
  split
  · rename_i ed hed
    exact well_formed_set_edge h e ed _ hed rfl
  · exact h

theorem well_formed_link {t t1 : suffix_tree_t} {s v : Nat} (h : well_formed t)
    (hl : set_link t s v = .ok t1) : well_formed t1 := by
  unfold set_link node_at at hl
  split at hl
  · cases hl
  · rename_i n hn
    split at hn
    · rename_i n1 hn1
      cases hn
      cases hl
      exact well_formed_set_link h s v n hn1
    · cases hn

/-! ## The loop of `update` -/

theorem update_loop_succ (cf : Nat) (i : Int) (fuel : Nat) (c : loop_state) (hb : c.b = false) :
    update_loop cf i (fuel + 1) c.t c.s c.k c.oldr c.r c.b =
      match update_body cf i c with
      | .error e => .error e
      | .ok c1 => update_loop cf i fuel c1.t c1.s c1.k c1.oldr c1.r c1.b := by
  rw [hb]
  simp only [update_loop, update_body, Bool.false_eq_true, if_false]
  cases g_mut c.t c.r i int_max with
  | error e => rfl
  | ok r1 =>
    obtain ⟨t1, e1⟩ := r1
    simp only
    cases (if c.oldr ≠ root then set_link t1 c.oldr c.r else .ok t1) with
    | error e => rfl
    | ok t2 =>
      simp only
      cases link t2 c.s with
      | error e => rfl
      | ok ls =>
        simp only
        cases canonize cf t2 ls c.k (i - 1) with
        | error e => rfl
        | ok r2 =>
          obtain ⟨s1, k1⟩ := r2
          simp only
          cases text_at t2 i with
          | error e => rfl
          | ok ti =>
            simp only
            cases test_and_split t2 s1 k1 (i - 1) ti with
            | error e => rfl
            | ok r3 =>
              obtain ⟨t3, r1, b1⟩ := r3
              rfl

/-- A successful run of the loop of `update` is a chain of runs of its body
that ends in a state with `b` set, from which the code after the loop gives the
result. -/
theorem update_loop_induct (cf : Nat) (i : Int) (P : loop_state → Prop)
    (hstep : ∀ c c1, P c → c.b = false → update_body cf i c = .ok c1 → P c1) :
    ∀ (fuel : Nat) (c : loop_state) (res : suffix_tree_t × Nat × Int), P c →
      update_loop cf i fuel c.t c.s c.k c.oldr c.r c.b = .ok res →
      ∃ c1, P c1 ∧ c1.b = true ∧ update_exit c1.t c1.s c1.k c1.oldr = .ok res := by
  intro fuel
  induction fuel with
  | zero =>
    intro c res hP h
    cases hb : c.b with
    | true =>
      rw [hb, update_loop_done] at h
      exact ⟨c, hP, hb, h⟩
    | false =>
      rw [hb] at h
      simp [update_loop] at h
  | succ fuel ih =>
    intro c res hP h
    cases hb : c.b with
    | true =>
      rw [hb, update_loop_done] at h
      exact ⟨c, hP, hb, h⟩
    | false =>
      rw [update_loop_succ cf i fuel c hb] at h
      split at h
      · cases h
      · rename_i c1 hbody
        exact ih c1 res (hstep c c1 hP hb hbody) h

/-! ## Transitions are never removed -/

theorem table_grows {tbl : List (List transition_type)} {i : Nat} {ts : List transition_type}
    (new : transition_type) (hts : tbl[i]? = some ts) {j : Nat} {tsj : List transition_type}
    (hj : tbl[j]? = some tsj) :
    ∃ tsk, (tbl.set i (ts ++ [new]))[j]? = some tsk ∧ ∀ x ∈ tsj, x ∈ tsk := by
  by_cases hij : i = j
  · subst hij
    rw [hts] at hj
    cases hj
    refine ⟨ts ++ [new], ?_, fun x hx => List.mem_append_left _ hx⟩
    rw [List.getElem?_set_self (lt_of_getElem? hts)]
  · exact ⟨tsj, by rw [List.getElem?_set_ne hij]; exact hj, fun x hx => hx⟩

theorem has_key_g_mut {t t1 : suffix_tree_t} {s e : Nat} {k p : Int}
    (hg : g_mut t s k p = .ok (t1, e)) {v : Nat} {c : Int} (h : has_key t v c) :
    has_key t1 v c := by
  obtain ⟨nv, tsv, tr, hnv, hv0, htsv, htr, hc⟩ := h
  obtain ⟨n, tk, ns, tbl, i, ts, hn, _, hcase, hts, hres⟩ := g_mut_spec hg
  have hns : ns[v]? = some nv := by
    rcases hcase with ⟨_, rfl, _, _⟩ | ⟨h0, rfl, _, _⟩
    · exact hnv
    · have hvs : s ≠ v := by
        intro hsv
        subst hsv
        rw [hn] at hnv
        cases hnv
        exact hv0 h0
      rw [List.getElem?_set_ne hvs]
      exact hnv
  have htbl : tbl[nv.tset]? = some tsv := by
    rcases hcase with ⟨_, _, rfl, _⟩ | ⟨_, _, rfl, _⟩
    · exact htsv
    · rw [List.getElem?_append_left (lt_of_getElem? htsv)]
      exact htsv
  rcases hres with ⟨_, _, rfl⟩ | ⟨_, _, _, _, _, rfl⟩
  · obtain ⟨tsk, h1, h2⟩ := table_grows ⟨tk, t.edges.length⟩ hts htbl
    exact ⟨nv, tsk, tr, hns, hv0, h1, h2 tr htr, hc⟩
  · exact ⟨nv, tsv, tr, hns, hv0, htbl, htr, hc⟩

theorem has_key_congr {t t1 : suffix_tree_t} (hn : t1.nodes = t.nodes)
    (ht : t1.transitions = t.transitions) {v : Nat} {c : Int} :
    has_key t1 v c ↔ has_key t v c := by
  unfold has_key
  rw [hn, ht]

theorem has_key_set_target (t : suffix_tree_t) (e x v : Nat) (c : Int) :
    has_key (set_target t e x) v c ↔ has_key t v c :=
  has_key_congr (set_target_nodes t e x).1 (set_target_nodes t e x).2.2

theorem has_key_push_node {t : suffix_tree_t} {v : Nat} {c : Int} (h : has_key t v c) :
    has_key ⟨t.text, t.nodes ++ [node_type.mk 0 0], t.transitions, t.edges⟩ v c := by
  obtain ⟨nv, tsv, tr, hnv, hv0, htsv, htr, hc⟩ := h
  refine ⟨nv, tsv, tr, ?_, hv0, htsv, htr, hc⟩
  simp only
  rw [List.getElem?_append_left (lt_of_getElem? hnv)]
  exact hnv

theorem has_key_set_link {t t1 : suffix_tree_t} {s x : Nat} (hl : set_link t s x = .ok t1)
    {v : Nat} {c : Int} : has_key t1 v c ↔ has_key t v c := by
  unfold set_link node_at at hl
  split at hl
  · cases hl
  · rename_i n hn
    split at hn
    · rename_i n1 hn1
      cases hn
      cases hl
      unfold has_key
      simp only
      constructor
      · rintro ⟨nv, tsv, tr, hnv, hv0, htsv, htr, hc⟩
        rcases set_cases hnv with ⟨_, g⟩ | ⟨rfl, rfl, _⟩
        · exact ⟨nv, tsv, tr, g, hv0, htsv, htr, hc⟩
        · exact ⟨n, tsv, tr, hn1, hv0, htsv, htr, hc⟩
      · rintro ⟨nv, tsv, tr, hnv, hv0, htsv, htr, hc⟩
        by_cases hsv : s = v
        · subst hsv
          rw [hn1] at hnv
          cases hnv
          exact ⟨_, tsv, tr, List.getElem?_set_self (lt_of_getElem? hn1), hv0, htsv, htr, hc⟩
        · exact ⟨nv, tsv, tr, by rw [List.getElem?_set_ne hsv]; exact hnv, hv0, htsv, htr, hc⟩
    · cases hn

theorem has_key_test_and_split {t t1 : suffix_tree_t} {s r : Nat} {k p c : Int} {b : Bool}
    (h : test_and_split t s k p c = .ok (t1, r, b)) {v : Nat} {x : Int} (hv : has_key t v x) :
    has_key t1 v x := by
  unfold test_and_split at h
  split at h
  · cases h
  · split at h
    · split at h
      · cases h
      · split at h
        · cases h
        · split at h
          · cases h
          · split at h
            · cases h
            · split at h
              · cases h
                exact hv
              · simp only at h
                split at h
                · cases h
                · rename_i t2 e1 hg1
                  split at h
                  · cases h
                  · rename_i t4 e2 hg2
                    cases h
                    rw [has_key_set_target]
                    apply has_key_g_mut hg2
                    rw [has_key_set_target]
                    exact has_key_g_mut hg1 (has_key_push_node hv)
    · split at h
      · cases h
      · cases h
        exact hv

theorem has_transition_false {t : suffix_tree_t} {s : Nat} {c : Int}
    (h : has_transition t s c = .ok false) :
    s ≠ aux ∧ s < t.nodes.length ∧ ¬ has_key t s c := by
  unfold has_transition node_at at h
  split at h
  · cases h
  · rename_i hs
    split at h
    · cases h
    · rename_i n hn
      split at hn
      · rename_i n1 hn1
        cases hn
        refine ⟨fun h1 => hs h1.symm, lt_of_getElem? hn1, ?_⟩
        rintro ⟨nv, tsv, tr, hnv, hv0, htsv, htr, hc⟩
        rw [hn1] at hnv
        cases hnv
        rw [if_pos hv0, htsv] at h
        simp only [has_transition_in, Except.ok.injEq, List.any_eq_false] at h
        have := h tr htr
        simp [hc] at this
      · cases hn

/-! ## What the functions keep -/

theorem well_formed_test_and_split {t t1 : suffix_tree_t} {s r : Nat} {k p c : Int} {b : Bool}
    (hw : well_formed t) (h : test_and_split t s k p c = .ok (t1, r, b)) : well_formed t1 := by
  unfold test_and_split at h
  split at h
  · cases h
  · split at h
    · split at h
      · cases h
      · split at h
        · cases h
        · split at h
          · cases h
          · split at h
            · cases h
            · split at h
              · cases h
                exact hw
              · simp only at h
                split at h
                · cases h
                · rename_i t2 e1 hg1
                  split at h
                  · cases h
                  · rename_i t4 e2 hg2
                    cases h
                    exact well_formed_set_target (well_formed_g_mut (well_formed_set_target
                      (well_formed_g_mut (well_formed_push_node hw) hg1) _ _) hg2) _ _
    · split at h
      · cases h
      · cases h
        exact hw

theorem canonize_not_aux {t : suffix_tree_t} {fuel s s1 : Nat} {k p k1 : Int}
    (h : canonize fuel t s k p = .ok (s1, k1)) (hkp : k1 ≤ p) : s1 ≠ aux := by
  obtain ⟨k_, p_, s_, ⟨tk, e, _, he, _, rfl, rfl, _⟩, hlt⟩ := (canonize_exit h).2 hkp
  intro hs
  subst hs
  unfold g_ at he
  rw [if_neg (fun h1 => h1 rfl)] at he
  cases he
  simp at hlt
  omega

theorem set_link_frame {t t1 : suffix_tree_t} {s v : Nat} (h : set_link t s v = .ok t1) :
    t1.text = t.text ∧ t1.edges = t.edges ∧ t1.transitions = t.transitions ∧
    t1.nodes.length = t.nodes.length ∧ s < t.nodes.length ∧
    links t1 = (links t).set s v := by
  unfold set_link node_at at h
  split at h
  · cases h
  · rename_i n hn
    split at hn
    · rename_i n1 hn1
      cases hn
      cases h
      refine ⟨rfl, rfl, rfl, by simp, lt_of_getElem? hn1, ?_⟩
      simp [links, List.map_set]
    · cases hn

theorem test_and_split_text {t t1 : suffix_tree_t} {s r : Nat} {k p c : Int} {b : Bool}
    (h : test_and_split t s k p c = .ok (t1, r, b)) : t1.text = t.text := by
  rcases test_and_split_links h with ⟨rfl, _, _⟩ | ⟨_, _, _, _, ht⟩
  · rfl
  · exact ht

/-- A node without a transition on `text [k]` gets a new edge from the
find-or-create `g_`. -/
theorem g_mut_fresh {t t1 : suffix_tree_t} {r e : Nat} {k p c : Int}
    (hc : text_at t k = .ok c) (hno : ¬ has_key t r c) (hg : g_mut t r k p = .ok (t1, e)) :
    t1.edges = t.edges ++ [⟨r, k, p, 0⟩] ∧ e = t.edges.length ∧
    t1.nodes.length = t.nodes.length ∧ t1.text = t.text := by
  obtain ⟨n, tk, ns, tbl, i, ts, hn, htk, hcase, hts, hres⟩ := g_mut_spec hg
  rw [hc] at htk
  cases htk
  have hlen : ns.length = t.nodes.length := by
    rcases hcase with ⟨_, rfl, _, _⟩ | ⟨_, rfl, _, _⟩ <;> simp
  rcases hres with ⟨_, he, rfl⟩ | ⟨tr, ed, hf, _, _, _⟩
  · exact ⟨rfl, he, hlen, rfl⟩
  · exfalso
    have hmem := List.mem_of_find?_eq_some hf
    have hkey := List.find?_some hf
    simp only [decide_eq_true_eq] at hkey
    rcases hcase with ⟨h0, _, rfl, rfl⟩ | ⟨_, _, rfl, rfl⟩
    · exact hno ⟨n, ts, tr, hn, h0, hts, hmem, hkey.symm⟩
    · rw [List.getElem?_append_right (le_refl _)] at hts
      simp at hts
      subst hts
      simp at hmem

theorem g_mut_adds_key {t t1 : suffix_tree_t} {r e : Nat} {k p c : Int} (hw : well_formed t)
    (hc : text_at t k = .ok c) (hg : g_mut t r k p = .ok (t1, e)) : has_key t1 r c := by
  obtain ⟨n, tk, ns, tbl, i, ts, hn, htk, hcase, hts, hres⟩ := g_mut_spec hg
  rw [hc] at htk
  cases htk
  have h1 := transitions_ne_nil hw
  have hnode : ∃ n1 : node_type, ns[r]? = some n1 ∧ n1.tset = i ∧ i ≠ 0 := by
    rcases hcase with ⟨h0, rfl, _, rfl⟩ | ⟨_, rfl, _, rfl⟩
    · exact ⟨n, hn, rfl, h0⟩
    · exact ⟨_, List.getElem?_set_self (lt_of_getElem? hn), rfl, by omega⟩
  obtain ⟨n1, hn1, hi, hi0⟩ := hnode
  subst hi
  rcases hres with ⟨_, _, rfl⟩ | ⟨tr, ed, hf, _, _, rfl⟩
  · refine ⟨n1, ts ++ [⟨c, t.edges.length⟩], ⟨c, t.edges.length⟩, hn1, hi0, ?_, by simp, rfl⟩
    exact List.getElem?_set_self (lt_of_getElem? hts)
  · have hkey := List.find?_some hf
    simp only [decide_eq_true_eq] at hkey
    exact ⟨n1, ts, tr, hn1, hi0, hts, List.mem_of_find?_eq_some hf, hkey.symm⟩

/-- The node a split creates has one transition, on the character behind the
split point. -/
theorem split_keys {t t2 t4 : suffix_tree_t} {s e1 e2 : Nat} {k1 p1 k2 p2 x c : Int}
    (hs : s < t.nodes.length)
    (hg1 : g_mut ⟨t.text, t.nodes ++ [node_type.mk 0 0], t.transitions, t.edges⟩ s k1 p1 =
      .ok (t2, e1))
    (hx : text_at t k2 = .ok x)
    (hg2 : g_mut (set_target t2 e1 t.nodes.length) t.nodes.length k2 p2 = .ok (t4, e2))
    (hk : has_key t4 t.nodes.length c) : c = x := by
  obtain ⟨n, tk, ns, tbl, i, ts, hn, htk, hcase, hts, hres⟩ := g_mut_spec hg1
  have hnode : t2.nodes[t.nodes.length]? = some ⟨0, 0⟩ := by
    have hns : ns[t.nodes.length]? = some ⟨0, 0⟩ := by
      rcases hcase with ⟨_, rfl, _, _⟩ | ⟨_, rfl, _, _⟩
      · simp
      · simp only
        rw [List.getElem?_set_ne (by omega)]
        simp
    rcases hres with ⟨_, _, rfl⟩ | ⟨_, _, _, _, _, rfl⟩ <;> exact hns
  have htext : t2.text = t.text := (g_mut_links hg1).2
  obtain ⟨n2, tk2, ns2, tbl2, i2, ts2, hn2, htk2, hcase2, hts2, hres2⟩ := g_mut_spec hg2
  rw [(set_target_nodes _ _ _).1, hnode] at hn2
  cases hn2
  have hx2 : tk2 = x := by
    have h1 : text_at (set_target t2 e1 t.nodes.length) k2 = text_at t k2 := by
      unfold text_at
      rw [(set_target_nodes _ _ _).2.1, htext]
    rw [h1, hx] at htk2
    cases htk2
    rfl
  subst hx2
  rcases hcase2 with ⟨h0, _⟩ | ⟨_, rfl, rfl, rfl⟩
  · exact absurd rfl h0
  · rw [List.getElem?_append_right (le_refl _)] at hts2
    simp at hts2
    subst hts2
    obtain ⟨nv, tsv, tr, hnv, hv0, htsv, htr, hc⟩ := hk
    rcases hres2 with ⟨_, _, rfl⟩ | ⟨tr2, _, hf, _⟩
    · simp only at hnv htsv
      rw [List.getElem?_set_self
        (by rw [(set_target_nodes _ _ _).1]; exact lt_of_getElem? hnode)] at hnv
      cases hnv
      simp only at htsv
      rw [List.getElem?_set_self (by simp)] at htsv
      cases htsv
      simp at htr
      rw [← hc, htr]
    · simp at hf

theorem test_and_split_no_key {t t1 : suffix_tree_t} {s r : Nat} {k p c : Int}
    (hw : well_formed t) (h : test_and_split t s k p c = .ok (t1, r, false)) :
    r ≠ aux ∧ r < t1.nodes.length ∧ ¬ has_key t1 r c := by
  have hlinks := test_and_split_links h
  unfold test_and_split at h
  split at h
  · cases h
  · split at h
    · rename_i hkp
      rcases hlinks with ⟨_, _, hb⟩ | ⟨_, _, hr, hl, _⟩
      · exact absurd (hb hkp) (by decide)
      · have hlen : t1.nodes.length = t.nodes.length + 1 := by
          have := congrArg List.length hl
          simpa [links] using this
        have h2 := hw.nodes_ge
        refine ⟨by unfold aux; omega, by omega, ?_⟩
        split at h
        · cases h
        · split at h
          · cases h
          · rename_i e he
            have hs : s < t.nodes.length := by
              by_cases hs : s = aux
              · unfold aux at hs
                omega
              · obtain ⟨n, _, _, hn, _⟩ := g_inv hs he
                exact lt_of_getElem? hn
            split at h
            · cases h
            · split at h
              · cases h
              · rename_i x hx
                split at h
                · cases h
                · rename_i hne
                  simp only at h
                  split at h
                  · cases h
                  · rename_i t2 e1 hg1
                    split at h
                    · cases h
                    · rename_i t4 e2 hg2
                      cases h
                      intro hk
                      rw [has_key_set_target] at hk
                      exact hne (split_keys hs hg1 hx hg2 hk)
    · split at h
      · cases h
      · rename_i b hb
        cases h
        obtain ⟨h1, h2, h3⟩ := has_transition_false hb
        exact ⟨h1, h2, h3⟩

/-! ## The open-leaf representation -/

theorem text_at_le {t : suffix_tree_t} {k c : Int} (h : text_at t k = .ok c) :
    k ≤ t.text.length := by
  unfold text_at at h
  split at h
  · cases h
  · split at h
    · rename_i hc
      have := lt_of_getElem? hc
      omega
    · split at h
      · omega
      · cases h

theorem g_mut_frame {t t1 : suffix_tree_t} {s e : Nat} {k p : Int}
    (h : g_mut t s k p = .ok (t1, e)) :
    t1.nodes.length = t.nodes.length ∧ t1.text = t.text := by
  obtain ⟨hl, ht⟩ := g_mut_links h
  have := congrArg List.length hl
  exact ⟨by simpa [links] using this, ht⟩

theorem set_last {α : Type} (l : List α) (a b : α) : (l ++ [a]).set l.length b = l ++ [b] := by
  induction l with
  | nil => rfl
  | cons x l ih => simp [ih]

/-- The edges after the assignment `g_ (t, s, { k, p }) = v`: the edges before
it and the edge written. -/
theorem assign_edges {t t2 : suffix_tree_t} {s e : Nat} {k p : Int} (v : Nat)
    (hg : g_mut t s k p = .ok (t2, e)) :
    ∀ x ∈ (set_target t2 e v).edges, x ∈ t.edges ∨ (x.k = k ∧ x.p = p ∧ x.s_ = v) := by
  obtain ⟨n, tk, ns, tbl, i, ts, hn, htk, hcase, hts, hres⟩ := g_mut_spec hg
  rcases hres with ⟨_, rfl, rfl⟩ | ⟨tr, ed, _, rfl, hed, rfl⟩
  · intro x hx
    unfold set_target at hx
    simp only [List.getElem?_concat_length] at hx
    rw [set_last] at hx
    rcases List.mem_append.mp hx with h1 | h1
    · exact Or.inl h1
    · simp only [List.mem_singleton] at h1
      subst h1
      exact Or.inr ⟨rfl, rfl, rfl⟩
  · intro x hx
    unfold set_target at hx
    simp only [List.getElem?_set_self (lt_of_getElem? hed), List.set_set] at hx
    rcases List.mem_or_eq_of_mem_set hx with h1 | h1
    · exact Or.inl h1
    · subst h1
      exact Or.inr ⟨rfl, rfl, rfl⟩

theorem open_leaf_assign {t t2 : suffix_tree_t} {s e : Nat} {k p : Int} {v : Nat}
    (ho : open_leaf t) (hg : g_mut t s k p = .ok (t2, e)) (h0 : v = 0 ↔ p = int_max)
    (hv : v ≠ 0 → 2 ≤ v ∧ v < t.nodes.length ∧ p < t.text.length) :
    open_leaf (set_target t2 e v) := by
  obtain ⟨hlen, htext⟩ := g_mut_frame hg
  intro x hx hsrc
  rw [(set_target_nodes _ _ _).1, (set_target_nodes _ _ _).2.1, hlen, htext]
  rcases assign_edges v hg x hx with h1 | ⟨_, h2, h3⟩
  · exact ho x h1 hsrc
  · rw [h2, h3]
    exact ⟨h0, hv⟩

theorem open_leaf_push_node {t : suffix_tree_t} (ho : open_leaf t) (n : node_type) :
    open_leaf ⟨t.text, t.nodes ++ [n], t.transitions, t.edges⟩ := by
  intro x hx hsrc
  obtain ⟨h1, h2⟩ := ho x hx hsrc
  refine ⟨h1, fun h => ?_⟩
  obtain ⟨h3, h4, h5⟩ := h2 h
  exact ⟨h3, by simp; omega, h5⟩

theorem open_leaf_set_link {t t1 : suffix_tree_t} {s v : Nat} (ho : open_leaf t)
    (h : set_link t s v = .ok t1) : open_leaf t1 := by
  obtain ⟨h1, h2, _, h4, _⟩ := set_link_frame h
  intro x hx hsrc
  rw [h1, h4]
  rw [h2] at hx
  exact ho x hx hsrc

/-- The open leaf edge that `update` creates. -/
theorem open_leaf_leaf {t t1 : suffix_tree_t} {r e : Nat} {k c : Int} (ho : open_leaf t)
    (hc : text_at t k = .ok c) (hno : ¬ has_key t r c)
    (hg : g_mut t r k int_max = .ok (t1, e)) : open_leaf t1 := by
  obtain ⟨h1, _, h3, h4⟩ := g_mut_fresh hc hno hg
  intro x hx hsrc
  rw [h3, h4]
  rw [h1] at hx
  rcases List.mem_append.mp hx with h | h
  · exact ho x h hsrc
  · simp only [List.mem_singleton] at h
    subst h
    exact ⟨by simp, fun h => absurd rfl h⟩

theorem open_leaf_test_and_split {t t1 : suffix_tree_t} {s r : Nat} {k p c : Int} {b : Bool}
    (hw : well_formed t) (ho : open_leaf t) (hlen : (t.text.length : Int) ≤ int_max)
    (hs : k ≤ p → s ≠ aux) (h : test_and_split t s k p c = .ok (t1, r, b)) : open_leaf t1 := by
  unfold test_and_split at h
  split at h
  · cases h
  · split at h
    · rename_i hkp
      split at h
      · cases h
      · split at h
        · cases h
        · rename_i e he
          split at h
          · cases h
          · split at h
            · cases h
            · rename_i x hx
              split at h
              · cases h
                exact ho
              · simp only at h
                split at h
                · cases h
                · rename_i t2 e1 hg1
                  split at h
                  · cases h
                  · rename_i t4 e2 hg2
                    cases h
                    have h2 := hw.nodes_ge
                    have hp := text_at_le hx
                    obtain ⟨n, ts, tr, hn, h0, hts, hf, hed⟩ := g_inv (hs hkp) he
                    have hsrc : e.s ≠ aux := by
                      rw [hw.source s n ts tr e hn h0 hts (List.mem_of_find?_eq_some hf) hed]
                      exact hs hkp
                    obtain ⟨g1, g2⟩ := ho e (List.getElem?_mem hed) hsrc
                    have ho3 : open_leaf (set_target t2 e1 t.nodes.length) := by
                      apply open_leaf_assign (open_leaf_push_node ho _) hg1
                      · constructor
                        · intro h
                          omega
                        · intro h
                          simp only at h
                          omega
                      · intro _
                        simp only [List.length_append, List.length_singleton]
                        omega
                    apply open_leaf_assign ho3 hg2 g1
                    intro hne
                    obtain ⟨g3, g4, g5⟩ := g2 hne
                    rw [(set_target_nodes _ _ _).1, (set_target_nodes _ _ _).2.1,
                      (g_mut_frame hg1).1, (g_mut_frame hg1).2]
                    simp only [List.length_append, List.length_singleton]
                    exact ⟨g3, by omega, g5⟩
    · split at h
      · cases h
      · cases h
        exact ho

/-- The calls of one run of the loop body of `update`. -/
theorem update_body_spec {cf : Nat} {i : Int} {c c1 : loop_state}
    (h : update_body cf i c = .ok c1) :
    ∃ t1 e t2 ls ti, g_mut c.t c.r i int_max = .ok (t1, e) ∧
      ((c.oldr ≠ root ∧ set_link t1 c.oldr c.r = .ok t2) ∨ (c.oldr = root ∧ t2 = t1)) ∧
      link t2 c.s = .ok ls ∧ canonize cf t2 ls c.k (i - 1) = .ok (c1.s, c1.k) ∧
      text_at t2 i = .ok ti ∧ test_and_split t2 c1.s c1.k (i - 1) ti = .ok (c1.t, c1.r, c1.b) ∧
      c1.oldr = c.r := by
  unfold update_body at h
  split at h
  · cases h
  · rename_i t1 e hg
    split at h
    · cases h
    · rename_i t2 hl
      split at h
      · cases h
      · rename_i ls hls
        split at h
        · cases h
        · rename_i s1 k1 hcan
          split at h
          · cases h
          · rename_i ti hti
            split at h
            · cases h
            · rename_i t3 r1 b1 hts
              cases h
              refine ⟨t1, e, t2, ls, ti, hg, ?_, hls, hcan, hti, hts, rfl⟩
              by_cases ho : c.oldr = root
              · rw [if_neg (fun h => h ho)] at hl
                cases hl
                exact Or.inr ⟨ho, rfl⟩
              · rw [if_pos ho] at hl
                exact Or.inl ⟨ho, hl⟩

theorem text_at_congr {t t1 : suffix_tree_t} (h : t1.text = t.text) (k : Int) :
    text_at t1 k = text_at t k := by
  unfold text_at
  rw [h]

theorem update_body_inv {cf : Nat} {i : Int} {c c1 : loop_state} (hi : loop_inv i c)
    (hb : c.b = false) (h : update_body cf i c = .ok c1) :
    loop_inv i c1 ∧ c1.t.text = c.t.text ∧
    (open_leaf c.t → (c.t.text.length : Int) ≤ int_max → open_leaf c1.t) := by
  obtain ⟨t1, e, t2, ls, ti, hg, hl, _, hcan, hti, hts, _⟩ := update_body_spec h
  obtain ⟨hw, hr⟩ := hi
  obtain ⟨_, _, hno⟩ := hr hb
  have hw1 := well_formed_g_mut hw hg
  have ht1 : t1.text = c.t.text := (g_mut_frame hg).2
  have hw2 : well_formed t2 := by
    rcases hl with ⟨_, hl⟩ | ⟨_, rfl⟩
    · exact well_formed_link hw1 hl
    · exact hw1
  have ht2 : t2.text = c.t.text := by
    rcases hl with ⟨_, hl⟩ | ⟨_, rfl⟩
    · rw [(set_link_frame hl).1, ht1]
    · exact ht1
  have ht3 : c1.t.text = c.t.text := by rw [test_and_split_text hts, ht2]
  have hti0 : text_at c.t i = .ok ti := by rw [← text_at_congr ht2]; exact hti
  refine ⟨⟨well_formed_test_and_split hw2 hts, ?_⟩, ht3, ?_⟩
  · intro hb1
    rw [hb1] at hts
    obtain ⟨g1, g2, g3⟩ := test_and_split_no_key hw2 hts
    refine ⟨g1, g2, fun ti1 h1 => ?_⟩
    rw [text_at_congr ht3, hti0] at h1
    cases h1
    exact g3
  · intro ho hlen
    have ho1 : open_leaf t1 := open_leaf_leaf ho hti0 (hno ti hti0) hg
    have ho2 : open_leaf t2 := by
      rcases hl with ⟨_, hl⟩ | ⟨_, rfl⟩
      · exact open_leaf_set_link ho1 hl
      · exact ho1
    exact open_leaf_test_and_split hw2 ho2 (by rw [ht2]; exact hlen)
      (fun hkp => canonize_not_aux hcan hkp) hts

theorem update_exit_spec {t t1 : suffix_tree_t} {s s1 oldr : Nat} {k k1 : Int}
    (h : update_exit t s k oldr = .ok (t1, s1, k1)) :
    s1 = s ∧ k1 = k ∧ ((oldr ≠ root ∧ set_link t oldr s = .ok t1) ∨ (oldr = root ∧ t1 = t)) := by
  unfold update_exit at h
  split at h
  · rename_i ho
    split at h
    · cases h
    · rename_i t2 hl
      cases h
      exact ⟨rfl, rfl, Or.inl ⟨ho, hl⟩⟩
  · rename_i ho
    cases h
    exact ⟨rfl, rfl, Or.inr ⟨not_not.mp ho, rfl⟩⟩

theorem update_spec {fuel : Nat} {t : suffix_tree_t} {s : Nat} {k i : Int}
    {res : suffix_tree_t × Nat × Int} (h : update fuel t s k i = .ok res) :
    ∃ ti t1 r b, 0 ≤ k ∧ text_at t i = .ok ti ∧
      test_and_split t s k (i - 1) ti = .ok (t1, r, b) ∧
      update_loop fuel i fuel t1 s k root r b = .ok res := by
  unfold update at h
  split at h
  · cases h
  · rename_i hk
    split at h
    · cases h
    · rename_i ti hti
      split at h
      · cases h
      · rename_i t1 r b hts
        exact ⟨ti, t1, r, b, by omega, hti, hts, h⟩

theorem loop_inv_enter {t t1 : suffix_tree_t} {s r : Nat} {k i ti : Int} {b : Bool}
    (hw : well_formed t) (hti : text_at t i = .ok ti)
    (hts : test_and_split t s k (i - 1) ti = .ok (t1, r, b)) :
    loop_inv i ⟨t1, s, k, root, r, b⟩ := by
  refine ⟨well_formed_test_and_split hw hts, ?_⟩
  intro hb
  simp only at hb
  subst hb
  obtain ⟨g1, g2, g3⟩ := test_and_split_no_key hw hts
  refine ⟨g1, g2, fun ti1 h1 => ?_⟩
  simp only at h1
  rw [text_at_congr (test_and_split_text hts), hti] at h1
  cases h1
  exact g3

theorem update_inv {fuel : Nat} {t t1 : suffix_tree_t} {s s1 : Nat} {k i k1 : Int}
    (hw : well_formed t) (h : update fuel t s k i = .ok (t1, s1, k1)) :
    well_formed t1 ∧ t1.text = t.text ∧
    (open_leaf t → (t.text.length : Int) ≤ int_max → (k ≤ i - 1 → s ≠ aux) → open_leaf t1) := by
  obtain ⟨ti, t0, r, b, _, hti, hts, hloop⟩ := update_spec h
  have hP := update_loop_induct fuel i
    (fun c => loop_inv i c ∧ c.t.text = t.text ∧
      (open_leaf t → (t.text.length : Int) ≤ int_max → (k ≤ i - 1 → s ≠ aux) → open_leaf c.t))
    (fun c c1 hc hb hbody => by
      obtain ⟨g1, g2, g3⟩ := update_body_inv hc.1 hb hbody
      refine ⟨g1, by rw [g2, hc.2.1], fun ho hlen hs => ?_⟩
      exact g3 (hc.2.2 ho hlen hs) (by rw [hc.2.1]; exact hlen))
    fuel ⟨t0, s, k, root, r, b⟩ (t1, s1, k1)
    ⟨loop_inv_enter hw hti hts, test_and_split_text hts,
      fun ho hlen hs => open_leaf_test_and_split hw ho hlen hs hts⟩ hloop
  obtain ⟨c1, ⟨hi, htx, hol⟩, _, hex⟩ := hP
  obtain ⟨_, _, hcase⟩ := update_exit_spec hex
  rcases hcase with ⟨_, hl⟩ | ⟨_, rfl⟩
  · refine ⟨well_formed_link hi.1 hl, by rw [(set_link_frame hl).1, htx], fun ho hlen hs => ?_⟩
    exact open_leaf_set_link (hol ho hlen hs) hl
  · exact ⟨hi.1, htx, hol⟩

theorem driver_inv (fuel : Nat) :
    ∀ (n : Nat) (t : suffix_tree_t) (s : Nat) (k i : Int) (t1 : suffix_tree_t) (s1 : Nat)
      (k1 : Int), well_formed t → (k ≤ i - 1 → s ≠ aux) →
      driver fuel n t s k i = .ok (t1, s1, k1) →
      well_formed t1 ∧ (k1 ≤ i + n - 1 → s1 ≠ aux) ∧ t1.text = t.text ∧
      (open_leaf t → (t.text.length : Int) ≤ int_max → open_leaf t1) := by
  intro n
  induction n with
  | zero =>
    intro t s k i t1 s1 k1 hw hs h
    simp only [driver] at h
    cases h
    exact ⟨hw, by simpa using hs, rfl, fun ho _ => ho⟩
  | succ n ih =>
    intro t s k i t1 s1 k1 hw hs h
    simp only [driver] at h
    split at h
    · cases h
    · rename_i t2 s2 k2 hu
      split at h
      · cases h
      · rename_i s3 k3 hcan
        obtain ⟨g1, g2, g3⟩ := update_inv hw hu
        obtain ⟨f1, f2, f3, f4⟩ := ih t2 s3 k3 (i + 1) t1 s1 k1 g1
          (fun hkp => canonize_not_aux hcan (by omega)) h
        refine ⟨f1, fun hk => f2 (by push_cast at hk ⊢; omega), by rw [f3, g2], ?_⟩
        intro ho hlen
        exact f4 (g3 ho hlen hs) (by rw [g2]; exact hlen)

theorem open_leaf_init (text : List Int) : open_leaf (init_tree text) := by
  intro e he hsrc
  simp only [init_tree, List.mem_singleton] at he
  subst he
  exact absurd rfl hsrc

theorem driver_init_inv {fuel n : Nat} {text : List Int} {t : suffix_tree_t} {s : Nat} {k : Int}
    (h : driver fuel n (init_tree text) root 0 0 = .ok (t, s, k)) :
    well_formed t ∧ (k ≤ n - 1 → s ≠ aux) ∧ t.text = text ++ [tilde] ∧
    ((text.length : Int) + 1 ≤ int_max → open_leaf t) := by
  obtain ⟨h1, h2, h3, h4⟩ := driver_inv fuel n (init_tree text) root 0 0 t s k
    (well_formed_init text) (fun _ => by decide) h
  refine ⟨h1, fun hk => h2 (by omega), h3, fun hlen => h4 (open_leaf_init text) ?_⟩
  simp only [init_tree, List.length_append, List.length_singleton]
  push_cast
  exact hlen

theorem links_length (t : suffix_tree_t) : (links t).length = t.nodes.length := by
  simp [links]

theorem update_body_links {cf : Nat} {i : Int} {c c1 : loop_state}
    (h : update_body cf i c = .ok c1) :
    c.t.nodes.length ≤ c1.t.nodes.length ∧
    (∀ v, v < c.t.nodes.length → (c.oldr ≠ root → v ≠ c.oldr) →
      (links c1.t)[v]? = (links c.t)[v]?) ∧
    (c.oldr ≠ root → (links c1.t)[c.oldr]? = some c.r) ∧
    (∀ v, c.t.nodes.length ≤ v → v < c1.t.nodes.length → c1.b = false ∧ v = c1.r) := by
  obtain ⟨t1, e, t2, ls, ti, hg, hl, _, _, _, hts, _⟩ := update_body_spec h
  have h1 : links t1 = links c.t := (g_mut_links hg).1
  have h2 : (c.oldr ≠ root ∧ c.oldr < (links c.t).length ∧
      links t2 = (links c.t).set c.oldr c.r) ∨ (c.oldr = root ∧ links t2 = links c.t) := by
    rcases hl with ⟨ho, hl⟩ | ⟨ho, rfl⟩
    · obtain ⟨_, _, _, _, g5, g6⟩ := set_link_frame hl
      rw [h1] at g6
      rw [← links_length, h1] at g5
      exact Or.inl ⟨ho, g5, g6⟩
    · exact Or.inr ⟨ho, h1⟩
  have hlen2 : (links t2).length = (links c.t).length := by
    rcases h2 with ⟨_, _, g⟩ | ⟨_, g⟩ <;> simp [g]
  have h3 : (links c1.t = links t2) ∨
      (c1.b = false ∧ c1.r = (links t2).length ∧ links c1.t = links t2 ++ [aux]) := by
    rcases test_and_split_links hts with ⟨g, _, _⟩ | ⟨_, g1, g2, g3, _⟩
    · exact Or.inl (by rw [g])
    · exact Or.inr ⟨g1, by rw [g2, links_length], g3⟩
  have hpre : ∀ v, v < (links c.t).length → (links c1.t)[v]? = (links t2)[v]? := by
    intro v hv
    rcases h3 with g | ⟨_, _, g⟩
    · rw [g]
    · rw [g, List.getElem?_append_left (by omega)]
  rw [← links_length c.t, ← links_length c1.t]
  refine ⟨?_, ?_, ?_, ?_⟩
  · rcases h3 with g | ⟨_, _, g⟩
    · rw [g, hlen2]
    · rw [g, List.length_append, hlen2]
      omega
  · intro v hv hne
    rw [hpre v hv]
    rcases h2 with ⟨ho, _, g⟩ | ⟨_, g⟩
    · rw [g, List.getElem?_set_ne (fun h => hne ho h.symm)]
    · rw [g]
  · intro ho
    rcases h2 with ⟨_, hlt, g⟩ | ⟨g, _⟩
    · rw [hpre _ hlt, g, List.getElem?_set_self hlt]
    · exact absurd g ho
  · intro v hv hv1
    rcases h3 with g | ⟨g1, g2, g⟩
    · rw [g, hlen2] at hv1
      omega
    · rw [g, List.length_append, hlen2] at hv1
      simp only [List.length_singleton] at hv1
      exact ⟨g1, by rw [g2, hlen2]; omega⟩

theorem update_body_keys {cf : Nat} {i : Int} {c c1 : loop_state} (hw : well_formed c.t)
    (h : update_body cf i c = .ok c1) :
    (∀ v x, has_key c.t v x → has_key c1.t v x) ∧
    ∃ ti, text_at c.t i = .ok ti ∧ has_key c1.t c.r ti := by
  obtain ⟨t1, e, t2, ls, ti, hg, hl, _, _, hti, hts, _⟩ := update_body_spec h
  have hmono : ∀ v x, has_key t1 v x → has_key c1.t v x := by
    intro v x hk
    apply has_key_test_and_split hts
    rcases hl with ⟨_, hl⟩ | ⟨_, rfl⟩
    · exact (has_key_set_link hl).2 hk
    · exact hk
  have ht2 : t2.text = c.t.text := by
    rcases hl with ⟨_, hl⟩ | ⟨_, rfl⟩
    · rw [(set_link_frame hl).1, (g_mut_frame hg).2]
    · exact (g_mut_frame hg).2
  have hti0 : text_at c.t i = .ok ti := by rw [← text_at_congr ht2]; exact hti
  exact ⟨fun v x hk => hmono v x (has_key_g_mut hg hk),
    ti, hti0, hmono _ _ (g_mut_adds_key hw hti0 hg)⟩

theorem chain_inv_body {cf : Nat} {i : Int} {t0 : suffix_tree_t} {done : List Nat}
    {c c1 : loop_state} (hi : loop_inv i c) (hc : chain_inv i t0 done c) (hb : c.b = false)
    (h : update_body cf i c = .ok c1) : chain_inv i t0 (done ++ [c.r]) c1 := by
  obtain ⟨hnd, hlast, hkeys, hchain, hsame, hlen, hnew⟩ := hc
  obtain ⟨hw, hr⟩ := hi
  obtain ⟨hr0, hrlt, hrno⟩ := hr hb
  obtain ⟨l1, l2, l3, l4⟩ := update_body_links h
  obtain ⟨k1, ti, hti, k2⟩ := update_body_keys hw h
  obtain ⟨_, htext, _⟩ := update_body_inv ⟨hw, hr⟩ hb h
  obtain ⟨_, _, _, _, _, _, _, _, _, _, _, hold⟩ := update_body_spec h
  have hnotin : c.r ∉ done := fun hmem => hrno ti hti ((hkeys _ hmem).2 ti hti)
  have holdr : c.oldr ≠ root → c.oldr ∈ done := by
    intro ho
    rcases hlast with g | ⟨_, g⟩
    · rw [List.getLast?_eq_getElem?] at g
      exact List.getElem?_mem g
    · exact absurd g ho
  have hinrange : ∀ v ∈ done, v < c.t.nodes.length := by
    intro v hv
    obtain ⟨_, _, _, g, _⟩ := (hkeys v hv).2 ti hti
    exact lt_of_getElem? g
  refine ⟨?_, ?_, ?_, ?_, ?_, ?_, ?_⟩
  · rw [List.nodup_append]
    refine ⟨hnd, List.nodup_singleton _, ?_⟩
    intro a ha hb1
    simp only [List.mem_singleton] at hb1
    subst hb1
    exact hnotin ha
  · left
    rw [List.getLast?_concat, hold]
  · intro v hv
    rcases List.mem_append.mp hv with g | g
    · refine ⟨(hkeys v g).1, fun ti1 h1 => ?_⟩
      rw [text_at_congr htext] at h1
      exact k1 _ _ ((hkeys v g).2 ti1 h1)
    · simp only [List.mem_singleton] at g
      subst g
      refine ⟨hr0, fun ti1 h1 => ?_⟩
      rw [text_at_congr htext, hti] at h1
      cases h1
      exact k2
  · intro j a b ha hb1 hne
    rcases concat_cases hb1 with g | ⟨g1, g2⟩
    · have hj := lt_of_getElem? g
      rw [List.getElem?_append_left (by omega)] at ha
      have hmem : a ∈ done := List.getElem?_mem ha
      rw [l2 a (hinrange a hmem) ?_]
      · exact hchain j a b ha g hne
      · intro ho hao
        rcases hlast with g3 | ⟨_, g3⟩
        · rw [List.getLast?_eq_getElem?, ← hao, ← ha] at g3
          exact (List.nodup_iff_getElem?_ne_getElem?.mp hnd j (done.length - 1) (by omega)
            (by omega)) g3.symm
        · exact ho g3
    · subst g2
      have hj : j < done.length := by omega
      rw [List.getElem?_append_left hj] at ha
      have hao : c.oldr = a := by
        rcases hlast with g3 | ⟨g3, _⟩
        · rw [List.getLast?_eq_getElem?] at g3
          have : done.length - 1 = j := by omega
          rw [this, ha] at g3
          cases g3
          rfl
        · rw [g3] at hj
          simp at hj
      subst hao
      exact l3 hne
  · intro v hv hcase
    rw [l2 v (by omega) ?_]
    · refine hsame v hv ?_
      rcases hcase with g | g
      · exact Or.inl (fun hm => g (List.mem_append_left _ hm))
      · exact Or.inr g
    · intro ho hvo
      rcases hcase with g | g
      · exact g (List.mem_append_left _ (hvo ▸ holdr ho))
      · exact ho (hvo ▸ g)
  · omega
  · intro v hv hv1
    by_cases hlt : v < c.t.nodes.length
    · rcases hnew v hv hlt with g | ⟨_, g⟩
      · exact Or.inl (List.mem_append_left _ g)
      · exact Or.inl (List.mem_append_right _ (by simp [g]))
    · exact Or.inr (l4 v (by omega) hv1)

/-! ## The assignment `g_ (t, s, { k, p }) = x` -/

theorem g_mut_total {t : suffix_tree_t} {s : Nat} {k tk : Int} (p : Int) (hw : well_formed t)
    (hs : s < t.nodes.length) (htk : text_at t k = .ok tk) :
    ∃ t1 e, g_mut t s k p = .ok (t1, e) := by
  have hn : t.nodes[s]? = some t.nodes[s] := List.getElem?_eq_getElem hs
  unfold g_mut node_at
  rw [hn]
  simp only
  by_cases h0 : t.nodes[s].tset = 0
  · rw [if_pos h0]
    unfold make_transitions node_at
    rw [hn]
    simp only [List.getElem?_concat_length, text_at_mk, htk, List.find?_nil]
    exact ⟨_, _, rfl⟩
  · rw [if_neg h0]
    have hlt := hw.tset_lt s _ hn
    have hts : t.transitions[t.nodes[s].tset]? = some t.transitions[t.nodes[s].tset] :=
      List.getElem?_eq_getElem hlt
    simp only [hts, htk]
    cases hf : List.find? (fun arg => decide (tk = arg.c)) t.transitions[t.nodes[s].tset] with
    | none => exact ⟨_, _, rfl⟩
    | some tr =>
      have hlt2 := hw.edge_lt _ _ tr hts (List.mem_of_find?_eq_some hf)
      simp only [List.getElem?_eq_getElem hlt2]
      exact ⟨_, _, rfl⟩

/-- The tree after the assignment `g_ (t, s, { k, p }) = x`, case by case. -/
theorem assign_spec {t t1 : suffix_tree_t} {s e : Nat} {k p : Int} (x : Nat)
    (h : g_mut t s k p = .ok (t1, e)) :
    ∃ n tk ns tbl i ts, t.nodes[s]? = some n ∧ text_at t k = .ok tk ∧
      ((n.tset ≠ 0 ∧ ns = t.nodes ∧ tbl = t.transitions ∧ i = n.tset) ∨
       (n.tset = 0 ∧ ns = t.nodes.set s ⟨n.link, t.transitions.length⟩ ∧
          tbl = t.transitions ++ [[]] ∧ i = t.transitions.length)) ∧
      tbl[i]? = some ts ∧
      ((ts.find? (fun arg => decide (tk = arg.c)) = none ∧ e = t.edges.length ∧
          set_target t1 e x = ⟨t.text, ns, tbl.set i (ts ++ [⟨tk, t.edges.length⟩]),
                t.edges ++ [⟨s, k, p, x⟩]⟩) ∨
       (∃ tr ed, ts.find? (fun arg => decide (tk = arg.c)) = some tr ∧ e = tr.e ∧
          t.edges[tr.e]? = some ed ∧
          set_target t1 e x = ⟨t.text, ns, tbl, t.edges.set tr.e ⟨ed.s, k, p, x⟩⟩)) := by
  obtain ⟨n, tk, ns, tbl, i, ts, hn, htk, hcase, hts, hres⟩ := g_mut_spec h
  refine ⟨n, tk, ns, tbl, i, ts, hn, htk, hcase, hts, ?_⟩
  rcases hres with ⟨hf, rfl, rfl⟩ | ⟨tr, ed, hf, rfl, hed, rfl⟩
  · refine Or.inl ⟨hf, rfl, ?_⟩
    unfold set_target
    simp only [List.getElem?_concat_length, set_last]
  · refine Or.inr ⟨tr, ed, hf, rfl, hed, ?_⟩
    unfold set_target
    simp only [List.getElem?_set_self (lt_of_getElem? hed), List.set_set]

theorem find_concat_ne {ts : List transition_type} {c tk : Int} (e : Nat) (hne : c ≠ tk) :
    (ts ++ [transition_type.mk tk e]).find? (fun arg => decide (c = arg.c)) =
      ts.find? (fun arg => decide (c = arg.c)) := by
  rw [List.find?_append]
  cases ts.find? (fun arg => decide (c = arg.c)) with
  | none => simp [hne]
  | some tr => rfl

theorem find_concat_eq {ts : List transition_type} {tk : Int} (e : Nat)
    (h : ts.find? (fun arg => decide (tk = arg.c)) = none) :
    (ts ++ [transition_type.mk tk e]).find? (fun arg => decide (tk = arg.c)) = some ⟨tk, e⟩ := by
  rw [List.find?_append, h]
  simp

theorem set_other {α : Type} (l : List α) (a : α) {i j : Nat} (h : j ≠ i) :
    (l.set i a)[j]? = l[j]? := List.getElem?_set_ne (fun g => h g.symm)

theorem concat_other {α : Type} (l : List α) (a : α) {j : Nat} (h : j ≠ l.length) :
    (l ++ [a])[j]? = l[j]? := by
  by_cases hj : j < l.length
  · exact List.getElem?_append_left hj
  · rw [List.getElem?_eq_none (by simp; omega), List.getElem?_eq_none (by omega)]

theorem table_of_eq {t : suffix_tree_t} {s : Nat} {n : node_type} {ts : List transition_type}
    (hn : t.nodes[s]? = some n) (h0 : n.tset ≠ 0) (hts : t.transitions[n.tset]? = some ts) :
    table_of t s = ts := by
  unfold table_of
  rw [hn]
  simp only [if_neg h0, hts, Option.getD_some]

theorem table_of_cases (t : suffix_tree_t) (s : Nat) :
    table_of t s = [] ∨ ∃ n ts, t.nodes[s]? = some n ∧ n.tset ≠ 0 ∧
      t.transitions[n.tset]? = some ts ∧ table_of t s = ts := by
  unfold table_of
  cases hn : t.nodes[s]? with
  | none => exact Or.inl rfl
  | some n =>
    simp only
    by_cases h0 : n.tset = 0
    · rw [if_pos h0]
      exact Or.inl rfl
    · rw [if_neg h0]
      cases hts : t.transitions[n.tset]? with
      | none => exact Or.inl rfl
      | some ts => exact Or.inr ⟨n, ts, rfl, h0, hts, rfl⟩

/-- The read-only `g_` looks the character up in the table of the node. -/
theorem g_table {t : suffix_tree_t} {s : Nat} (hs : s ≠ aux) (c : Int) (ed : edge_type) :
    g_ t s c = .ok ed ↔ ∃ tr, (table_of t s).find? (fun arg => decide (c = arg.c)) = some tr ∧
      t.edges[tr.e]? = some ed := by
  constructor
  · intro h
    obtain ⟨n, ts, tr, hn, h0, hts, hf, hed⟩ := g_inv hs h
    exact ⟨tr, by rw [table_of_eq hn h0 hts]; exact hf, hed⟩
  · rintro ⟨tr, hf, hed⟩
    rcases table_of_cases t s with h | ⟨n, ts, hn, h0, hts, h⟩
    · rw [h] at hf
      simp at hf
    · rw [h] at hf
      exact g_of hs hn h0 hts hf hed

theorem has_key_table {t : suffix_tree_t} {s : Nat} {c : Int} :
    has_key t s c ↔ ∃ tr ∈ table_of t s, tr.c = c := by
  constructor
  · rintro ⟨n, ts, tr, hn, h0, hts, hmem, hc⟩
    exact ⟨tr, by rw [table_of_eq hn h0 hts]; exact hmem, hc⟩
  · rintro ⟨tr, hmem, hc⟩
    rcases table_of_cases t s with h | ⟨n, ts, hn, h0, hts, h⟩
    · rw [h] at hmem
      simp at hmem
    · rw [h] at hmem
      exact ⟨n, ts, tr, hn, h0, hts, hmem, hc⟩

theorem find_none_iff {t : suffix_tree_t} {s : Nat} {c : Int} :
    (table_of t s).find? (fun arg => decide (c = arg.c)) = none ↔ ¬ has_key t s c := by
  rw [has_key_table, List.find?_eq_none]
  constructor
  · rintro h ⟨tr, hmem, hc⟩
    have := h tr hmem
    simp [hc] at this
  · intro h tr hmem
    simp only [decide_eq_true_eq]
    exact fun hc => h ⟨tr, hmem, hc.symm⟩

theorem table_edge_lt {t : suffix_tree_t} (hw : well_formed t) {s : Nat} {tr : transition_type}
    (h : tr ∈ table_of t s) : tr.e < t.edges.length := by
  rcases table_of_cases t s with g | ⟨n, ts, hn, h0, hts, g⟩
  · rw [g] at h
    simp at h
  · rw [g] at h
    exact hw.edge_lt _ ts tr hts h

theorem table_source {t : suffix_tree_t} (hw : well_formed t) {s : Nat} {tr : transition_type}
    {ed : edge_type} (h : tr ∈ table_of t s) (hed : t.edges[tr.e]? = some ed) : ed.s = s := by
  rcases table_of_cases t s with g | ⟨n, ts, hn, h0, hts, g⟩
  · rw [g] at h
    simp at h
  · rw [g] at h
    exact hw.source s n ts tr ed hn h0 hts h hed

theorem table_edge_inj {t : suffix_tree_t} (hw : well_formed t) {s2 s3 j2 j3 : Nat}
    {tr2 tr3 : transition_type} (h2 : (table_of t s2)[j2]? = some tr2)
    (h3 : (table_of t s3)[j3]? = some tr3) (he : tr2.e = tr3.e) : s2 = s3 ∧ j2 = j3 := by
  rcases table_of_cases t s2 with g2 | ⟨n2, ts2, hn2, h02, hts2, g2⟩
  · rw [g2] at h2
    simp at h2
  · rcases table_of_cases t s3 with g3 | ⟨n3, ts3, hn3, h03, hts3, g3⟩
    · rw [g3] at h3
      simp at h3
    · rw [g2] at h2
      rw [g3] at h3
      obtain ⟨f1, f2⟩ := hw.edge_inj _ _ ts2 ts3 j2 j3 tr2 tr3 hts2 h2 hts3 h3 he
      exact ⟨hw.tset_inj s2 s3 n2 n3 hn2 hn3 f1 h02, f2⟩

/-- The tables and the edges after the assignment `g_ (t, s, { k, p }) = x` on
a well-formed tree. -/
theorem assign_table {t t1 : suffix_tree_t} {s e : Nat} {k p tk : Int} (x : Nat)
    (hw : well_formed t) (htk : text_at t k = .ok tk) (h : g_mut t s k p = .ok (t1, e)) :
    (∀ s2, s2 ≠ s → table_of (set_target t1 e x) s2 = table_of t s2) ∧
    ((¬ has_key t s tk ∧ e = t.edges.length ∧
        table_of (set_target t1 e x) s = table_of t s ++ [⟨tk, t.edges.length⟩] ∧
        (set_target t1 e x).edges = t.edges ++ [⟨s, k, p, x⟩]) ∨
     (∃ tr ed, (table_of t s).find? (fun arg => decide (tk = arg.c)) = some tr ∧ e = tr.e ∧
        t.edges[tr.e]? = some ed ∧
        table_of (set_target t1 e x) s = table_of t s ∧
        (set_target t1 e x).edges = t.edges.set tr.e ⟨s, k, p, x⟩)) := by
  obtain ⟨n, tk1, ns, tbl, i, ts, hn, htk1, hcase, hts, hres⟩ := assign_spec x h
  rw [htk] at htk1
  cases htk1
  have h1 := transitions_ne_nil hw
  have hi0 : i ≠ 0 := by
    rcases hcase with ⟨h0, _, _, rfl⟩ | ⟨_, _, _, rfl⟩
    · exact h0
    · omega
  have hns : ns[s]? = some ⟨n.link, i⟩ := by
    rcases hcase with ⟨h0, rfl, _, rfl⟩ | ⟨_, rfl, _, rfl⟩
    · exact hn
    · exact List.getElem?_set_self (lt_of_getElem? hn)
  have hns2 : ∀ s2, s2 ≠ s → ns[s2]? = t.nodes[s2]? := by
    intro s2 h2
    rcases hcase with ⟨h0, rfl, _, _⟩ | ⟨_, rfl, _, _⟩
    · rfl
    · exact set_other _ _ h2
  have htbl : ∀ j, j ≠ i → tbl[j]? = t.transitions[j]? := by
    intro j hj
    rcases hcase with ⟨h0, _, rfl, _⟩ | ⟨_, _, rfl, rfl⟩
    · rfl
    · exact concat_other _ _ hj
  have hold : table_of t s = ts := by
    rcases hcase with ⟨h0, _, rfl, rfl⟩ | ⟨h0, _, rfl, rfl⟩
    · exact table_of_eq hn h0 hts
    · rw [List.getElem?_concat_length] at hts
      cases hts
      unfold table_of
      rw [hn]
      simp only [if_pos h0]
  have hfree : ∀ s2 n2, s2 ≠ s → t.nodes[s2]? = some n2 → n2.tset ≠ 0 → n2.tset ≠ i := by
    intro s2 n2 h2 hn2 h02 heq
    rcases hcase with ⟨h0, _, _, rfl⟩ | ⟨_, _, _, rfl⟩
    · exact h2 (hw.tset_inj s2 s n2 n hn2 hn heq h02)
    · have := hw.tset_lt s2 n2 hn2
      omega
  have hother : ∀ (tbl1 : List (List transition_type)) (es : List edge_type),
      (∀ j, j ≠ i → tbl1[j]? = tbl[j]?) → ∀ s2, s2 ≠ s →
      table_of ⟨t.text, ns, tbl1, es⟩ s2 = table_of t s2 := by
    intro tbl1 es h3 s2 h2
    unfold table_of
    simp only
    rw [hns2 s2 h2]
    cases hn2 : t.nodes[s2]? with
    | none => rfl
    | some n2 =>
      simp only
      by_cases h02 : n2.tset = 0
      · rw [if_pos h02, if_pos h02]
      · rw [if_neg h02, if_neg h02, h3 _ (hfree s2 n2 h2 hn2 h02), htbl _ (hfree s2 n2 h2 hn2 h02)]
  have hself : ∀ (tbl1 : List (List transition_type)) (es : List edge_type)
      (ts1 : List transition_type), tbl1[i]? = some ts1 →
      table_of ⟨t.text, ns, tbl1, es⟩ s = ts1 := by
    intro tbl1 es ts1 h3
    exact table_of_eq hns hi0 h3
  rcases hres with ⟨hf, he, hT⟩ | ⟨tr, ed, hf, he, hed, hT⟩
  · rw [hT]
    refine ⟨hother _ _ (fun j hj => set_other _ _ hj), Or.inl ⟨?_, he, ?_, rfl⟩⟩
    · rw [← find_none_iff, hold]
      exact hf
    · rw [hold]
      exact hself _ _ _ (List.getElem?_set_self (lt_of_getElem? hts))
  · rw [hT]
    refine ⟨hother _ _ (fun j _ => rfl), Or.inr ⟨tr, ed, by rw [hold]; exact hf, he, hed, ?_, ?_⟩⟩
    · rw [hold]
      exact hself _ _ _ hts
    · have hsrc : ed.s = s :=
        table_source hw (by rw [hold]; exact List.mem_of_find?_eq_some hf) hed
      rw [hsrc]

/-! ## The links after `update` -/

theorem chain_loop (cf : Nat) (i : Int) (t0 : suffix_tree_t) :
    ∀ (fuel : Nat) (c : loop_state) (done : List Nat) (res : suffix_tree_t × Nat × Int),
      loop_inv i c → chain_inv i t0 done c →
      update_loop cf i fuel c.t c.s c.k c.oldr c.r c.b = .ok res →
      ∃ rs c1, update_loop_nodes cf i fuel c = .ok rs ∧ chain_inv i t0 (done ++ rs) c1 ∧
        c1.b = true ∧ update_exit c1.t c1.s c1.k c1.oldr = .ok res := by
  intro fuel
  induction fuel with
  | zero =>
    intro c done res hi hc h
    cases hb : c.b with
    | true =>
      rw [hb, update_loop_done] at h
      exact ⟨[], c, by simp [update_loop_nodes, hb], by simpa using hc, hb, h⟩
    | false =>
      rw [hb] at h
      simp [update_loop] at h
  | succ fuel ih =>
    intro c done res hi hc h
    cases hb : c.b with
    | true =>
      rw [hb, update_loop_done] at h
      exact ⟨[], c, by simp [update_loop_nodes, hb], by simpa using hc, hb, h⟩
    | false =>
      rw [update_loop_succ cf i fuel c hb] at h
      split at h
      · cases h
      · rename_i c1 hbody
        obtain ⟨rs, c2, h1, h2, h3, h4⟩ := ih c1 (done ++ [c.r]) res
          (update_body_inv hi hb hbody).1 (chain_inv_body hi hc hb hbody) h
        refine ⟨c.r :: rs, c2, ?_, by simpa using h2, h3, h4⟩
        simp [update_loop_nodes, hb, hbody, h1]

theorem chain_inv_enter {t t1 : suffix_tree_t} {s r : Nat} {k p ti : Int} {b : Bool} (i : Int)
    (hts : test_and_split t s k p ti = .ok (t1, r, b)) :
    chain_inv i t [] ⟨t1, s, k, root, r, b⟩ := by
  have hl : links t1 = links t ∨ (b = false ∧ r = t.nodes.length ∧ links t1 = links t ++ [aux]) := by
    rcases test_and_split_links hts with ⟨g, _, _⟩ | ⟨_, g1, g2, g3, _⟩
    · exact Or.inl (by rw [g])
    · exact Or.inr ⟨g1, g2, g3⟩
  refine ⟨List.nodup_nil, Or.inr ⟨rfl, rfl⟩, fun v hv => by simp at hv,
    fun j a b1 ha => by simp at ha, ?_, ?_, ?_⟩
  · intro v hv _
    rcases hl with g | ⟨_, _, g⟩
    · rw [g]
    · simp only
      rw [g, List.getElem?_append_left (by rw [links_length]; exact hv)]
  · simp only
    rw [← links_length t1, ← links_length t]
    rcases hl with g | ⟨_, _, g⟩
    · rw [g]
    · rw [g, List.length_append]
      omega
  · intro v hv hv1
    simp only at hv1
    rw [← links_length t1] at hv1
    rcases hl with g | ⟨g1, g2, g⟩
    · rw [g, links_length] at hv1
      omega
    · rw [g, List.length_append, links_length] at hv1
      simp only [List.length_singleton] at hv1
      refine Or.inr ⟨g1, ?_⟩
      show v = r
      omega

theorem link_congr {t t1 : suffix_tree_t} {v : Nat} (h : (links t1)[v]? = (links t)[v]?) :
    link t1 v = link t v := by
  unfold links at h
  rw [List.getElem?_map, List.getElem?_map] at h
  unfold link node_at
  cases h1 : t1.nodes[v]? with
  | none =>
    cases h2 : t.nodes[v]? with
    | none => rfl
    | some n2 => rw [h1, h2] at h; simp at h
  | some n1 =>
    cases h2 : t.nodes[v]? with
    | none => rw [h1, h2] at h; simp at h
    | some n2 =>
      rw [h1, h2] at h
      simp only [Option.map_some', Option.some.injEq] at h
      simp only [h]

/-- The suffix links after a call of `update` on a well-formed tree. -/
theorem update_chain {fuel : Nat} {t t1 : suffix_tree_t} {s s1 : Nat} {k i k1 : Int}
    (hw : well_formed t) (hu : update fuel t s k i = .ok (t1, s1, k1)) :
    ∃ rs, update_nodes fuel t s k i = .ok rs ∧ rs.Nodup ∧ (∀ v ∈ rs, v ≠ aux) ∧
      (∀ (j a b : Nat), rs[j]? = some a → rs[j + 1]? = some b → a ≠ root →
        link t1 a = .ok b) ∧
      (∀ a, rs.getLast? = some a → a ≠ root → link t1 a = .ok s1) ∧
      (∀ v, t.nodes.length ≤ v → v < t1.nodes.length → v ∈ rs) ∧
      (∀ v, v < t.nodes.length → (v ∉ rs ∨ v = root) → link t1 v = link t v) := by
  obtain ⟨ti, t0, r, b, hk, hti, hts, hloop⟩ := update_spec hu
  obtain ⟨rs, c1, h1, h2, h3, h4⟩ := chain_loop fuel i t fuel ⟨t0, s, k, root, r, b⟩ []
    (t1, s1, k1) (loop_inv_enter hw hti hts) (chain_inv_enter i hts) hloop
  simp only [List.nil_append] at h2
  obtain ⟨hnd, hlast, hkeys, hchain, hsame, hlen, hnew⟩ := h2
  obtain ⟨hs1, _, hexit⟩ := update_exit_spec h4
  have hlinks : (c1.oldr ≠ root ∧ c1.oldr < (links c1.t).length ∧
      links t1 = (links c1.t).set c1.oldr c1.s) ∨ (c1.oldr = root ∧ links t1 = links c1.t) := by
    rcases hexit with ⟨ho, hl⟩ | ⟨ho, rfl⟩
    · obtain ⟨_, _, _, _, g5, g6⟩ := set_link_frame hl
      exact Or.inl ⟨ho, by rw [links_length]; exact g5, g6⟩
    · exact Or.inr ⟨ho, rfl⟩
  have hlen1 : t1.nodes.length = c1.t.nodes.length := by
    rw [← links_length, ← links_length]
    rcases hlinks with ⟨_, _, g⟩ | ⟨_, g⟩ <;> simp [g]
  have holdr : c1.oldr ≠ root → rs.getLast? = some c1.oldr := by
    intro ho
    rcases hlast with g | ⟨_, g⟩
    · exact g
    · exact absurd g ho
  have hkeep : ∀ v, (c1.oldr ≠ root → v ≠ c1.oldr) → (links t1)[v]? = (links c1.t)[v]? := by
    intro v hv
    rcases hlinks with ⟨ho, _, g⟩ | ⟨_, g⟩
    · rw [g, List.getElem?_set_ne (fun h => hv ho h.symm)]
    · rw [g]
  refine ⟨rs, ?_, hnd, fun v hv => (hkeys v hv).1, ?_, ?_, ?_, ?_⟩
  · unfold update_nodes
    rw [if_neg (by omega), hti]
    simp only [hts]
    exact h1
  · intro j a b1 ha hb1 hne
    rw [link_eq_links, hkeep a ?_]
    · exact hchain j a b1 ha hb1 hne
    · intro ho hao
      have g3 := holdr ho
      have hj := lt_of_getElem? hb1
      rw [List.getLast?_eq_getElem?, ← hao, ← ha] at g3
      exact (List.nodup_iff_getElem?_ne_getElem?.mp hnd j (rs.length - 1) (by omega)
        (by omega)) g3.symm
  · intro a ha hne
    rw [link_eq_links]
    rcases hlast with g | ⟨g, _⟩
    · rw [ha] at g
      cases g
      rcases hlinks with ⟨_, hlt, g⟩ | ⟨g, _⟩
      · rw [g, List.getElem?_set_self hlt, hs1]
      · exact absurd g hne
    · rw [g] at ha
      simp at ha
  · intro v hv hv1
    rcases hnew v hv (by omega) with g | ⟨g, _⟩
    · exact g
    · rw [h3] at g
      cases g
  · intro v hv hcase
    apply link_congr
    rw [hkeep v ?_]
    · exact hsame v hv hcase
    · intro ho hvo
      have hmem : c1.oldr ∈ rs := by
        have g := holdr ho
        rw [List.getLast?_eq_getElem?] at g
        exact List.getElem?_mem g
      rcases hcase with g | g
      · exact g (hvo ▸ hmem)
      · exact ho (hvo ▸ g)

/-! ## The values of `k` in `canonize` -/

theorem canonize_empty {fuel : Nat} {t : suffix_tree_t} {s s1 : Nat} {k p k1 : Int}
    (hkp : ¬ k ≤ p) (h : canonize fuel t s k p = .ok (s1, k1)) : s1 = s ∧ k1 = k := by
  unfold canonize at h
  by_cases hk : k < 0
  · rw [if_pos hk] at h
    cases h
  · rw [if_neg hk, if_neg hkp] at h
    cases h
    exact ⟨rfl, rfl⟩

theorem test_and_split_at_node {t t1 : suffix_tree_t} {s r : Nat} {k p c : Int} {b : Bool}
    (hkp : ¬ k ≤ p) (h : test_and_split t s k p c = .ok (t1, r, b)) : t1 = t ∧ r = s := by
  rcases test_and_split_links h with ⟨g1, g2, _⟩ | ⟨g, _⟩
  · exact ⟨g1, g2⟩
  · exact absurd g hkp

theorem set_same {α : Type} {l : List α} {i : Nat} {a : α} (h : l[i]? = some a) :
    l.set i a = l := by
  apply List.ext_getElem?
  intro j
  by_cases hj : i = j
  · subst hj
    rw [List.getElem?_set_self (lt_of_getElem? h), h]
  · rw [List.getElem?_set_ne hj]

/-- One run of the loop body of `update`, in a call on the tree `t0` at
position `i`: the nodes of `t0` keep the links they have in `t0`; when `r` is a
node of `t0` the active point is at the node `r = s`, and when `oldr` is a node
of `t0` other than the root it links to `r = s` already. -/
theorem update_body_old_links {cf : Nat} {i : Int} {t0 : suffix_tree_t} {c c1 : loop_state}
    (h1 : ∀ v, v < t0.nodes.length → (links c.t)[v]? = (links t0)[v]?)
    (h2 : t0.nodes.length ≤ c.t.nodes.length)
    (h3 : c.r < t0.nodes.length → c.r = c.s ∧ i - 1 < c.k)
    (h4 : c.oldr ≠ root → c.oldr < t0.nodes.length →
      (links c.t)[c.oldr]? = some c.r ∧ c.r = c.s)
    (hbody : update_body cf i c = .ok c1) :
    (∀ v, v < t0.nodes.length → (links c1.t)[v]? = (links t0)[v]?) ∧
    t0.nodes.length ≤ c1.t.nodes.length ∧
    (c1.b = false → c1.r < t0.nodes.length → c1.r = c1.s ∧ i - 1 < c1.k) ∧
    (c1.oldr ≠ root → c1.oldr < t0.nodes.length →
      (links c1.t)[c1.oldr]? = some c1.r ∧ c1.r = c1.s) := by
  obtain ⟨t1, e, t2, ls, ti, hg, hl, hls, hcan, hti, hts, hold⟩ := update_body_spec hbody
  have g1 : links t1 = links c.t := (g_mut_links hg).1
  have g2 : ∀ v, v < t0.nodes.length → (links t2)[v]? = (links c.t)[v]? := by
    intro v hv
    rcases hl with ⟨ho, hl⟩ | ⟨_, rfl⟩
    · obtain ⟨_, _, _, _, f5, f6⟩ := set_link_frame hl
      rw [f6, g1]
      by_cases hvo : c.oldr = v
      · subst hvo
        rw [set_same (h4 ho hv).1]
      · rw [List.getElem?_set_ne hvo]
    · rw [g1]
  have g3 : t2.nodes.length = c.t.nodes.length := by
    rcases hl with ⟨ho, hl⟩ | ⟨_, rfl⟩
    · rw [(set_link_frame hl).2.2.2.1, (g_mut_frame hg).1]
    · exact (g_mut_frame hg).1
  have g4 : links c1.t = links t2 ∨
      (c1.b = false ∧ c1.r = t2.nodes.length ∧ links c1.t = links t2 ++ [aux]) := by
    rcases test_and_split_links hts with ⟨g, _, _⟩ | ⟨_, f1, f2, f3, _⟩
    · exact Or.inl (by rw [g])
    · exact Or.inr ⟨f1, f2, f3⟩
  have g5 : ∀ v, v < t0.nodes.length → (links c1.t)[v]? = (links t2)[v]? := by
    intro v hv
    rcases g4 with g | ⟨_, _, g⟩
    · rw [g]
    · rw [g, List.getElem?_append_left (by rw [links_length]; omega)]
  refine ⟨fun v hv => by rw [g5 v hv, g2 v hv, h1 v hv], ?_, ?_, ?_⟩
  · rw [← links_length c1.t]
    rcases g4 with g | ⟨_, _, g⟩
    · rw [g, links_length]
      omega
    · rw [g, List.length_append, links_length]
      omega
  · intro hb hr
    rcases test_and_split_links hts with ⟨_, f2, f3⟩ | ⟨_, _, f2, _, _⟩
    · refine ⟨f2, ?_⟩
      by_contra hk
      have := f3 (by omega)
      rw [hb] at this
      cases this
    · omega
  · intro ho hlt
    rw [hold] at hlt
    obtain ⟨f1, f2⟩ := h3 hlt
    obtain ⟨f3, f4⟩ := canonize_empty (by omega) hcan
    obtain ⟨f5, f6⟩ := test_and_split_at_node (by rw [f4]; omega) hts
    rw [hold, f6, f3, f5, f1]
    exact ⟨(link_eq_links _ _ _).mp hls, rfl⟩

theorem update_old_links {fuel : Nat} {t t1 : suffix_tree_t} {s s1 : Nat} {k i k1 : Int}
    (hu : update fuel t s k i = .ok (t1, s1, k1)) :
    t.nodes.length ≤ t1.nodes.length ∧ ∀ v, v < t.nodes.length → link t1 v = link t v := by
  obtain ⟨ti, t0, r, b, _, hti, hts, hloop⟩ := update_spec hu
  have hl : links t0 = links t ∨ (b = false ∧ r = t.nodes.length ∧ links t0 = links t ++ [aux]) := by
    rcases test_and_split_links hts with ⟨g, _, _⟩ | ⟨_, g1, g2, g3, _⟩
    · exact Or.inl (by rw [g])
    · exact Or.inr ⟨g1, g2, g3⟩
  have hP := update_loop_induct fuel i
    (fun c => (∀ v, v < t.nodes.length → (links c.t)[v]? = (links t)[v]?) ∧
      t.nodes.length ≤ c.t.nodes.length ∧
      (c.b = false → c.r < t.nodes.length → c.r = c.s ∧ i - 1 < c.k) ∧
      (c.oldr ≠ root → c.oldr < t.nodes.length →
        (links c.t)[c.oldr]? = some c.r ∧ c.r = c.s))
    (fun c c1 hc hb hbody => update_body_old_links hc.1 hc.2.1 (hc.2.2.1 hb) hc.2.2.2 hbody)
    fuel ⟨t0, s, k, root, r, b⟩ (t1, s1, k1) ?_ hloop
  · obtain ⟨c1, ⟨f1, f2, _, f4⟩, hb, hex⟩ := hP
    obtain ⟨_, _, hcase⟩ := update_exit_spec hex
    rcases hcase with ⟨ho, hl1⟩ | ⟨_, rfl⟩
    · obtain ⟨_, _, _, g4, g5, g6⟩ := set_link_frame hl1
      refine ⟨by omega, fun v hv => link_congr ?_⟩
      rw [g6, ← f1 v hv]
      by_cases hvo : c1.oldr = v
      · subst hvo
        obtain ⟨e1, e2⟩ := f4 ho hv
        rw [← e2, set_same e1]
      · rw [List.getElem?_set_ne hvo]
    · exact ⟨f2, fun v hv => link_congr (f1 v hv)⟩
  · refine ⟨?_, ?_, ?_, fun ho => absurd rfl ho⟩
    · intro v hv
      simp only
      rcases hl with g | ⟨_, _, g⟩
      · rw [g]
      · rw [g, List.getElem?_append_left (by rw [links_length]; exact hv)]
    · simp only
      rw [← links_length t0, ← links_length t]
      rcases hl with g | ⟨_, _, g⟩
      · rw [g]
      · rw [g, List.length_append]
        omega
    · intro hb hr
      simp only at hb hr ⊢
      subst hb
      rcases test_and_split_links hts with ⟨_, f2, f3⟩ | ⟨_, _, f2, _, _⟩
      · refine ⟨f2, ?_⟩
        by_contra hk
        have := f3 (by omega)
        cases this
      · omega

theorem driver_split (fuel : Nat) :
    ∀ (a b : Nat) (t : suffix_tree_t) (s : Nat) (k i : Int),
      driver fuel (a + b) t s k i =
        match driver fuel a t s k i with
        | .error e => .error e
        | .ok (t1, s1, k1) => driver fuel b t1 s1 k1 (i + a) := by
  intro a
  induction a with
  | zero =>
    intro b t s k i
    simp [driver]
  | succ a ih =>
    intro b t s k i
    rw [show a + 1 + b = (a + b) + 1 by omega]
    simp only [driver]
    cases update fuel t s k i with
    | error e => rfl
    | ok r =>
      obtain ⟨t1, s1, k1⟩ := r
      simp only
      cases canonize fuel t1 s1 k1 i with
      | error e => rfl
      | ok r2 =>
        obtain ⟨s2, k2⟩ := r2
        simp only
        rw [ih b t1 s2 k2 (i + 1)]
        have : i + 1 + (a : Int) = i + ((a + 1 : Nat) : Int) := by push_cast; omega
        rw [this]

theorem driver_old_links (fuel : Nat) :
    ∀ (n : Nat) (t : suffix_tree_t) (s : Nat) (k i : Int) (t1 : suffix_tree_t) (s1 : Nat)
      (k1 : Int), driver fuel n t s k i = .ok (t1, s1, k1) →
      t.nodes.length ≤ t1.nodes.length ∧ ∀ v, v < t.nodes.length → link t1 v = link t v := by
  intro n
  induction n with
  | zero =>
    intro t s k i t1 s1 k1 h
    simp only [driver] at h
    cases h
    exact ⟨le_refl _, fun _ _ => rfl⟩
  | succ n ih =>
    intro t s k i t1 s1 k1 h
    simp only [driver] at h
    split at h
    · cases h
    · rename_i t2 s2 k2 hu
      split at h
      · cases h
      · rename_i s3 k3 hcan
        obtain ⟨g1, g2⟩ := update_old_links hu
        obtain ⟨f1, f2⟩ := ih t2 s3 k3 (i + 1) t1 s1 k1 h
        exact ⟨by omega, fun v hv => by rw [f2 v (by omega), g2 v hv]⟩

theorem driver_later {fuel n m : Nat} {t0 t t1 : suffix_tree_t} {s0 s s1 : Nat}
    {k0 k k1 i : Int} (hnm : n ≤ m) (hd : driver fuel n t0 s0 k0 i = .ok (t, s, k))
    (hd1 : driver fuel m t0 s0 k0 i = .ok (t1, s1, k1)) :
    t.nodes.length ≤ t1.nodes.length ∧ ∀ v, v < t.nodes.length → link t1 v = link t v := by
  obtain ⟨b, rfl⟩ := Nat.exists_eq_add_of_le hnm
  rw [driver_split, hd] at hd1
  exact driver_old_links fuel b t s k _ t1 s1 k1 hd1

theorem loop_head_old_links {fuel : Nat} {text : List Int} {i : Int} {c : loop_state}
    (h : loop_head fuel text i c) :
    ∃ (n : Nat) (t0 : suffix_tree_t) (s0 : Nat) (k0 : Int),
      driver fuel n (init_tree text) root 0 0 = .ok (t0, s0, k0) ∧ i = n ∧
      (∀ v, v < t0.nodes.length → (links c.t)[v]? = (links t0)[v]?) ∧
      t0.nodes.length ≤ c.t.nodes.length ∧
      (c.b = false → c.r < t0.nodes.length → c.r = c.s ∧ i - 1 < c.k) ∧
      (c.oldr ≠ root → c.oldr < t0.nodes.length →
        (links c.t)[c.oldr]? = some c.r ∧ c.r = c.s) := by
  induction h with
  | enter n t s k ti t1 r b hd hn hk hti hts =>
    have hl : links t1 = links t ∨
        (b = false ∧ r = t.nodes.length ∧ links t1 = links t ++ [aux]) := by
      rcases test_and_split_links hts with ⟨g, _, _⟩ | ⟨_, g1, g2, g3, _⟩
      · exact Or.inl (by rw [g])
      · exact Or.inr ⟨g1, g2, g3⟩
    refine ⟨n, t, s, k, hd, rfl, ?_, ?_, ?_, fun ho => absurd rfl ho⟩
    · intro v hv
      simp only
      rcases hl with g | ⟨_, _, g⟩
      · rw [g]
      · rw [g, List.getElem?_append_left (by rw [links_length]; exact hv)]
    · simp only
      rw [← links_length t1, ← links_length t]
      rcases hl with g | ⟨_, _, g⟩
      · rw [g]
      · rw [g, List.length_append]
        omega
    · intro hb hr
      simp only at hb hr ⊢
      subst hb
      rcases test_and_split_links hts with ⟨_, f2, f3⟩ | ⟨_, _, f2, _, _⟩
      · refine ⟨f2, ?_⟩
        by_contra hk1
        have := f3 (by omega)
        cases this
      · omega
  | next i c c1 hc hb hbody ih =>
    obtain ⟨n, t0, s0, k0, hd, hi, h1, h2, h3, h4⟩ := ih
    exact ⟨n, t0, s0, k0, hd, hi, update_body_old_links h1 h2 (h3 hb) h4 hbody⟩

/-! ## The depths of the nodes and the number of leaves -/

theorem depth_inv_mono {t : suffix_tree_t} {d : Nat → Int} {phi phi1 : Int}
    (h : depth_inv t d phi) (hle : phi ≤ phi1) : depth_inv t d phi1 where
  wf := h.wf
  ol := h.ol
  len := h.len
  aux_edge := h.aux_edge
  d_aux := h.d_aux
  d_root := h.d_root
  d_nonneg := h.d_nonneg
  entry := by
    intro v tr e hv htr he
    obtain ⟨g1, g2, g3⟩ := h.entry v tr e hv htr he
    exact ⟨g1, by omega, g3⟩
  link_le := h.link_le

theorem depth_inv_init (text : List Int) (hlen : (text.length : Int) + 1 ≤ int_max) :
    depth_inv (init_tree text) (fun v => if v = aux then -1 else 0) 0 where
  wf := well_formed_init text
  ol := open_leaf_init text
  len := by
    simp only [init_tree, List.length_append, List.length_singleton]
    push_cast
    exact hlen
  aux_edge := ⟨⟨aux, 0, 0, root⟩, rfl, rfl⟩
  d_aux := by simp
  d_root := by simp [root, aux]
  d_nonneg := by
    intro v hv
    simp [hv]
  entry := by
    intro v tr e hv htr he
    exfalso
    unfold table_of at htr
    simp only [init_tree] at htr
    match v, hv with
    | 0, hv => exact hv rfl
    | 1, _ => simp at htr
    | n + 2, _ => simp at htr
  link_le := by
    intro v l hv hl
    simp only [links, init_tree] at hl
    match v, hv with
    | 0, hv => exact absurd rfl hv
    | 1, _ =>
      simp at hl
      subst hl
      simp [init_tree, aux]
    | n + 2, _ => simp at hl

theorem table_of_set_link {t t1 : suffix_tree_t} {s x : Nat} (h : set_link t s x = .ok t1)
    (v : Nat) : table_of t1 v = table_of t v := by
  unfold set_link node_at at h
  split at h
  · cases h
  · rename_i n hn
    split at hn
    · rename_i n1 hn1
      cases hn
      cases h
      unfold table_of
      simp only
      by_cases hv : s = v
      · subst hv
        rw [List.getElem?_set_self (lt_of_getElem? hn1), hn1]
      · rw [List.getElem?_set_ne hv]
    · cases hn

theorem depth_inv_set_link {t t1 : suffix_tree_t} {d : Nat → Int} {phi : Int} {v x : Nat}
    (h : depth_inv t d phi) (hv : v ≠ aux → x < t.nodes.length ∧ d x ≤ d v - 1)
    (hl : set_link t v x = .ok t1) : depth_inv t1 d phi := by
  obtain ⟨f1, f2, f3, f4, f5, f6⟩ := set_link_frame hl
  exact {
    wf := well_formed_link h.wf hl
    ol := open_leaf_set_link h.ol hl
    len := by rw [f1]; exact h.len
    aux_edge := by rw [f2]; exact h.aux_edge
    d_aux := h.d_aux
    d_root := h.d_root
    d_nonneg := h.d_nonneg
    entry := by
      intro u tr e hu htr he
      rw [table_of_set_link hl] at htr
      rw [f2] at he
      rw [text_at_congr f1]
      exact h.entry u tr e hu htr he
    link_le := by
      intro u l hu hul
      rw [f4]
      rw [f6] at hul
      by_cases huv : v = u
      · subst huv
        rw [List.getElem?_set_self (by rw [links_length]; exact f5)] at hul
        cases hul
        exact hv hu
      · rw [List.getElem?_set_ne huv] at hul
        exact h.link_le u l hu hul }

/-- The tree after the creation of an open leaf edge at a node that has no
transition on the character. -/
theorem leaf_spec {t t1 : suffix_tree_t} {r e : Nat} {k p c : Int} (hw : well_formed t)
    (hc : text_at t k = .ok c) (hno : ¬ has_key t r c) (hg : g_mut t r k p = .ok (t1, e)) :
    (∀ v, v ≠ r → table_of t1 v = table_of t v) ∧
    table_of t1 r = table_of t r ++ [⟨c, t.edges.length⟩] ∧
    t1.edges = t.edges ++ [⟨r, k, p, 0⟩] ∧ t1.nodes.length = t.nodes.length ∧
    t1.text = t.text ∧ links t1 = links t := by
  obtain ⟨h1, h2, h3, h4⟩ := g_mut_fresh hc hno hg
  have hsame : set_target t1 e 0 = t1 := by
    unfold set_target
    have : t1.edges[e]? = some ⟨r, k, p, 0⟩ := by
      rw [h1, h2, List.getElem?_concat_length]
    rw [this]
    simp only
    rw [set_same this]
  obtain ⟨g1, g2⟩ := assign_table 0 hw hc hg
  rw [hsame] at g1 g2
  refine ⟨g1, ?_, h1, h3, h4, (g_mut_links hg).1⟩
  rcases g2 with ⟨_, _, g, _⟩ | ⟨tr, _, hf, _⟩
  · exact g
  · exact absurd hf (by rw [find_none_iff.mpr hno]; simp)

theorem depth_inv_leaf {t t1 : suffix_tree_t} {d : Nat → Int} {phi : Int} {r e : Nat}
    {i c : Int} (h : depth_inv t d phi) (hc : text_at t i = .ok c) (hno : ¬ has_key t r c)
    (hphi : i - d r ≤ phi) (hg : g_mut t r i int_max = .ok (t1, e)) :
    depth_inv t1 d phi := by
  obtain ⟨f1, f2, f3, f4, f5, f6⟩ := leaf_spec h.wf hc hno hg
  exact {
    wf := well_formed_g_mut h.wf hg
    ol := open_leaf_leaf h.ol hc hno hg
    len := by rw [f5]; exact h.len
    aux_edge := by
      obtain ⟨e0, g1, g2⟩ := h.aux_edge
      refine ⟨e0, ?_, g2⟩
      rw [f3, List.getElem?_append_left (lt_of_getElem? g1)]
      exact g1
    d_aux := h.d_aux
    d_root := h.d_root
    d_nonneg := h.d_nonneg
    entry := by
      intro v tr ed hv htr hed
      rw [text_at_congr f5]
      rw [f3] at hed
      have hold : tr ∈ table_of t v → text_at t ed.k = .ok tr.c ∧ ed.k - d v ≤ phi ∧
          (ed.s_ ≠ 0 → ed.k ≤ ed.p ∧ d ed.s_ = d v + (ed.p - ed.k + 1)) := by
        intro hm
        rw [List.getElem?_append_left (table_edge_lt h.wf hm)] at hed
        exact h.entry v tr ed hv hm hed
      by_cases hvr : v = r
      · subst hvr
        rw [f2] at htr
        rcases List.mem_append.mp htr with hm | hm
        · exact hold hm
        · simp only [List.mem_singleton] at hm
          subst hm
          simp only [List.getElem?_concat_length, Option.some.injEq] at hed
          subst hed
          exact ⟨hc, hphi, fun h0 => absurd rfl h0⟩
      · rw [f1 v hvr] at htr
        exact hold htr
    link_le := by
      intro v l hv hl
      rw [f4]
      rw [f6] at hl
      exact h.link_le v l hv hl }

/-- One transition that `canonize` follows, on a tree with depths: it is not an
open leaf edge, it ends at a node other than the auxiliary state, and that node
is deeper by the length of the edge. -/
theorem follow_edge {t : suffix_tree_t} {d : Nat → Int} {phi : Int} (h : depth_inv t d phi)
    {p : Int} (hp : p < int_max) {s : Nat} {k k_ p_ : Int} {s_ : Nat}
    (hphi : phi ≤ k - d s) (hf : fresh t s k k_ p_ s_) (hc : p_ - k_ ≤ p - k) :
    k_ ≤ p_ ∧ s_ ≠ aux ∧ s_ < t.nodes.length ∧ d s_ = d s + (p_ - k_ + 1) := by
  obtain ⟨tk, e, htk, he, hneg, rfl, rfl, rfl⟩ := hf
  have hge := h.wf.nodes_ge
  by_cases hs : s = aux
  · subst hs
    unfold g_ at he
    rw [if_neg (fun h1 => h1 rfl)] at he
    cases he
    simp only
    refine ⟨le_refl _, by decide, by unfold root; omega, ?_⟩
    rw [h.d_root, h.d_aux]
    omega
  · obtain ⟨tr, hfind, hed⟩ := (g_table hs tk e).mp he
    have hmem := List.mem_of_find?_eq_some hfind
    obtain ⟨g1, g2, g3⟩ := h.entry s tr e hs hmem hed
    have hsrc : e.s ≠ aux := by
      rw [table_source h.wf hmem hed]
      exact hs
    obtain ⟨o1, o2⟩ := h.ol e (List.getElem?_mem hed) hsrc
    have h0 : e.s_ ≠ 0 := by
      intro h0
      have := o1.mp h0
      omega
    obtain ⟨g4, g5⟩ := g3 h0
    obtain ⟨o3, o4, _⟩ := o2 h0
    exact ⟨g4, by unfold aux; omega, o4, g5⟩

theorem canonize_loop_depth {t : suffix_tree_t} {d : Nat → Int} {phi : Int}
    (h : depth_inv t d phi) (p : Int) (hp : p < int_max) :
    ∀ (fuel : Nat) (s : Nat) (k k_ p_ : Int) (s_ s1 : Nat) (k1 : Int),
      s < t.nodes.length → phi ≤ k - d s → (k ≤ p → fresh t s k k_ p_ s_) →
      (¬ k ≤ p → k_ ≤ p_) → canonize_loop t p fuel s k k_ p_ s_ = .ok (s1, k1) →
      s1 < t.nodes.length ∧ k1 - d s1 = k - d s ∧ (s1 ≠ aux ∨ (s1 = s ∧ k1 = k)) ∧
      k1 ≤ max k (p + 1) := by
  intro fuel
  induction fuel with
  | zero =>
    intro s k k_ p_ s_ s1 k1 hs hphi hf hst hres
    simp only [canonize_loop] at hres
    split at hres
    · cases hres
    · cases hres
      exact ⟨hs, rfl, Or.inr ⟨rfl, rfl⟩, le_max_left _ _⟩
  | succ fuel ih =>
    intro s k k_ p_ s_ s1 k1 hs hphi hf hst hres
    simp only [canonize_loop] at hres
    split at hres
    · rename_i hc
      have hkp : k ≤ p := by
        by_contra hkp
        have := hst hkp
        omega
      obtain ⟨f1, f2, f3, f4⟩ := follow_edge h hp hphi (hf hkp) hc
      have hfin : ∀ (k2 p2 : Int) (s2 : Nat),
          (k + p_ - k_ + 1 ≤ p → fresh t s_ (k + p_ - k_ + 1) k2 p2 s2) →
          (¬ k + p_ - k_ + 1 ≤ p → k2 ≤ p2) →
          canonize_loop t p fuel s_ (k + p_ - k_ + 1) k2 p2 s2 = .ok (s1, k1) →
          s1 < t.nodes.length ∧ k1 - d s1 = k - d s ∧ (s1 ≠ aux ∨ (s1 = s ∧ k1 = k)) ∧
          k1 ≤ max k (p + 1) := by
        intro k2 p2 s2 hf2 hst2 hrec
        obtain ⟨g1, g2, g3, g4⟩ := ih s_ _ k2 p2 s2 s1 k1 f3 (by rw [f4]; omega) hf2 hst2 hrec
        refine ⟨g1, by rw [g2, f4]; omega, Or.inl ?_, ?_⟩
        · rcases g3 with g | ⟨g, _⟩
          · exact g
          · rw [g]
            exact f2
        · rcases max_cases (k + p_ - k_ + 1) (p + 1) with ⟨e1, _⟩ | ⟨e1, _⟩ <;>
            rcases max_cases k (p + 1) with ⟨e2, _⟩ | ⟨e2, _⟩ <;> omega
      split at hres
      · rename_i hk1
        split at hres
        · cases hres
        · rename_i tk htk
          split at hres
          · cases hres
          · rename_i e he
            split at hres
            · cases hres
            · rename_i hneg
              exact hfin e.k e.p e.s_ (fun _ => ⟨tk, e, htk, he, hneg, rfl, rfl, rfl⟩)
                (fun hn => absurd hk1 hn) hres
      · rename_i hk1
        exact hfin k_ p_ s_ (fun hn => absurd hn hk1) (fun _ => f1) hres
    · cases hres
      exact ⟨hs, rfl, Or.inr ⟨rfl, rfl⟩, le_max_left _ _⟩

/-- On a tree with depths `canonize` keeps `k - d s`, the start of the string
that the reference stands for. -/
theorem canonize_depth {t : suffix_tree_t} {d : Nat → Int} {phi : Int}
    (h : depth_inv t d phi) {fuel s s1 : Nat} {k p k1 : Int} (hp : p < int_max)
    (hs : s < t.nodes.length) (hphi : phi ≤ k - d s)
    (hres : canonize fuel t s k p = .ok (s1, k1)) :
    s1 < t.nodes.length ∧ k1 - d s1 = k - d s ∧ (s1 ≠ aux ∨ (s1 = s ∧ k1 = k)) ∧
    k1 ≤ max k (p + 1) := by
  unfold canonize at hres
  split at hres
  · cases hres
  · split at hres
    · rename_i hkp
      split at hres
      · cases hres
      · rename_i tk htk
        split at hres
        · cases hres
        · rename_i e he
          split at hres
          · cases hres
          · rename_i hneg
            exact canonize_loop_depth h p hp fuel s k e.k e.p e.s_ s1 k1 hs hphi
              (fun _ => ⟨tk, e, htk, he, hneg, rfl, rfl, rfl⟩) (fun hn => absurd hkp hn) hres
    · cases hres
      exact ⟨hs, rfl, Or.inr ⟨rfl, rfl⟩, le_max_left _ _⟩

/-- The tree that a split returns, on a well-formed tree whose transitions are
keyed by the first character of their edges. -/
theorem split_spec {t t1 : suffix_tree_t} {d : Nat → Int} {phi : Int} {s r : Nat}
    {k p c : Int} (h : depth_inv t d phi) (hs : s ≠ aux) (hkp : k ≤ p)
    (hts : test_and_split t s k p c = .ok (t1, r, false)) :
    ∃ (tr : transition_type) (e : edge_type) (x : Int), tr ∈ table_of t s ∧
      t.edges[tr.e]? = some e ∧ text_at t k = .ok tr.c ∧ g_ t s tr.c = .ok e ∧
      text_at t (e.k + p - k + 1) = .ok x ∧ r = t.nodes.length ∧
      t1 = { text := t.text,
             nodes := (t.nodes ++ [node_type.mk 0 0]).set t.nodes.length
               ⟨0, t.transitions.length⟩,
             transitions := (t.transitions ++ [[]]).set t.transitions.length
               [⟨x, t.edges.length⟩],
             edges := t.edges.set tr.e ⟨e.s, e.k, e.k + p - k, t.nodes.length⟩ ++
               [⟨t.nodes.length, e.k + p - k + 1, e.p, e.s_⟩] } := by
  obtain ⟨tk, e, x, hk, htk, he, _, hx, hb⟩ := test_and_split_inv hts hkp
  obtain ⟨n, ts, tr, hn, h0, hts1, hfind, hed⟩ := g_inv hs he
  have hmem : tr ∈ table_of t s := by
    rw [table_of_eq hn h0 hts1]
    exact List.mem_of_find?_eq_some hfind
  have hkey : tk = tr.c := by
    have := List.find?_some hfind
    simpa using this
  obtain ⟨g1, _, _⟩ := h.entry s tr e hs hmem hed
  have hc : ¬ c = x := fun hcx => by
    have := hb.mpr hcx
    cases this
  have heq := split_result_src t s k p c tk e.k e.p x e.s_ e.s n ts tr hk hkp htk hn h0 hts1
    hfind hed hs (by rw [g1, hkey]) hx hc
  rw [heq] at hts
  cases hts
  exact ⟨tr, e, x, hmem, hed, by rw [htk, hkey], by rw [← hkey]; exact he, hx, rfl, rfl⟩

theorem split_tables {t : suffix_tree_t} (hw : well_formed t) (x : Int)
    (es : List edge_type) (v : Nat) :
    table_of { text := t.text,
               nodes := (t.nodes ++ [node_type.mk 0 0]).set t.nodes.length
                 ⟨0, t.transitions.length⟩,
               transitions := (t.transitions ++ [[]]).set t.transitions.length
                 [⟨x, t.edges.length⟩],
               edges := es } v =
      if v = t.nodes.length then [⟨x, t.edges.length⟩] else table_of t v := by
  have h1 := transitions_ne_nil hw
  unfold table_of
  simp only
  by_cases hv : v = t.nodes.length
  · subst hv
    rw [if_pos rfl, List.getElem?_set_self (by simp)]
    simp only
    rw [if_neg (by omega), List.getElem?_set_self (by simp)]
    rfl
  · rw [if_neg hv, List.getElem?_set_ne (fun g => hv g.symm), concat_other _ _ hv]
    cases hn : t.nodes[v]? with
    | none => rfl
    | some n =>
      simp only
      by_cases h0 : n.tset = 0
      · rw [if_pos h0, if_pos h0]
      · rw [if_neg h0, if_neg h0]
        have hlt := hw.tset_lt v n hn
        rw [List.getElem?_set_ne (by omega), List.getElem?_append_left hlt]

theorem fresh_edge {t : suffix_tree_t} {s : Nat} {k k_ p_ : Int} {s_ : Nat} {c : Int}
    {e : edge_type} (hf : fresh t s k k_ p_ s_) (hc : text_at t k = .ok c)
    (he : g_ t s c = .ok e) : k_ = e.k ∧ p_ = e.p ∧ s_ = e.s_ := by
  obtain ⟨tk, e1, htk, he1, _, rfl, rfl, rfl⟩ := hf
  rw [hc] at htk
  cases htk
  rw [he] at he1
  cases he1
  exact ⟨rfl, rfl, rfl⟩

/-- A split keeps the depths: the new node gets the depth of the reference. -/
theorem depth_inv_split {t t1 : suffix_tree_t} {d : Nat → Int} {phi : Int} {s r : Nat}
    {k p c : Int} (h : depth_inv t d phi) (hs : s ≠ aux) (hkp : k ≤ p)
    (hcan : ∃ k_ p_ s_, fresh t s k k_ p_ s_ ∧ p - k < p_ - k_)
    (hts : test_and_split t s k p c = .ok (t1, r, false)) :
    ∃ d1 : Nat → Int, depth_inv t1 d1 phi ∧ (∀ v, v < t.nodes.length → d1 v = d v) ∧
      d1 r = d s + (p - k + 1) ∧ r = t.nodes.length ∧
      t1.nodes.length = t.nodes.length + 1 ∧ t1.edges.length = t.edges.length + 1 ∧
      2 ≤ t.edges.length ∧ (∀ v, v ≠ r → table_of t1 v = table_of t v) ∧
      (table_of t1 r).length = 1 := by
  have hwf1 := well_formed_test_and_split h.wf hts
  have hol1 := open_leaf_test_and_split h.wf h.ol h.len (fun _ => hs) hts
  have hlinks : links t1 = links t ++ [aux] := by
    rcases test_and_split_links hts with ⟨_, _, g⟩ | ⟨_, _, _, g, _⟩
    · exact absurd (g hkp) (by decide)
    · exact g
  obtain ⟨tr, e, x, hmem, hed, htk, he, hx, hr, ht1⟩ := split_spec h hs hkp hts
  obtain ⟨k_, p_, s_, hf, hlt⟩ := hcan
  obtain ⟨rfl, rfl, rfl⟩ := fresh_edge hf htk he
  have hge := h.wf.nodes_ge
  obtain ⟨g1, g2, g3⟩ := h.entry s tr e hs hmem hed
  have hsrc : e.s = s := table_source h.wf hmem hed
  obtain ⟨o1, o2⟩ := h.ol e (List.getElem?_mem hed) (by rw [hsrc]; exact hs)
  have helt := lt_of_getElem? hed
  obtain ⟨e0, ha1, ha2⟩ := h.aux_edge
  have hne0 : tr.e ≠ 0 := by
    intro h0
    rw [h0, ha1] at hed
    cases hed
    exact hs (hsrc ▸ ha2)
  have hds : 0 ≤ d s := h.d_nonneg s hs
  subst hr
  let d1 : Nat → Int := fun v => if v = t.nodes.length then d s + (p - k + 1) else d v
  have hd1 : ∀ v, v ≠ t.nodes.length → d1 v = d v := fun v hv => if_neg hv
  have hd1r : d1 t.nodes.length = d s + (p - k + 1) := if_pos rfl
  have hlen1 : t1.nodes.length = t.nodes.length + 1 := by rw [ht1]; simp
  have hedges : t1.edges = t.edges.set tr.e ⟨e.s, e.k, e.k + p - k, t.nodes.length⟩ ++
      [⟨t.nodes.length, e.k + p - k + 1, e.p, e.s_⟩] := by rw [ht1]
  have htext : t1.text = t.text := by rw [ht1]
  have htab : ∀ v, table_of t1 v =
      if v = t.nodes.length then [⟨x, t.edges.length⟩] else table_of t v := by
    intro v
    rw [ht1]
    exact split_tables h.wf x _ v
  have hE : t1.edges[t.edges.length]? =
      some ⟨t.nodes.length, e.k + p - k + 1, e.p, e.s_⟩ := by
    rw [hedges, List.getElem?_append_right (by simp)]
    simp
  have hA : t1.edges[tr.e]? = some ⟨e.s, e.k, e.k + p - k, t.nodes.length⟩ := by
    rw [hedges, List.getElem?_append_left (by simp; exact helt),
      List.getElem?_set_self helt]
  have hO : ∀ j, j < t.edges.length → j ≠ tr.e → t1.edges[j]? = t.edges[j]? := by
    intro j hj hne
    rw [hedges, List.getElem?_append_left (by simp; exact hj),
      List.getElem?_set_ne (fun g => hne g.symm)]
  refine ⟨d1, ?_, fun v hv => hd1 v (by omega), hd1r, rfl, hlen1, ?_, by omega, ?_, ?_⟩
  · exact {
      wf := hwf1
      ol := hol1
      len := by rw [htext]; exact h.len
      aux_edge := ⟨e0, by rw [hO 0 (by omega) (fun g => hne0 g.symm)]; exact ha1, ha2⟩
      d_aux := by rw [hd1 aux (by unfold aux; omega)]; exact h.d_aux
      d_root := by rw [hd1 root (by unfold root; omega)]; exact h.d_root
      d_nonneg := by
        intro v hv
        by_cases hvl : v = t.nodes.length
        · rw [hvl, hd1r]
          omega
        · rw [hd1 v hvl]
          exact h.d_nonneg v hv
      entry := by
        intro v tr1 ed hv htr1 hed1
        rw [text_at_congr htext]
        rw [htab] at htr1
        by_cases hvl : v = t.nodes.length
        · rw [if_pos hvl] at htr1
          simp only [List.mem_singleton] at htr1
          subst htr1
          simp only at hed1
          rw [hE] at hed1
          cases hed1
          simp only
          rw [hvl, hd1r]
          refine ⟨hx, by omega, fun h0 => ?_⟩
          obtain ⟨g4, g5⟩ := g3 h0
          obtain ⟨_, o4, _⟩ := o2 h0
          rw [hd1 e.s_ (by omega), g5]
          exact ⟨by omega, by omega⟩
        · rw [if_neg hvl] at htr1
          rw [hd1 v hvl]
          have hj := table_edge_lt h.wf htr1
          by_cases hje : tr1.e = tr.e
          · obtain ⟨j1, hj1⟩ := List.mem_iff_getElem?.mp htr1
            obtain ⟨j, hj0⟩ := List.mem_iff_getElem?.mp hmem
            obtain ⟨f1, f2⟩ := table_edge_inj h.wf hj1 hj0 hje
            subst f1
            subst f2
            rw [hj1] at hj0
            cases hj0
            rw [hA] at hed1
            cases hed1
            simp only
            refine ⟨g1, g2, fun _ => ?_⟩
            rw [hd1r]
            exact ⟨by omega, by omega⟩
          · rw [hO _ hj hje] at hed1
            obtain ⟨f1, f2, f3⟩ := h.entry v tr1 ed hv htr1 hed1
            refine ⟨f1, f2, fun h0 => ?_⟩
            obtain ⟨f4, f5⟩ := f3 h0
            have hsrc1 : ed.s = v := table_source h.wf htr1 hed1
            obtain ⟨_, o5⟩ := h.ol ed (List.getElem?_mem hed1) (by rw [hsrc1]; exact hv)
            obtain ⟨_, o6, _⟩ := o5 h0
            rw [hd1 ed.s_ (by omega)]
            exact ⟨f4, f5⟩
      link_le := by
        intro v l hv hl
        rw [hlinks] at hl
        rw [hlen1]
        rcases concat_cases hl with g | ⟨g1, g2⟩
        · have hvlt := lt_of_getElem? g
          rw [links_length] at hvlt
          obtain ⟨f1, f2⟩ := h.link_le v l hv g
          rw [hd1 v (by omega), hd1 l (by omega)]
          exact ⟨by omega, f2⟩
        · rw [links_length] at g1
          subst g2
          rw [g1, hd1r, hd1 aux (by unfold aux; omega), h.d_aux]
          exact ⟨by unfold aux; omega, by omega⟩ }
  · rw [hedges]
    simp
  · intro v hv
    rw [htab, if_neg hv]
  · rw [htab, if_pos rfl]
    rfl

theorem fresh_aux {t : suffix_tree_t} {k k_ p_ : Int} {s_ : Nat}
    (hf : fresh t aux k k_ p_ s_) : k_ = 0 ∧ p_ = 0 := by
  obtain ⟨tk, e, _, he, _, rfl, rfl, _⟩ := hf
  unfold g_ at he
  rw [if_neg (fun h1 => h1 rfl)] at he
  cases he
  exact ⟨rfl, rfl⟩

/-- The call of `test_and_split` at a canonical reference, on a tree with
depths in which every node made so far has its two transitions. -/
theorem compact_test {t t1 : suffix_tree_t} {d : Nat → Int} {s r : Nat} (oldr : Nat)
    {k i ti : Int} {b : Bool} (hD : depth_inv t d (k - d s)) (hk0 : 0 ≤ k) (hki : k ≤ i)
    (hs : s < t.nodes.length)
    (hcan : k ≤ i - 1 → ∃ k_ p_ s_, fresh t s k k_ p_ s_ ∧ (i - 1) - k < p_ - k_)
    (hti : text_at t i = .ok ti) (ho : oldr ≠ aux) (holt : oldr < t.nodes.length)
    (hod : oldr ≠ root → d s + (i - k) + 1 ≤ d oldr)
    (hL : leaf_count t ≤ k - d s)
    (hN : (t.nodes.length : Int) ≤ max (leaf_count t + 1) 2)
    (hT : ∀ v : Nat, 2 ≤ v → v < t.nodes.length → 2 ≤ (table_of t v).length)
    (hts : test_and_split t s k (i - 1) ti = .ok (t1, r, b)) :
    ∃ d1, compact_data i ⟨t1, s, k, oldr, r, b⟩ d1 := by
  have hge := hD.wf.nodes_ge
  have hkey : b = false → r ≠ aux ∧ r < t1.nodes.length ∧
      ∀ ti1, text_at t1 i = .ok ti1 → ¬ has_key t1 r ti1 := by
    intro hb
    subst hb
    obtain ⟨g1, g2, g3⟩ := test_and_split_no_key hD.wf hts
    refine ⟨g1, g2, fun ti1 h1 => ?_⟩
    rw [text_at_congr (test_and_split_text hts), hti] at h1
    cases h1
    exact g3
  rcases test_and_split_links hts with ⟨ht, hr, hb⟩ | ⟨hkp, hb, hr, _, _⟩
  · subst ht
    subst hr
    refine ⟨d, ?_⟩
    exact {
      dep := hD
      k_nonneg := hk0
      k_le := hki
      s_lt := hs
      oldr_ne := ho
      r_ok := by
        intro hb1
        simp only at hb1 ⊢
        obtain ⟨g1, g2, g3⟩ := hkey hb1
        have hk : ¬ k ≤ i - 1 := fun hk => by
          have := hb hk
          rw [hb1] at this
          cases this
        exact ⟨g1, g1, g2, by omega, g3⟩
      oldr_deep := hod
      leaves_le := hL
      nodes_fresh := fun _ hne => absurd rfl hne
      nodes_le := fun _ => hN
      tables := fun v hv hlt => Or.inl (hT v hv hlt) }
  · subst hb
    have hsa : s ≠ aux := by
      intro hsa
      subst hsa
      obtain ⟨k_, p_, s_, hf, hlt⟩ := hcan hkp
      obtain ⟨g1, g2⟩ := fresh_aux hf
      omega
    obtain ⟨d1, hD1, hd1, hd1r, hr1, hn1, he1, he2, htab, htabr⟩ :=
      depth_inv_split hD hsa hkp (hcan hkp) hts
    obtain ⟨g1, g2, g3⟩ := hkey rfl
    have hds : d1 s = d s := hd1 s hs
    have hLC : leaf_count t1 = leaf_count t := by
      unfold leaf_count
      rw [hn1, he1]
      push_cast
      omega
    refine ⟨d1, ?_⟩
    exact {
      dep := by
        simp only
        rw [hds]
        exact hD1
      k_nonneg := hk0
      k_le := hki
      s_lt := by
        simp only
        omega
      oldr_ne := ho
      r_ok := by
        intro _
        simp only
        refine ⟨hsa, g1, g2, ?_, g3⟩
        rw [hd1r, hds]
        omega
      oldr_deep := by
        intro hor
        simp only at hor ⊢
        rw [hds, hd1 oldr holt]
        exact hod hor
      leaves_le := by
        simp only
        rw [hds, hLC]
        exact hL
      nodes_fresh := by
        intro _ _
        simp only
        rw [hLC, hn1]
        unfold leaf_count at hN ⊢
        push_cast
        rcases max_cases ((t.edges.length : Int) - t.nodes.length + 1 + 1) 2 with
          ⟨e1, _⟩ | ⟨e1, _⟩ <;> omega
      nodes_le := by
        intro hn
        exact absurd ⟨rfl, by simp only; omega⟩ hn
      tables := by
        intro v hv hlt
        simp only at hlt ⊢
        by_cases hvr : v = r
        · exact Or.inr ⟨trivial, by omega, hvr, by rw [hvr]; exact htabr⟩
        · rw [htab v hvr]
          exact Or.inl (hT v hv (by omega)) }

theorem compact_body {cf : Nat} {i : Int} {c c1 : loop_state} {d : Nat → Int}
    (h : compact_data i c d) (hb : c.b = false) (hbody : update_body cf i c = .ok c1) :
    ∃ d1, compact_data i c1 d1 := by
  obtain ⟨t1, e, t2, ls, ti, hg, hl, hls, hcan, hti, hts, hold⟩ := update_body_spec hbody
  obtain ⟨hsa, hr0, hrlt, hdr, hno⟩ := h.r_ok hb
  have hD := h.dep
  have hk0 := h.k_nonneg
  have hki := h.k_le
  have ht1 : t1.text = c.t.text := (g_mut_frame hg).2
  have ht2 : t2.text = c.t.text := by
    rcases hl with ⟨_, hl⟩ | ⟨_, rfl⟩
    · rw [(set_link_frame hl).1, ht1]
    · exact ht1
  have hti0 : text_at c.t i = .ok ti := by rw [← text_at_congr ht2]; exact hti
  have hile : i ≤ int_max := le_trans (text_at_le hti0) hD.len
  have D1 : depth_inv t1 d (c.k - d c.s) :=
    depth_inv_leaf hD hti0 (hno ti hti0) (by omega) hg
  obtain ⟨f1, f2, f3, f4, f5, f6⟩ := leaf_spec hD.wf hti0 (hno ti hti0) hg
  have D2 : depth_inv t2 d (c.k - d c.s) := by
    rcases hl with ⟨ho, hl⟩ | ⟨_, rfl⟩
    · refine depth_inv_set_link D1 (fun _ => ⟨by rw [f4]; exact hrlt, ?_⟩) hl
      have := h.oldr_deep ho
      omega
    · exact D1
  have T2a : ∀ v, table_of t2 v = table_of t1 v := by
    intro v
    rcases hl with ⟨_, hl⟩ | ⟨_, rfl⟩
    · exact table_of_set_link hl v
    · rfl
  have T2b : t2.edges.length = c.t.edges.length + 1 := by
    rcases hl with ⟨_, hl⟩ | ⟨_, rfl⟩
    · rw [(set_link_frame hl).2.1, f3]
      simp
    · rw [f3]
      simp
  have T2c : t2.nodes.length = c.t.nodes.length := by
    rcases hl with ⟨_, hl⟩ | ⟨_, rfl⟩
    · rw [(set_link_frame hl).2.2.2.1, f4]
    · exact f4
  have hLC : leaf_count t2 = leaf_count c.t + 1 := by
    unfold leaf_count
    rw [T2b, T2c]
    push_cast
    omega
  obtain ⟨g1, g2⟩ := D2.link_le c.s ls hsa ((link_eq_links _ _ _).mp hls)
  obtain ⟨s1lt, hphi1, _, hk1⟩ := canonize_depth D2 (by omega) g1 (by omega) hcan
  obtain ⟨hk10, hcanon⟩ := canonize_exit hcan
  have hk1i : c1.k ≤ i := by
    rcases max_cases c.k (i - 1 + 1) with ⟨e1, _⟩ | ⟨e1, _⟩ <;> omega
  have hres := compact_test c.r (depth_inv_mono D2 (by omega)) hk10 hk1i s1lt hcanon
    hti hr0 (by rw [T2c]; exact hrlt) (fun _ => by omega)
    (by rw [hLC]; have := h.leaves_le; omega)
    (by
      rw [hLC, T2c]
      by_cases hrs : c.r = c.s
      · have := h.nodes_le (fun hn => hn.2 hrs)
        rcases max_cases (leaf_count c.t + 1) 2 with ⟨e1, _⟩ | ⟨e1, _⟩ <;>
          rcases max_cases (leaf_count c.t + 1 + 1) 2 with ⟨e2, _⟩ | ⟨e2, _⟩ <;> omega
      · have := h.nodes_fresh hb hrs
        rcases max_cases (leaf_count c.t + 1 + 1) 2 with ⟨e2, _⟩ | ⟨e2, _⟩ <;> omega)
    (by
      intro v hv hlt
      rw [T2c] at hlt
      rw [T2a]
      by_cases hvr : v = c.r
      · rw [hvr, f2, List.length_append, List.length_singleton]
        rcases h.tables v hv hlt with g | ⟨_, _, _, g⟩
        · rw [hvr] at g
          omega
        · rw [hvr] at g
          omega
      · rw [f1 v hvr]
        rcases h.tables v hv hlt with g | ⟨_, _, g, _⟩
        · exact g
        · exact absurd g hvr)
    hts
  obtain ⟨t3, s3, k3, o3, r3, b3⟩ := c1
  simp only at hold hres ⊢
  subst hold
  exact hres

/-- A call of `update` by the driver keeps the depths and the counts. -/
theorem compact_update {fuel : Nat} {t t1 : suffix_tree_t} {s s1 : Nat} {k i k1 : Int}
    {d : Nat → Int} (h : compact_at t s k i d)
    (hu : update fuel t s k i = .ok (t1, s1, k1)) :
    ∃ d1 : Nat → Int, depth_inv t1 d1 (k1 - d1 s1) ∧ 0 ≤ k1 ∧ k1 ≤ i ∧
      s1 < t1.nodes.length ∧ leaf_count t1 ≤ k1 - d1 s1 ∧
      (t1.nodes.length : Int) ≤ max (leaf_count t1 + 1) 2 ∧
      (∀ v : Nat, 2 ≤ v → v < t1.nodes.length → 2 ≤ (table_of t1 v).length) := by
  obtain ⟨ti, t0, r, b, _, hti, hts, hloop⟩ := update_spec hu
  have hge := h.dep.wf.nodes_ge
  have hent := compact_test root h.dep h.k_nonneg h.k_le h.s_lt h.canonical hti
    (by decide) (by unfold root; omega) (fun hn => absurd rfl hn) h.leaves_le h.nodes_le
    h.tables hts
  obtain ⟨c1, ⟨d1, hc1⟩, hb1, hex⟩ := update_loop_induct fuel i
    (fun c => ∃ d, compact_data i c d)
    (fun c c1 hc hb hbody => by
      obtain ⟨d, hc⟩ := hc
      exact compact_body hc hb hbody)
    fuel ⟨t0, s, k, root, r, b⟩ (t1, s1, k1) hent hloop
  obtain ⟨hs1, hk1, hcase⟩ := update_exit_spec hex
  subst hs1
  subst hk1
  have hnf : ¬ (c1.b = false ∧ c1.r ≠ c1.s) := by
    rw [hb1]
    intro hn
    cases hn.1
  have htab : ∀ v : Nat, 2 ≤ v → v < c1.t.nodes.length → 2 ≤ (table_of c1.t v).length := by
    intro v hv hlt
    rcases hc1.tables v hv hlt with g | ⟨g, _⟩
    · exact g
    · rw [hb1] at g
      cases g
  rcases hcase with ⟨ho, hl⟩ | ⟨_, rfl⟩
  · obtain ⟨f1, f2, f3, f4, f5, f6⟩ := set_link_frame hl
    have hLC : leaf_count t1 = leaf_count c1.t := by
      unfold leaf_count
      rw [f2, f4]
    refine ⟨d1, ?_, hc1.k_nonneg, hc1.k_le, by rw [f4]; exact hc1.s_lt,
      by rw [hLC]; exact hc1.leaves_le, by rw [hLC, f4]; exact hc1.nodes_le hnf, ?_⟩
    · refine depth_inv_set_link hc1.dep (fun _ => ⟨hc1.s_lt, ?_⟩) hl
      have g1 := hc1.oldr_deep ho
      have g2 := hc1.k_le
      omega
    · intro v hv hlt
      rw [table_of_set_link hl]
      exact htab v hv (by omega)
  · exact ⟨d1, hc1.dep, hc1.k_nonneg, hc1.k_le, hc1.s_lt, hc1.leaves_le, hc1.nodes_le hnf,
      htab⟩

theorem compact_step {fuel : Nat} {t t1 : suffix_tree_t} {s s1 s2 : Nat} {k i k1 k2 : Int}
    {d : Nat → Int} (h : compact_at t s k i d) (hi : i < int_max)
    (hu : update fuel t s k i = .ok (t1, s1, k1))
    (hcan : canonize fuel t1 s1 k1 i = .ok (s2, k2)) :
    ∃ d1, compact_at t1 s2 k2 (i + 1) d1 := by
  obtain ⟨d1, hD, hk0, hki, hs, hL, hN, hT⟩ := compact_update h hu
  obtain ⟨g1, g2, g3, g4⟩ := canonize_depth hD hi hs (le_refl _) hcan
  obtain ⟨f1, f2⟩ := canonize_exit hcan
  have hk2 : k2 ≤ i + 1 := by
    rcases max_cases k1 (i + 1) with ⟨e1, _⟩ | ⟨e1, _⟩ <;> omega
  refine ⟨d1, ?_⟩
  exact {
    dep := by rw [g2]; exact hD
    k_nonneg := f1
    k_le := hk2
    s_ne := by
      rcases g3 with g | ⟨_, g⟩
      · exact g
      · exact canonize_not_aux hcan (by omega)
    s_lt := g1
    canonical := by
      intro hk
      obtain ⟨k_, p_, s_, hf, hlt⟩ := f2 (by omega)
      exact ⟨k_, p_, s_, hf, by omega⟩
    leaves_le := by rw [g2]; exact hL
    nodes_le := hN
    tables := hT }

theorem compact_driver (fuel : Nat) :
    ∀ (n : Nat) (t : suffix_tree_t) (s : Nat) (k i : Int) (d : Nat → Int)
      (t1 : suffix_tree_t) (s1 : Nat) (k1 : Int), compact_at t s k i d →
      i + n ≤ int_max → driver fuel n t s k i = .ok (t1, s1, k1) →
      ∃ d1, compact_at t1 s1 k1 (i + n) d1 := by
  intro n
  induction n with
  | zero =>
    intro t s k i d t1 s1 k1 h _ hd
    simp only [driver] at hd
    cases hd
    exact ⟨d, by simpa using h⟩
  | succ n ih =>
    intro t s k i d t1 s1 k1 h hi hd
    simp only [driver] at hd
    split at hd
    · cases hd
    · rename_i t2 s2 k2 hu
      split at hd
      · cases hd
      · rename_i s3 k3 hcan
        obtain ⟨d2, h2⟩ := compact_step h (by push_cast at hi; omega) hu hcan
        obtain ⟨d3, h3⟩ := ih t2 s3 k3 (i + 1) d2 t1 s1 k1 h2 (by push_cast at hi ⊢; omega) hd
        refine ⟨d3, ?_⟩
        have : i + 1 + (n : Int) = i + ((n + 1 : Nat) : Int) := by push_cast; omega
        rw [← this]
        exact h3

theorem compact_init (text : List Int) (hlen : (text.length : Int) + 1 ≤ int_max) :
    compact_at (init_tree text) root 0 0 (fun v => if v = aux then -1 else 0) where
  dep := by
    simp only [root, aux]
    exact depth_inv_init text hlen
  k_nonneg := le_refl _
  k_le := le_refl _
  s_ne := by decide
  s_lt := by simp [init_tree, root]
  canonical := fun h => absurd h (by decide)
  leaves_le := by simp [leaf_count, init_tree, root, aux]
  nodes_le := by simp [leaf_count, init_tree]
  tables := by
    intro v hv hlt
    simp [init_tree] at hlt
    omega

theorem filterMap_length {α β : Type} (f : α → Option β) :
    ∀ l : List α, (∀ x ∈ l, ∃ y, f x = some y) → (l.filterMap f).length = l.length := by
  intro l
  induction l with
  | nil => intro _; rfl
  | cons a l ih =>
    intro h
    obtain ⟨y, hy⟩ := h a (List.mem_cons_self _ _)
    rw [List.filterMap_cons_some hy, List.length_cons, List.length_cons,
      ih (fun x hx => h x (List.mem_cons_of_mem _ hx))]

/-- In a well-formed tree every transition of a node has its edge. -/
theorem out_edges_length {t : suffix_tree_t} (hw : well_formed t) (v : Nat) :
    (out_edges t v).length = (table_of t v).length := by
  unfold out_edges table_of
  cases hn : t.nodes[v]? with
  | none => rfl
  | some n =>
    simp only
    by_cases h0 : n.tset = 0
    · rw [if_pos h0, if_pos h0]
      rfl
    · rw [if_neg h0, if_neg h0]
      cases hts : t.transitions[n.tset]? with
      | none => rfl
      | some ts =>
        simp only [Option.getD_some]
        apply filterMap_length
        intro tr htr
        exact ⟨_, List.getElem?_eq_getElem (hw.edge_lt _ ts tr hts htr)⟩

/-- In a tree that `make_suffix_tree` returns for a text whose length plus one
does not exceed `numeric_limits<int>::max ()`, every node other than the
auxiliary state and the root has at least two transitions, each with its edge;
there are at most `|text|` such nodes, and at most `2 * |text| + 1` edges
besides the edge of the auxiliary state. -/
theorem compact_returned (text : List Int) (fuel : Nat) (t : suffix_tree_t)
    (hlen : (text.length : Int) + 1 ≤ int_max) (h : make_suffix_tree fuel text = .ok t) :
    (∀ v : Nat, 2 ≤ v → v < t.nodes.length →
      2 ≤ (table_of t v).length ∧ 2 ≤ (out_edges t v).length) ∧
    t.nodes.length ≤ text.length + 2 ∧ t.edges.length ≤ 2 * text.length + 1 + 1 := by
  unfold make_suffix_tree at h
  simp only at h
  split at h
  · cases h
  · rename_i t1 s1 k1 hd
    cases h
    have hN : ((init_tree text).text.length : Int) = text.length + 1 := by
      simp [init_tree]
    obtain ⟨d, hc⟩ := compact_driver fuel _ _ root 0 0 _ t s1 k1 (compact_init text hlen)
      (by rw [hN]; omega) hd
    have h1 := hc.leaves_le
    have h2 := hc.nodes_le
    have h3 := hc.k_le
    have h4 := hc.dep.d_nonneg s1 hc.s_ne
    rw [hN] at h3
    unfold leaf_count at h1 h2
    refine ⟨fun v hv hlt => ⟨hc.tables v hv hlt, ?_⟩, ?_, ?_⟩
    · rw [out_edges_length hc.dep.wf]
      exact hc.tables v hv hlt
    · rcases max_cases ((t.edges.length : Int) - t.nodes.length + 1 + 1) 2 with
        ⟨e1, _⟩ | ⟨e1, _⟩ <;> omega
    · rcases max_cases ((t.edges.length : Int) - t.nodes.length + 1 + 1) 2 with
        ⟨e1, _⟩ | ⟨e1, _⟩ <;> omega

/-- The tree of `"AAA"` has two nodes besides the auxiliary state and the root,
each with two transitions, and six edges besides the edge of the auxiliary
state. -/
theorem compact_returned_aaa :
    (∀ v : Nat, 2 ≤ v → v < aaa_tree.nodes.length →
      2 ≤ (table_of aaa_tree v).length ∧ 2 ≤ (out_edges aaa_tree v).length) ∧
    aaa_tree.nodes.length ≤ 3 + 2 ∧ aaa_tree.edges.length ≤ 2 * 3 + 1 + 1 :=
  compact_returned [65, 65, 65] 4 aaa_tree (by decide) make_suffix_tree_aaa

/-! ## The claims -/

/-- Claim C1 (leaf count), evaluated at the text `"\x80"` of a signed `char`
(the one character `-128`).  The claim promises a tree with two leaves; the
construction returns no tree, with any fuel: after the first iteration the root
has the key `-128`, `has_transition` takes this negative key for the wildcard
and answers `true` for `'~'`, so no leaf is created for `'~'`, and the lookup of
`'~'` in the `canonize` call of the driver fails
`assert (iter != ts.end ())`. -/
theorem negative_char_no_leaves (fuel : Nat) :
    ¬ ∃ t, make_suffix_tree fuel [-128] = .ok t ∧ (leaves t).length = 2 := by
  rintro ⟨t, ht, _⟩
  have h1 : make_suffix_tree 1 [-128] = .error .missing := by decide!
  rcases make_suffix_tree_stable h1 (by decide) fuel with h | h <;> rw [h] at ht <;> cases ht

/-- Claim C2 (path labels of the leaves), evaluated at the text `"A\x80"` of a
signed `char`.  The claim promises a tree whose leaves spell the three suffixes
of `"A\x80~"`; the construction returns no tree, with any fuel. -/
theorem negative_char_no_labels (fuel : Nat) (t : suffix_tree_t) :
    make_suffix_tree fuel [65, -128] ≠ .ok t := by
  intro ht
  have h1 : make_suffix_tree 1 [65, -128] = .error .missing := by decide!
  rcases make_suffix_tree_stable h1 (by decide) fuel with h | h <;> rw [h] at ht <;> cases ht

/-- Claim C3 (suffix links), evaluated at the text `"AA\x80"` of a signed
`char`.  After three iterations the tree has the internal node 2 (path label
`A`, suffix link root), but the fourth iteration stops at the failed lookup of
`'~'` at the root, so no tree is returned, with any fuel. -/
theorem negative_char_no_links (fuel : Nat) :
    driver 2 3 (init_tree [65, 65, -128]) root 0 0 =
      .ok (⟨[65, 65, -128, 126], [⟨1, 1⟩, ⟨0, 2⟩, ⟨1, 3⟩],
            [[], [⟨-1, 0⟩], [⟨65, 1⟩, ⟨-128, 4⟩], [⟨65, 2⟩, ⟨-128, 3⟩]],
            [⟨0, 0, 0, 1⟩, ⟨1, 0, 0, 2⟩, ⟨2, 1, int_max, 0⟩, ⟨2, 2, int_max, 0⟩,
             ⟨1, 2, int_max, 0⟩]⟩, 1, 3) ∧
    ∀ t, make_suffix_tree fuel [65, 65, -128] ≠ .ok t := by
  refine ⟨by decide!, ?_⟩
  intro t ht
  have h1 : make_suffix_tree 2 [65, 65, -128] = .error .missing := by decide!
  rcases make_suffix_tree_stable h1 (by decide) fuel with h | h <;> rw [h] at ht <;> cases ht

/-- Claim C4: the branching invariant.  In every tree state the construction
over `text` can pass through, and so in the tree `make_suffix_tree` returns, no
node has two transitions with the same character key: the find-or-create `g_`
appends an entry only after finding none with that key. -/
theorem branching_invariant (text : List Int) :
    (∀ t, reached text t → branching t) ∧
    (∀ fuel n t s k, driver fuel n (init_tree text) root 0 0 = .ok (t, s, k) → reached text t) ∧
    (∀ fuel t, make_suffix_tree fuel text = .ok t → reached text t ∧ branching t) :=
  ⟨fun _ h => keys_distinct_branching (reached_keys_distinct h),
   fun _ _ _ _ _ h => driver_steps _ _ _ _ _ _ _ _ _ h,
   fun _ _ h => ⟨make_suffix_tree_reached h,
     keys_distinct_branching (reached_keys_distinct (make_suffix_tree_reached h))⟩⟩

/-- Witness of C4: the tree of `"AAA"`. -/
theorem branching_invariant_witness : reached [65, 65, 65] aaa_tree ∧ branching aaa_tree :=
  (branching_invariant [65, 65, 65]).2.2 4 aaa_tree (by decide!)

/-- Claim C5 (totality), evaluated at the text `"\xc3\xa9"` (the two bytes of
the UTF-8 letter e-acute) of a signed `char`, the characters `-61` and `-87`.
After the first iteration the root has the key `-61`; in the second one
`has_transition (t, root, -87)` answers `true` because that key is negative, and
the `canonize` call of the driver looks `-87` up at the root: with any fuel of at
least one, `make_suffix_tree` stops at the contract check
`assert (iter != ts.end ())` of the read-only `g_`. -/
theorem negative_char_missing_transition (fuel : Nat) :
    driver (fuel + 1) 1 (init_tree [-61, -87]) root 0 0 = .ok (first_tree [-61, -87], root, 1) ∧
    has_transition (first_tree [-61, -87]) root (-87) = .ok true ∧
    g_ (first_tree [-61, -87]) root (-87) = .error .missing ∧
    make_suffix_tree (fuel + 1) [-61, -87] = .error .missing := by
  have h1 : make_suffix_tree 1 [-61, -87] = .error .missing := by decide!
  refine ⟨first_iteration _ fuel, by decide!, by decide!, ?_⟩
  rw [make_suffix_tree_mono 1 (fuel + 1) [-61, -87] (by omega) (by rw [h1]; decide), h1]

/-- Counterexample to C6: for the text `"~"`, which contains the terminator,
`make_suffix_tree` rejects nothing and returns a tree. -/
theorem tilde_text_accepted : make_suffix_tree 1 [tilde] = .ok tilde_tree := by decide!

/-- Claim C6 as amended: `make_suffix_tree` does not validate its input.  For
every text, whether or not it contains `'~'`, the first iteration of the loop
runs on `text + '~'` and gives the root the open leaf edge of the first
character, and the rest of the loop goes on from that tree. -/
theorem make_suffix_tree_begins (text : List Int) (fuel : Nat) :
    driver (fuel + 1) 1 (init_tree text) root 0 0 = .ok (first_tree text, root, 1) ∧
    make_suffix_tree (fuel + 1) text =
      match driver (fuel + 1) text.length (first_tree text) root 1 1 with
      | .error e => .error e
      | .ok (t, _, _) => .ok t := by
  have h1 := first_iteration text fuel
  refine ⟨h1, ?_⟩
  have hlen : (init_tree text).text.length = text.length + 1 := by simp [init_tree]
  unfold make_suffix_tree
  simp only [hlen]
  rw [driver_succ, h1]
  rfl

/-- Claim C7: `canonize` is idempotent.  Whenever `canonize (t, s, (k, p))`
succeeds with result `(s1, k1)` (its `assert (k >= 0)` is part of succeeding),
`canonize (t, s1, (k1, p))` succeeds as well, with any fuel, and returns
`(s1, k1)`. -/
theorem canonize_idempotent (t : suffix_tree_t) (s : Nat) (k p : Int) (fuel : Nat)
    (s1 : Nat) (k1 : Int) (h : canonize fuel t s k p = .ok (s1, k1)) (fuel1 : Nat) :
    canonize fuel1 t s1 k1 p = .ok (s1, k1) := by
  obtain ⟨h0, hc⟩ := canonize_exit h
  by_cases hkp : k1 ≤ p
  · obtain ⟨k_, p_, s_, hf, hlt⟩ := hc hkp
    exact canonize_of_canonical k_ p_ s_ h0 (fun _ => ⟨hf, hlt⟩) fuel1
  · exact canonize_of_canonical 0 0 0 h0 (fun hle => absurd hle hkp) fuel1

/-- Witness of C7: in the tree of `"AAA"`, `canonize (t, root, (0, 3))` walks
two edges down and returns `(2, 2)`; run again from there it returns `(2, 2)`. -/
theorem canonize_idempotent_witness :
    canonize 2 aaa_tree 1 0 3 = .ok (2, 2) ∧ canonize 0 aaa_tree 2 2 3 = .ok (2, 2) :=
  ⟨by decide!, canonize_idempotent aaa_tree 1 0 3 2 2 2 (by decide!) 0⟩

/-- Counterexample to C9: in `wrong_key_tree` the edge leaving the root on
`t.text [0] = 'A'` is `(1, 1, max, 0)` and `t.text [1 + 0 - 0 + 1] = 'C'` is not
`'X'`; `test_and_split (t, 1, (0, 0), 'X')` returns `(2, false)`, but the write
`g_ (t, s, { k_, k_ + p - k })` goes by the key `t.text [k_] = 'B'`, so it makes a
new edge and the edge leaving the root on `'A'` is still `(1, 1, max, 0)`, not
`(1, 1, 1, 2)`. -/
theorem test_and_split_wrong_key :
    text_at wrong_key_tree 0 = .ok 65 ∧
    g_ wrong_key_tree 1 65 = .ok ⟨1, 1, int_max, 0⟩ ∧
    text_at wrong_key_tree (1 + 0 - 0 + 1) = .ok 67 ∧
    test_and_split wrong_key_tree 1 0 0 88 = .ok (wrong_key_tree_split, 2, false) ∧
    g_ wrong_key_tree_split 1 65 = .ok ⟨1, 1, int_max, 0⟩ ∧
    g_ wrong_key_tree_split 1 65 ≠ .ok ⟨1, 1, 1 + 0 - 0, 2⟩ := by
  decide!

/-- Claim C9 as amended: the split postcondition of `test_and_split`, for an
edge whose label starts with its key.  Let `s` be a non-auxiliary node,
`0 <= k <= p`, let the edge leaving `s` on `tk = t.text [k]` be `(s, k1, p1, s1)`
with `t.text [k1] = tk`, and let `x = t.text [k1 + p - k + 1]`.  If `x = c` the
result is `(s, true)` and the tree is unchanged.  If `x != c` the result is
`(r, false)` with `r = t.nodes.size ()` before the call, a node that exists
afterwards; afterwards the edge leaving `s` on `tk` is `(s, k1, k1 + p - k, r)`,
and the transition table of `r` has exactly one entry, keyed by `x`, whose edge
is `(r, k1 + p - k + 1, p1, s1)`. -/
theorem test_and_split_split (t : suffix_tree_t) (s : Nat) (k p c tk k1 p1 x : Int) (s1 : Nat)
    (hs : s ≠ aux) (hk : 0 ≤ k) (hkp : k ≤ p)
    (htk : text_at t k = .ok tk)
    (he : g_ t s tk = .ok ⟨s, k1, p1, s1⟩)
    (hlabel : text_at t k1 = .ok tk)
    (hx : text_at t (k1 + p - k + 1) = .ok x) :
    (x = c → test_and_split t s k p c = .ok (t, s, true)) ∧
    (x ≠ c → ∃ t1, test_and_split t s k p c = .ok (t1, t.nodes.length, false) ∧
        t1.text = t.text ∧ t1.nodes.length = t.nodes.length + 1 ∧
        g_ t1 s tk = .ok ⟨s, k1, k1 + p - k, t.nodes.length⟩ ∧
        ∃ n e, t1.nodes[t.nodes.length]? = some n ∧ n.tset ≠ 0 ∧
          t1.transitions[n.tset]? = some [⟨x, e⟩] ∧
          t1.edges[e]? = some ⟨t.nodes.length, k1 + p - k + 1, p1, s1⟩) := by
  constructor
  · intro hc
    exact test_and_split_found t s k p c tk x _ hk hkp htk he (text_at_nonneg hlabel) hx hc.symm
  · intro hc
    obtain ⟨n, ts, tr, hn, h0, hts, htr, hed⟩ := g_inv hs he
    have hslt : s < t.nodes.length := (List.getElem?_eq_some.mp hn).1
    have helt : tr.e < t.edges.length := (List.getElem?_eq_some.mp hed).1
    have htlt : n.tset < t.transitions.length := (List.getElem?_eq_some.mp hts).1
    refine ⟨_, split_result t s k p c tk k1 p1 x s1 n ts tr hk hkp htk hn h0 hts htr hed
      hs hlabel hx (fun h => hc h.symm), rfl, by simp, ?_, ?_⟩
    · refine g_of hs ?_ h0 ?_ htr ?_
      · simp only
        rw [List.getElem?_set_ne (by omega), List.getElem?_append_left hslt]
        exact hn
      · simp only
        rw [List.getElem?_set_ne (by omega), List.getElem?_append_left htlt]
        exact hts
      · simp only
        rw [List.getElem?_append_left (by simpa using helt)]
        simp [List.getElem?_set, helt]
    · refine ⟨⟨0, t.transitions.length⟩, t.edges.length, ?_, ?_, ?_, ?_⟩
      · simp [List.getElem?_set]
      · simp only; omega
      · simp [List.getElem?_set]
      · simp only
        rw [List.getElem?_append_right (by simp)]
        simp

/-- Witness of C9: the split of the leaf edge of `A` in `ab_tree` on `'X'`. -/
theorem test_and_split_split_witness :
    ∃ t1, test_and_split ab_tree 1 0 0 88 = .ok (t1, ab_tree.nodes.length, false) ∧
      t1.text = ab_tree.text ∧ t1.nodes.length = ab_tree.nodes.length + 1 ∧
      g_ t1 1 65 = .ok ⟨1, 0, 0 + 0 - 0, ab_tree.nodes.length⟩ ∧
      ∃ n e, t1.nodes[ab_tree.nodes.length]? = some n ∧ n.tset ≠ 0 ∧
        t1.transitions[n.tset]? = some [⟨66, e⟩] ∧
        t1.edges[e]? = some ⟨ab_tree.nodes.length, 0 + 0 - 0 + 1, int_max, 0⟩ :=
  (test_and_split_split ab_tree 1 0 0 88 65 0 int_max 66 0 (by decide) (by decide) (by decide)
    (by decide!) (by decide!) (by decide!) (by decide!)).2 (by decide)

/-- Claim C10: the explicit-node case of `test_and_split`.  For a range with
`k >= 0` and `k > p`, `test_and_split (t, s, (k, p), c)` is
`has_transition (t, s, c)` with the tree and `s` handed back unchanged; and for
`s` the auxiliary state or a node of `t`, `has_transition (t, s, c)` has a value
`b`, so the call returns `(s, b)` and leaves the tree as it was. -/
theorem test_and_split_explicit (t : suffix_tree_t) (s : Nat) (k p c : Int)
    (hk : 0 ≤ k) (hp : p < k) :
    test_and_split t s k p c = Except.map (fun b => (t, s, b)) (has_transition t s c) ∧
    (s = aux ∨ s < t.nodes.length →
      ∃ b, has_transition t s c = .ok b ∧ test_and_split t s k p c = .ok (t, s, b)) := by
  have heq : test_and_split t s k p c =
      Except.map (fun b => (t, s, b)) (has_transition t s c) := by
    unfold test_and_split
    rw [if_neg (by omega), if_neg (by omega)]
    cases has_transition t s c <;> rfl
  refine ⟨heq, fun hs => ?_⟩
  obtain ⟨b, hb⟩ := has_transition_total t s c hs
  exact ⟨b, hb, by rw [heq, hb]; rfl⟩

/-- Witness of C10: at node 2 of the tree of `"AAA"`, on `'A'`. -/
theorem test_and_split_explicit_witness :
    test_and_split aaa_tree 2 4 3 65 =
      Except.map (fun b => (aaa_tree, 2, b)) (has_transition aaa_tree 2 65) ∧
    ((2 : Nat) = aux ∨ 2 < aaa_tree.nodes.length →
      ∃ b, has_transition aaa_tree 2 65 = .ok b ∧
        test_and_split aaa_tree 2 4 3 65 = .ok (aaa_tree, 2, b)) :=
  test_and_split_explicit aaa_tree 2 4 3 65 (by decide) (by decide)

/-- Counterexample to claim C11: on a tree value whose edge of the `A`-transition
of the root has a label that starts with `B`, the split adds two edges and
leaves the two edges it found as they were; and a split at the auxiliary state
adds two edges and gives the table of the auxiliary state a second entry. -/
theorem test_and_split_two_edges :
    test_and_split wrong_key_tree root 0 0 88 = .ok (wrong_key_tree_split, 2, false) ∧
    wrong_key_tree.edges.length = 2 ∧ wrong_key_tree_split.edges.length = 4 ∧
    wrong_key_tree_split.edges.take 2 = wrong_key_tree.edges ∧
    Except.map (fun r => (r.1.edges.length, r.1.transitions[1]?, r.2))
      (test_and_split ab_tree aux 0 0 88) =
      .ok (4, some [⟨-1, 0⟩, ⟨65, 2⟩], 2, false) ∧
    ab_tree.edges.length = 2 ∧ ab_tree.transitions[1]? = some [⟨-1, 0⟩] := by
  decide!

/-- Claim C11 as amended: a call of `test_and_split` that returns `true` leaves
the whole tree unchanged; a call with `k <= p` at a node `s` other than the
auxiliary state, where the edge `e` leaving `s` on `text [k]` has a label that
starts with its key, and that returns `false`, adds one node and one edge,
changes only the end and the target of `e`, and leaves every other edge, every
node and every transition table that existed as it was. -/
theorem test_and_split_frame (t : suffix_tree_t) (s : Nat) (k p c : Int) :
    (∀ t1 r, test_and_split t s k p c = .ok (t1, r, true) → t1 = t ∧ r = s) ∧
    (∀ t1 r tk e, s ≠ aux → k ≤ p → text_at t k = .ok tk → g_ t s tk = .ok e →
      text_at t e.k = .ok tk → test_and_split t s k p c = .ok (t1, r, false) →
      r = t.nodes.length ∧ t1.text = t.text ∧
      t1.nodes.length = t.nodes.length + 1 ∧ t1.edges.length = t.edges.length + 1 ∧
      (∃ i, t.edges[i]? = some e ∧
        t1.edges[i]? = some { e with p := e.k + p - k, s_ := r } ∧
        ∀ j, j < t.edges.length → j ≠ i → t1.edges[j]? = t.edges[j]?) ∧
      (∀ j, j < t.nodes.length → t1.nodes[j]? = t.nodes[j]?) ∧
      (∀ j, j < t.transitions.length → t1.transitions[j]? = t.transitions[j]?)) :=
  ⟨fun _ _ h => test_and_split_true h,
   fun t1 r tk e hs hkp htk he hl h => split_frame t t1 s r k p c tk e hs hkp htk he hl h⟩

/-- The split of the third iteration over `"AA"` adds one node and one edge. -/
theorem test_and_split_frame_witness :
    aa_split.nodes.length = aa_two.nodes.length + 1 ∧
    aa_split.edges.length = aa_two.edges.length + 1 :=
  let h := (test_and_split_frame aa_two root 1 1 tilde).2 aa_split 2 65 ⟨root, 0, int_max, 0⟩
    (by decide) (by decide) (by decide!) (by decide!) (by decide!) (by decide!)
  ⟨h.2.2.1, h.2.2.2.1⟩

/-- Claim C12, which the code does not meet: after the first iteration over the
text `"\x80"` the table of the root has the one entry keyed -128, and
`has_transition` answers `true` for `A` at the root although no entry has the
key `A` and the read-only `g_` finds no transition; in general `has_transition`
at a node other than the auxiliary state answers `true` exactly when the table
of the node has an entry whose key is the character or is negative. -/
theorem has_transition_wildcard :
    driver 1 1 (init_tree [-128]) root 0 0 = .ok (first_tree [-128], root, 1) ∧
    out_edges (first_tree [-128]) root = [⟨root, 0, int_max, 0⟩] ∧
    (first_tree [-128]).transitions[2]? = some [⟨-128, 1⟩] ∧
    (first_tree [-128]).nodes[root]? = some ⟨aux, 2⟩ ∧
    has_transition (first_tree [-128]) root 65 = .ok true ∧
    g_ (first_tree [-128]) root 65 = .error .missing ∧
    (∀ (t : suffix_tree_t) (s : Nat) (c : Int) (n : node_type), s ≠ aux → t.nodes[s]? = some n →
      (has_transition t s c = .ok true ↔
        n.tset ≠ 0 ∧ ∃ ts tr, t.transitions[n.tset]? = some ts ∧ tr ∈ ts ∧
          (tr.c = c ∨ tr.c < 0))) := by
  refine ⟨by decide!, by decide!, by decide!, by decide!, by decide!, by decide!, ?_⟩
  intro t s c n hs hn
  rw [has_transition_eq t s c n hs hn]
  cases h : t.transitions[n.tset]? with
  | none => simp [has_transition_in]
  | some ts => simp [has_transition_in]

/-- Claim C13, which the code does not meet: the first iteration over the text
`"\x80"` gives the root the key -128, `has_transition` then reports `~` at the
root, where the read-only `g_` finds no transition, and `make_suffix_tree`
ends in the failed check of `g_`; over the text `"~\x80"` a tree is returned
and its root has the key -128, so that `has_transition` reports `A` at the
root, where there is no edge. -/
theorem negative_key_on_root (fuel : Nat) :
    driver (fuel + 1) 1 (init_tree [-128]) root 0 0 = .ok (first_tree [-128], root, 1) ∧
    table_of (first_tree [-128]) root = [⟨-128, 1⟩] ∧
    has_transition (first_tree [-128]) root tilde = .ok true ∧
    g_ (first_tree [-128]) root tilde = .error .missing ∧
    make_suffix_tree (fuel + 1) [-128] = .error .missing ∧
    make_suffix_tree (fuel + 1) [tilde, -128] = .ok tilde_neg_tree ∧
    table_of tilde_neg_tree root = [⟨126, 1⟩, ⟨-128, 2⟩] ∧
    has_transition tilde_neg_tree root 65 = .ok true ∧
    g_ tilde_neg_tree root 65 = .error .missing := by
  refine ⟨first_iteration [-128] fuel, by decide!, by decide!, by decide!, ?_, ?_, by decide!,
    by decide!, by decide!⟩
  · exact make_suffix_tree_all_fuel 1 (by decide!) (by decide) _ (by omega)
  · exact make_suffix_tree_all_fuel 1 (by decide!) (by decide) _ (by omega)

/-- Counterexample to claim C14: on a tree value whose edge of the `A`-transition
of the root records node 7 as its source, the lookup after the assignment
`g_ (t, root, { 0, 0 }) = 1` returns an edge with source 7, not the root; and on
a tree value in which node 2 uses the table of the root, the assignment
`g_ (t, root, { 1, 1 }) = 0` gives node 2 a transition on `B` that it did not
have. -/
theorem set_then_get_ill_formed :
    text_at wrong_source_tree 0 = .ok 65 ∧
    (g_mut wrong_source_tree root 0 0).bind (fun r => g_ (set_target r.1 r.2 1) root 65) =
      .ok ⟨7, 0, 0, 1⟩ ∧
    text_at shared_table_tree 1 = .ok 66 ∧
    g_ shared_table_tree 2 66 = .error .missing ∧
    (g_mut shared_table_tree root 1 1).bind (fun r => g_ (set_target r.1 r.2 0) 2 66) =
      .ok ⟨1, 1, 1, 0⟩ := by
  decide!

/-- Claim C14 as amended: on a well-formed tree, for a node `s` of the tree other
than the auxiliary state and a valid text index `k`, the assignment
`g_ (t, s, { k, p }) = x` succeeds; afterwards the lookup of `text [k]` at `s`
returns the edge `(s, k, p, x)`; if `s` had no entry keyed by `text [k]` one
edge and one table entry are appended, otherwise the edge found is overwritten
in place and the table of `s` is unchanged; the tables of the other nodes are
unchanged and for every other pair of a node and a character the lookup
returns what it returned before. -/
theorem set_then_get (t : suffix_tree_t) (s : Nat) (k p tk : Int) (x : Nat)
    (hw : well_formed t) (hs : s ≠ aux) (hn : s < t.nodes.length)
    (htk : text_at t k = .ok tk) :
    ∃ t1 e, g_mut t s k p = .ok (t1, e) ∧
      g_ (set_target t1 e x) s tk = .ok ⟨s, k, p, x⟩ ∧
      (¬ has_key t s tk →
        (set_target t1 e x).edges = t.edges ++ [⟨s, k, p, x⟩] ∧
        table_of (set_target t1 e x) s = table_of t s ++ [⟨tk, t.edges.length⟩]) ∧
      (has_key t s tk →
        e < t.edges.length ∧ (set_target t1 e x).edges = t.edges.set e ⟨s, k, p, x⟩ ∧
        table_of (set_target t1 e x) s = table_of t s) ∧
      (∀ s2, s2 ≠ s → table_of (set_target t1 e x) s2 = table_of t s2) ∧
      (∀ s2 c2 ed, (s2 ≠ s ∨ c2 ≠ tk) →
        (g_ (set_target t1 e x) s2 c2 = .ok ed ↔ g_ t s2 c2 = .ok ed)) := by
  obtain ⟨t1, e, hg⟩ := g_mut_total p hw hn htk
  obtain ⟨hothers, hcase⟩ := assign_table x hw htk hg
  refine ⟨t1, e, hg, ?_, ?_, ?_, hothers, ?_⟩
  · rw [g_table hs]
    rcases hcase with ⟨hno, _, htab, hed⟩ | ⟨tr, ed, hf, he, _, htab, hed⟩
    · refine ⟨⟨tk, t.edges.length⟩, ?_, ?_⟩
      · rw [htab]
        exact find_concat_eq _ (find_none_iff.mpr hno)
      · rw [hed]
        exact List.getElem?_concat_length _ _
    · refine ⟨tr, by rw [htab]; exact hf, ?_⟩
      rw [hed]
      exact List.getElem?_set_self (table_edge_lt hw (List.mem_of_find?_eq_some hf))
  · intro hno
    rcases hcase with ⟨_, _, htab, hed⟩ | ⟨tr, ed, hf, _, _, _, _⟩
    · exact ⟨hed, htab⟩
    · exact absurd hf (by rw [find_none_iff.mpr hno]; simp)
  · intro hkey
    rcases hcase with ⟨hno, _, _, _⟩ | ⟨tr, ed, hf, he, _, htab, hed⟩
    · exact absurd hkey hno
    · subst he
      exact ⟨table_edge_lt hw (List.mem_of_find?_eq_some hf), hed, htab⟩
  · intro s2 c2 ed hne
    by_cases hs2 : s2 = aux
    · subst hs2
      unfold g_
      simp
    · rw [g_table hs2, g_table hs2]
      have hfind : (table_of (set_target t1 e x) s2).find? (fun arg => decide (c2 = arg.c)) =
          (table_of t s2).find? (fun arg => decide (c2 = arg.c)) := by
        by_cases h2 : s2 = s
        · subst h2
          have hc : c2 ≠ tk := by
            rcases hne with g | g
            · exact absurd rfl g
            · exact g
          rcases hcase with ⟨_, _, htab, _⟩ | ⟨_, _, _, _, _, htab, _⟩
          · rw [htab]
            exact find_concat_ne _ hc
          · rw [htab]
        · rw [hothers s2 h2]
      have hedge : ∀ tr2, (table_of t s2).find? (fun arg => decide (c2 = arg.c)) = some tr2 →
          (set_target t1 e x).edges[tr2.e]? = t.edges[tr2.e]? := by
        intro tr2 hf2
        have hmem2 := List.mem_of_find?_eq_some hf2
        have hlt := table_edge_lt hw hmem2
        rcases hcase with ⟨_, _, _, hed⟩ | ⟨tr, _, hf, _, _, _, hed⟩
        · rw [hed]
          exact List.getElem?_append_left hlt
        · rw [hed]
          apply set_other
          intro heq
          obtain ⟨j2, hj2⟩ := List.mem_iff_getElem?.mp hmem2
          obtain ⟨j, hj⟩ := List.mem_iff_getElem?.mp (List.mem_of_find?_eq_some hf)
          obtain ⟨g1, g2⟩ := table_edge_inj hw hj2 hj heq
          subst g1
          subst g2
          rw [hj2] at hj
          cases hj
          have k1 := List.find?_some hf2
          have k2 := List.find?_some hf
          simp only [decide_eq_true_eq] at k1 k2
          rcases hne with g | g
          · exact g rfl
          · exact g (by rw [k1, k2])
      rw [hfind]
      constructor
      · rintro ⟨tr2, hf2, hed2⟩
        exact ⟨tr2, hf2, by rw [← hedge tr2 hf2]; exact hed2⟩
      · rintro ⟨tr2, hf2, hed2⟩
        exact ⟨tr2, hf2, by rw [hedge tr2 hf2]; exact hed2⟩

/-- The tree after the first iteration of the driver over `"AB~"` is well
formed, and the assignment `g_ (t, root, { 1, 1 }) = 0` on it makes the lookup
of `B` at the root return the edge `(root, 1, 1, 0)`. -/
theorem set_then_get_witness :
    ∃ t1 e, g_mut (first_tree [65, 66]) root 1 1 = .ok (t1, e) ∧
      g_ (set_target t1 e 0) root 66 = .ok ⟨root, 1, 1, 0⟩ :=
  let ⟨t1, e, h1, h2, _⟩ := set_then_get (first_tree [65, 66]) root 1 1 66 0
    (driver_init_inv (first_iteration [65, 66] 0)).1 (by decide) (by decide) (by decide)
  ⟨t1, e, h1, h2⟩

/-- Claim C15: the read-only `g_` at the auxiliary state returns the edge
`(aux, 0, 0, root)` for every tree and every character, whatever the tables
hold.  At any other node the lookup is an exact match on the character, in both
directions: a lookup that succeeds returns the edge of an entry of the table of
the node whose key is the character; when the table has an entry whose key is
the character, and the entries with this key have their edges in the tree, the
lookup succeeds and returns the edge of the first such entry, the one `find_if`
stops at; and when no entry of the table has the character as its key the
lookup fails, whatever other keys, negative ones included, the table has. -/
theorem g_aux_synthetic :
    (∀ (t : suffix_tree_t) (c : Int), g_ t aux c = .ok ⟨aux, 0, 0, root⟩) ∧
    (∀ (t : suffix_tree_t) (s : Nat) (c : Int) (e : edge_type), s ≠ aux → g_ t s c = .ok e →
      ∃ n ts tr, t.nodes[s]? = some n ∧ n.tset ≠ 0 ∧ t.transitions[n.tset]? = some ts ∧
        tr ∈ ts ∧ tr.c = c ∧ t.edges[tr.e]? = some e) ∧
    (∀ (t : suffix_tree_t) (s : Nat) (c : Int) (n : node_type) (ts : List transition_type)
      (tr : transition_type),
      s ≠ aux → t.nodes[s]? = some n → n.tset ≠ 0 → t.transitions[n.tset]? = some ts →
      tr ∈ ts → tr.c = c → (∀ x ∈ ts, x.c = c → x.e < t.edges.length) →
      ∃ tr1 e, ts.find? (fun arg => decide (c = arg.c)) = some tr1 ∧ tr1 ∈ ts ∧ tr1.c = c ∧
        t.edges[tr1.e]? = some e ∧ g_ t s c = .ok e) ∧
    (∀ (t : suffix_tree_t) (s : Nat) (c : Int) (n : node_type) (ts : List transition_type)
      (tr : transition_type) (e : edge_type),
      s ≠ aux → t.nodes[s]? = some n → n.tset ≠ 0 → t.transitions[n.tset]? = some ts →
      ts.find? (fun arg => decide (c = arg.c)) = some tr → t.edges[tr.e]? = some e →
      g_ t s c = .ok e) ∧
    (∀ (t : suffix_tree_t) (s : Nat) (c : Int) (n : node_type) (ts : List transition_type),
      s ≠ aux → t.nodes[s]? = some n → n.tset ≠ 0 → t.transitions[n.tset]? = some ts →
      (∀ tr ∈ ts, tr.c ≠ c) → g_ t s c = .error .missing) := by
  refine ⟨fun t c => rfl, ?_, ?_, ?_, ?_⟩
  · intro t s c e hs h
    obtain ⟨n, ts, tr, hn, h0, hts, htr, he⟩ := g_inv hs h
    refine ⟨n, ts, tr, hn, h0, hts, List.mem_of_find?_eq_some htr, ?_, he⟩
    have := List.find?_some htr
    exact (by simpa using this : c = tr.c).symm
  · intro t s c n ts tr hs hn h0 hts hmem hc hrange
    cases hf : ts.find? (fun arg => decide (c = arg.c)) with
    | none =>
      rw [List.find?_eq_none] at hf
      exact absurd (hf tr hmem) (by simp [hc])
    | some tr1 =>
      have h1 : tr1 ∈ ts := List.mem_of_find?_eq_some hf
      have h2 : tr1.c = c := by
        have := List.find?_some hf
        exact (by simpa using this : c = tr1.c).symm
      have h3 := hrange tr1 h1 h2
      exact ⟨tr1, t.edges[tr1.e], rfl, h1, h2, List.getElem?_eq_getElem h3,
        g_of hs hn h0 hts hf (List.getElem?_eq_getElem h3)⟩
  · intro t s c n ts tr e hs hn h0 hts hf he
    exact g_of hs hn h0 hts hf he
  · intro t s c n ts hs hn h0 hts hno
    exact g_missing hs hn h0 hts hno

/-- The lookup of `A` at the root of the tree over `"AB~"` after one iteration,
whose one key is `A`, returns the open edge of the root, and the lookup of `~`
at node 2 of the tree of `"AAA"`, whose keys are `A` and `~`, returns the edge
of the second entry; the lookup of `C` at that root fails, and so does the
lookup of `A` at the root of the tree after the first iteration over `"\x80"`,
whose one key is -128. -/
theorem g_aux_synthetic_witness :
    g_ ab_tree root 65 = .ok ⟨root, 0, int_max, 0⟩ ∧
    g_ aaa_tree 2 126 = .ok ⟨2, 3, int_max, 0⟩ ∧
    (∃ tr1 e, [(⟨65, 1⟩ : transition_type)].find? (fun arg => decide (65 = arg.c)) = some tr1 ∧
      tr1 ∈ [(⟨65, 1⟩ : transition_type)] ∧ tr1.c = 65 ∧ ab_tree.edges[tr1.e]? = some e ∧
      g_ ab_tree root 65 = .ok e) ∧
    g_ ab_tree root 67 = .error .missing ∧ g_ (first_tree [-128]) root 65 = .error .missing :=
  ⟨g_aux_synthetic.2.2.2.1 ab_tree root 65 ⟨aux, 2⟩ [⟨65, 1⟩] ⟨65, 1⟩ ⟨root, 0, int_max, 0⟩
      (by decide) (by decide) (by decide) (by decide) (by decide) (by decide),
   g_aux_synthetic.2.2.2.1 aaa_tree 2 126 ⟨3, 3⟩ [⟨65, 2⟩, ⟨126, 3⟩] ⟨126, 3⟩ ⟨2, 3, int_max, 0⟩
      (by decide) (by decide) (by decide) (by decide) (by decide) (by decide),
   g_aux_synthetic.2.2.1 ab_tree root 65 ⟨aux, 2⟩ [⟨65, 1⟩] ⟨65, 1⟩ (by decide) (by decide)
      (by decide) (by decide) (by decide) (by decide) (by decide),
   g_aux_synthetic.2.2.2.2 ab_tree root 67 ⟨aux, 2⟩ [⟨65, 1⟩] (by decide) (by decide) (by decide)
      (by decide) (by decide),
   g_aux_synthetic.2.2.2.2 (first_tree [-128]) root 65 ⟨aux, 2⟩ [⟨-128, 1⟩] (by decide)
      (by decide!) (by decide) (by decide!) (by decide)⟩

/-- Counterexample to claim C16: the split of the third iteration over `"AA"`
returns the new node 2, and the suffix link of node 2 in the tree returned is
the auxiliary state 0, not the root. -/
theorem fresh_node_link_aux :
    driver 2 2 (init_tree [65, 65]) root 0 0 = .ok (aa_two, root, 1) ∧
    test_and_split aa_two root 1 1 tilde = .ok (aa_split, 2, false) ∧
    link aa_split 2 = .ok aux ∧ link aa_split 2 ≠ .ok root := by
  decide!

/-- Claim C16 as amended: for every call of `test_and_split` with `k <= p` that
returns `(r, false)`, `r` is the index of the node added by the call and its
suffix link in the tree returned is the auxiliary state (node 0). -/
theorem fresh_node_link (t t1 : suffix_tree_t) (s r : Nat) (k p c : Int) (hkp : k ≤ p)
    (h : test_and_split t s k p c = .ok (t1, r, false)) :
    r = t.nodes.length ∧ t1.nodes.length = t.nodes.length + 1 ∧ link t1 r = .ok aux := by
  rcases test_and_split_links h with ⟨_, _, hb⟩ | ⟨_, _, hr, hl, _⟩
  · exact absurd (hb hkp) (by decide)
  · have hlen : t1.nodes.length = t.nodes.length + 1 := by
      have := congrArg List.length hl
      simpa [links] using this
    refine ⟨hr, hlen, ?_⟩
    rw [link_eq_links, hl, hr]
    have : (links t).length = t.nodes.length := by simp [links]
    rw [← this, List.getElem?_concat_length]

/-- The split of the edge `AB...` of the root of the tree over `"AB~"` behind
`A`, on the character `X`. -/
theorem fresh_node_link_witness :
    ∃ t1, test_and_split ab_tree root 0 0 88 = .ok (t1, 2, false) ∧ link t1 2 = .ok aux :=
  ⟨⟨[65, 66, 126], [⟨1, 1⟩, ⟨0, 2⟩, ⟨0, 3⟩], [[], [⟨-1, 0⟩], [⟨65, 1⟩], [⟨66, 2⟩]],
      [⟨0, 0, 0, 1⟩, ⟨1, 0, 0, 2⟩, ⟨2, 1, int_max, 0⟩]⟩, by decide!,
    (fresh_node_link ab_tree _ root 2 0 0 88 (by decide) (by decide!)).2.2⟩

/-- Claim C17: the tree that `make_suffix_tree ("A")` returns has exactly two
open leaf edges, with the labels `"A~"` and `"~"`, and its root has exactly two
outgoing transitions. -/
theorem scenario_letter_a (fuel : Nat) :
    make_suffix_tree (fuel + 1) [65] = .ok a_tree ∧
    leaves a_tree = [⟨root, 0, int_max, 0⟩, ⟨root, 1, int_max, 0⟩] ∧
    (leaves a_tree).length = 2 ∧
    (leaves a_tree).map (edge_label a_tree) = [[65, 126], [126]] ∧
    out_edges a_tree root = [⟨root, 0, int_max, 0⟩, ⟨root, 1, int_max, 0⟩] ∧
    (out_edges a_tree root).length = 2 ∧ (table_of a_tree root).length = 2 := by
  refine ⟨?_, by decide!, by decide!, by decide!, by decide!, by decide!, by decide!⟩
  exact make_suffix_tree_all_fuel 1 (by decide!) (by decide) _ (by omega)

/-- Claim C18: the tree that `make_suffix_tree ("ABCABC")` returns has the node
2, other than the root and the auxiliary state, whose path label from the root
is `"ABC"` and which has exactly two outgoing edges, whose labels start with
`A` and with `~`; node 2 is the node that the split branch of `test_and_split`
makes in the seventh iteration, where the tree has no node but the auxiliary
state and the root before the call. -/
theorem scenario_abcabc (fuel : Nat) :
    make_suffix_tree (fuel + 4) [65, 66, 67, 65, 66, 67] = .ok abcabc_tree ∧
    path_label abcabc_tree 2 [65, 66, 67] ∧
    out_edges abcabc_tree 2 = [⟨2, 3, int_max, 0⟩, ⟨2, 6, int_max, 0⟩] ∧
    (out_edges abcabc_tree 2).map (fun e => (edge_label abcabc_tree e).head?) =
      [some 65, some 126] ∧
    driver 4 6 (init_tree [65, 66, 67, 65, 66, 67]) root 0 0 = .ok (abcabc_six, root, 3) ∧
    abcabc_six.nodes.length = 2 ∧
    test_and_split abcabc_six root 3 5 tilde = .ok (abcabc_split, 2, false) ∧
    path_label abcabc_split 2 [65, 66, 67] := by
  refine ⟨?_, ?_, by decide!, by decide!, by decide!, by decide!, by decide!, ?_⟩
  · exact make_suffix_tree_all_fuel 4 (by decide!) (by decide) _ (by omega)
  · exact path_label.step root [] ⟨1, 0, 2, 2⟩ path_label.at_root (by decide!) (by decide)
  · exact path_label.step root [] ⟨1, 0, 2, 2⟩ path_label.at_root (by decide!) (by decide)

/-- Claim C20: in a call `update (t, s, { k, n })` that the driver makes after
`n` iterations and that returns `(t1, s1, k1)`, the nodes `r_1, ..., r_m` of the
runs of the loop body are distinct and none is the auxiliary state; in `t1`
every `r_j` other than the root links to `r_(j+1)` and `r_m`, if it is not the
root, links to the returned node `s1`; every node created in the call is one of
the `r_j`; and the links of the root, of the auxiliary state and of every other
node that is not one of the `r_j` are what they were in `t`. -/
theorem update_link_chain (fuel n : Nat) (text : List Int) (t t1 : suffix_tree_t) (s s1 : Nat)
    (k k1 : Int) (hd : driver fuel n (init_tree text) root 0 0 = .ok (t, s, k))
    (hu : update fuel t s k n = .ok (t1, s1, k1)) :
    ∃ rs, update_nodes fuel t s k n = .ok rs ∧ rs.Nodup ∧ aux ∉ rs ∧
      (∀ (j a b : Nat), rs[j]? = some a → rs[j + 1]? = some b → a ≠ root →
        link t1 a = .ok b) ∧
      (∀ a, rs.getLast? = some a → a ≠ root → link t1 a = .ok s1) ∧
      (∀ v, t.nodes.length ≤ v → v < t1.nodes.length → v ∈ rs) ∧
      link t1 root = link t root ∧ link t1 aux = link t aux ∧
      (∀ v, v < t.nodes.length → v ∉ rs → link t1 v = link t v) := by
  have hw := (driver_init_inv hd).1
  obtain ⟨rs, h1, h2, h3, h4, h5, h6, h7⟩ := update_chain hw hu
  have hge := hw.nodes_ge
  have haux : aux ∉ rs := fun h => (h3 aux h) rfl
  exact ⟨rs, h1, h2, haux, h4, h5, h6, h7 root (by unfold root; omega) (Or.inr rfl),
    h7 aux (by unfold aux; omega) (Or.inl haux), fun v hv hn => h7 v hv (Or.inl hn)⟩

/-- The third iteration over `"AA"`: the loop body runs for the new node 2 and
for the root, and node 2 links to the root. -/
theorem update_link_chain_witness :
    ∃ rs, update_nodes 2 aa_two root 1 2 = .ok rs ∧ rs.Nodup ∧ aux ∉ rs ∧
      (∀ (j a b : Nat), rs[j]? = some a → rs[j + 1]? = some b → a ≠ root →
        link aa_three a = .ok b) :=
  let ⟨rs, h1, h2, h3, h4, _⟩ := update_link_chain 2 2 [65, 65] aa_two aa_three root 0 1 2
    (by decide!) (by decide!)
  ⟨rs, h1, h2, h3, h4⟩

/-- Claim C21: once the driver has made `n` iterations and holds the tree `t`,
the suffix link of every node of `t` keeps its value: it is the same in the
tree after any later iteration, in the tree at every later test of `while (!b)`
of `update`, and in the tree that `make_suffix_tree` returns; and whenever `oldr`
is such a node other than the root, the link that `update` is about to assign to
it, `r` inside the loop and `s` after it, is the value the link has already. -/
theorem link_written_once (fuel n : Nat) (text : List Int) (t : suffix_tree_t) (s : Nat)
    (k : Int) (hd : driver fuel n (init_tree text) root 0 0 = .ok (t, s, k)) :
    (∀ (m : Nat) (t1 : suffix_tree_t) (s1 : Nat) (k1 : Int), n ≤ m →
      driver fuel m (init_tree text) root 0 0 = .ok (t1, s1, k1) →
      ∀ v, v < t.nodes.length → link t1 v = link t v) ∧
    (∀ (i : Int) (c : loop_state), (n : Int) ≤ i → loop_head fuel text i c →
      (∀ v, v < t.nodes.length → link c.t v = link t v) ∧
      (c.oldr ≠ root → c.oldr < t.nodes.length →
        link c.t c.oldr = .ok c.r ∧ link c.t c.oldr = .ok c.s)) ∧
    (∀ t1, n ≤ text.length + 1 → make_suffix_tree fuel text = .ok t1 →
      ∀ v, v < t.nodes.length → link t1 v = link t v) := by
  refine ⟨fun m t1 s1 k1 hnm hd1 => (driver_later hnm hd hd1).2, ?_, ?_⟩
  · intro i c hi hc
    obtain ⟨m, t0, s0, k0, hd0, him, h1, _, _, h4⟩ := loop_head_old_links hc
    subst him
    obtain ⟨g1, g2⟩ := driver_later (by exact_mod_cast hi) hd hd0
    refine ⟨fun v hv => ?_, fun ho hlt => ?_⟩
    · rw [← g2 v hv]
      exact link_congr (h1 v (by omega))
    · obtain ⟨f1, f2⟩ := h4 ho (by omega)
      rw [link_eq_links, link_eq_links, ← f2]
      exact ⟨f1, f1⟩
  · intro t1 hn h
    unfold make_suffix_tree at h
    simp only at h
    split at h
    · cases h
    · rename_i t2 s2 k2 hd2
      cases h
      refine (driver_later ?_ hd hd2).2
      simpa [init_tree] using hn

/-- Node 2 of the tree over `"AAB~"` is made in the third iteration and links to
the root in the tree that `make_suffix_tree` returns as it does after the third
iteration. -/
theorem link_written_once_witness : link aab_tree 2 = link aab_three 2 :=
  (link_written_once 3 3 [65, 65, 66] aab_three root 3 (by decide!)).2.2 aab_tree (by decide)
    (by decide!) 2 (by decide)

/-- Claim C23 (compactness), evaluated at the text `"\x80"` of a signed `char`
(the one character `-128`, which is not `'~'`).  The claim promises, for every
text without `'~'`, a returned tree whose nodes other than the auxiliary state
and the root have at least two transitions each; on this text the construction
returns no tree, with any fuel: the root gets the key `-128`, `has_transition`
takes it for the wildcard, no leaf is made for `'~'`, and the lookup of `'~'`
in the `canonize` call of the driver fails `assert (iter != ts.end ())`.  The
counts themselves are not at fault: whenever a tree is returned, for a text
whose length plus one does not exceed `numeric_limits<int>::max ()`, every node
other than the auxiliary state and the root has at least two transitions, each
with its edge, there are at most `|text|` such nodes and at most
`2 * |text| + 1` edges besides the edge of the auxiliary state. -/
theorem negative_char_no_compact_tree (fuel : Nat) :
    make_suffix_tree (fuel + 1) [-128] = .error .missing ∧
    (∀ t : suffix_tree_t, make_suffix_tree fuel [-128] ≠ .ok t) ∧
    (∀ (text : List Int) (t : suffix_tree_t), (text.length : Int) + 1 ≤ int_max →
      make_suffix_tree fuel text = .ok t →
      (∀ v : Nat, 2 ≤ v → v < t.nodes.length →
        2 ≤ (table_of t v).length ∧ 2 ≤ (out_edges t v).length) ∧
      t.nodes.length ≤ text.length + 2 ∧ t.edges.length ≤ 2 * text.length + 1 + 1) := by
  have h1 : make_suffix_tree 1 [-128] = .error .missing := by decide!
  refine ⟨make_suffix_tree_all_fuel 1 h1 (by decide) _ (by omega), ?_, ?_⟩
  · intro t ht
    rcases make_suffix_tree_stable h1 (by decide) fuel with h | h <;> rw [h] at ht <;> cases ht
  · intro text t hlen h
    exact compact_returned text fuel t hlen h

end ukkonen
